import Mathlib

/-!
Shallow embedding of `src/tools/validate_program.py` (the ABC-notation music
program validator).  Strings are modelled as `List Char`; Python floats are
modelled as exact rationals (`ℚ`) — every duration/beat value that the claims
touch is a small dyadic rational, exactly representable as a float, so the
ℚ model agrees with the float semantics on all inputs the theorems mention.
Fallible Python code is modelled in `Except PyErr`: an uncaught Python
exception is an `Except.error` value at the top of the pipeline.
-/

deriving instance DecidableEq for Except

namespace ValidateProgram

/-- A Python exception escaping a function: either a `ValueError` carrying its
message, or a `ZeroDivisionError` (raised by `x / 0.0` on floats). -/
inductive PyErr where
  | valueError (msg : List Char)
  | zeroDivisionError
deriving DecidableEq, Repr

/-- Shorthand: the character list of a string literal. -/
def str (s : String) : List Char := s.data

/-- The whitespace set of Python `str.strip()` / `str.isspace()`. -/
def pyIsSpace (c : Char) : Bool :=
  c = ' ' ∨ c = '\t' ∨ c = '\n' ∨ c = '\r' ∨ c = '\x0b' ∨ c = '\x0c'

/-- Python `s.strip()` (no argument): drop whitespace from both ends. -/
def pyStripWs (l : List Char) : List Char :=
  ((l.dropWhile pyIsSpace).reverse.dropWhile pyIsSpace).reverse

/-- Python `s.strip(chars)`: drop any of the given characters from both ends.
Used for `chord_str.strip('[]')` (validate_program.py:243). -/
def pyStripChars (cs : List Char) (l : List Char) : List Char :=
  ((l.dropWhile (cs.contains ·)).reverse.dropWhile (cs.contains ·)).reverse

/-- Python `s.rstrip(chars)` for a single character, used for
`chord_str.rstrip(']')` (validate_program.py:250, 369). -/
def pyRStrip (c : Char) (l : List Char) : List Char :=
  (l.reverse.dropWhile (· = c)).reverse

/-- Python `s.split(sep)` for a one-character separator: always returns at
least one (possibly empty) part; `''.split('/') == ['']`. -/
def pySplit (sep : Char) : List Char → List (List Char)
  | [] => [[]]
  | c :: r =>
      if c = sep then [] :: pySplit sep r
      else
        match pySplit sep r with
        | p :: ps => (c :: p) :: ps
        | [] => [[c]]

/-- Numeric value of a list of decimal digit characters (most significant
first), as accumulated by a left fold. -/
def digitsVal (l : List Char) : Nat :=
  l.foldl (fun a c => a * 10 + (c.toNat - 48)) 0

/-- Decimal digit characters of a natural number (fuel-indexed helper; any
fuel above the number itself yields the digits). -/
def natStrF : Nat → Nat → List Char
  | 0, _ => []
  | fuel + 1, n =>
      if n < 10 then [Char.ofNat (48 + n)]
      else natStrF fuel (n / 10) ++ [Char.ofNat (48 + n % 10)]

/-- Decimal digit characters of a natural number, as produced by Python
`str(...)` on a non-negative integer. -/
def natStr (n : Nat) : List Char := natStrF (n + 1) n

/-- Decimal digit characters of an integer, as produced by Python `str(...)`. -/
def intStr (i : Int) : List Char :=
  if i < 0 then '-' :: natStr i.natAbs else natStr i.toNat

/-- Python's numeric-literal underscore rule (PEP 515): a `'_'` is legal only
when it sits directly between two digits (so `1_0` is a valid spelling of
`10`, while `_1`, `1_`, `1__0` and `1_.5` all raise `ValueError`). -/
def underscoresOK : List Char → Bool
  | [] => true
  | '_' :: _ => false
  | a :: '_' :: r =>
      a.isDigit && (match r with | b :: _ => b.isDigit | [] => false) &&
        underscoresOK r
  | _ :: r => underscoresOK r

/-- Python `float(s)` on the numeric-literal forms the validator can feed it:
optional sign, then decimal digits with an optional fractional part, with
PEP 515 underscores permitted between digits.  (The remaining `float`
spellings — exponents, `inf`/`nan` — never occur in the hypotheses of the
theorems below, whose duration strings draw their characters from digits and
the punctuation marks `' , ^ _ =`.)  Returns `none` exactly when Python
raises `ValueError`. -/
def pyFloat (s : List Char) : Option ℚ :=
  let t := pyStripWs s
  let sign : ℚ := if t.head? = some '-' then -1 else 1
  let u0 := if t.head? = some '-' ∨ t.head? = some '+' then t.tail else t
  if underscoresOK u0 then
    let u := u0.filter (fun c => c ≠ '_')
    let intPart := u.takeWhile Char.isDigit
    let rest := u.dropWhile Char.isDigit
    match rest with
    | [] => if intPart = [] then none else some (sign * digitsVal intPart)
    | '.' :: frac =>
        if frac.all Char.isDigit ∧ (intPart ≠ [] ∨ frac ≠ []) then
          some (sign * ((digitsVal intPart : ℚ) + digitsVal frac / 10 ^ frac.length))
        else none
    | _ => none
  else none

/-- Python `float(s)` as an `Except`: `ValueError` when unparseable. -/
def pyFloatE (s : List Char) : Except PyErr ℚ :=
  match pyFloat s with
  | some q => .ok q
  | none => .error (.valueError (str "could not convert string to float: " ++ s))

/-- Python float division: raises `ZeroDivisionError` on a zero divisor. -/
def pyDiv (a b : ℚ) : Except PyErr ℚ :=
  if b = 0 then .error .zeroDivisionError else .ok (a / b)

/-- Python `int(q)` on a float: truncation toward zero. -/
def pyInt (q : ℚ) : Int :=
  if 0 ≤ q then ⌊q⌋ else ⌈q⌉

/-- `VALID_BAR_LENGTHS` (validate_program.py:43). -/
def VALID_BAR_LENGTHS : List ℚ := [1/8, 1/4, 1/2, 1, 2, 4, 8, 16]

/-- `ABC_BASE_NOTES` (validate_program.py:48-51): base MIDI pitch per letter. -/
def ABC_BASE_NOTES : List (Char × Int) :=
  [('C', 48), ('D', 50), ('E', 52), ('F', 53), ('G', 55), ('A', 57), ('B', 59),
   ('c', 60), ('d', 62), ('e', 64), ('f', 65), ('g', 67), ('a', 69), ('b', 71)]

/-- `NOTE_NAMES` (validate_program.py:53). -/
def NOTE_NAMES : List (List Char) :=
  [str "C", str "C#", str "D", str "D#", str "E", str "F",
   str "F#", str "G", str "G#", str "A", str "A#", str "B"]

/-- `SCALES` (validate_program.py:55-64). -/
def SCALES : List (List Char × List Int) :=
  [(str "major", [0, 2, 4, 5, 7, 9, 11]),
   (str "minor", [0, 2, 3, 5, 7, 8, 10]),
   (str "dorian", [0, 2, 3, 5, 7, 9, 10]),
   (str "mixolydian", [0, 2, 4, 5, 7, 9, 10]),
   (str "pentatonic_major", [0, 2, 4, 7, 9]),
   (str "pentatonic_minor", [0, 3, 5, 7, 10]),
   (str "blues", [0, 3, 5, 6, 7, 10]),
   (str "chromatic", [0, 1, 2, 3, 4, 5, 6, 7, 8, 9, 10, 11])]

/-- A note event dict produced by the program builder
(validate_program.py:382-387, 394-399). -/
structure NoteEvent where
  pitch : Int
  startBeat : ℚ
  lengthBeats : ℚ
  velocity : ℚ
deriving DecidableEq, Repr

/-- A program dict `{lengthBars, notes}` (validate_program.py:418-421). -/
structure Program where
  lengthBars : ℚ
  notes : List NoteEvent
deriving DecidableEq, Repr

/-- The `ValidationResult` dataclass (validate_program.py:67-74). -/
structure ValidationResult where
  valid : Bool
  abc_input : List Char
  program : Option Program
  errors : List (List Char)
  warnings : List (List Char)
  abc_output : Option (List Char)
deriving DecidableEq, Repr

/-- The fraction branch of duration parsing, shared verbatim between the rest
case (validate_program.py:163-168) and the note case (lines 221-226):
`parts = s.split('/'); parts[0]/parts[1]` or `1.0/parts[1]`.  A non-numeric
part raises `ValueError` from `float`; a zero denominator raises
`ZeroDivisionError`.  (Python would raise `IndexError` were `parts[1]`
missing; callers only reach this branch when `'/' ∈ s`, so `parts` has at
least two entries.) -/
def parseFracDur (s : List Char) : Except PyErr ℚ :=
  let parts := pySplit '/' s
  let p0 := parts.getD 0 []
  let p1 := parts.getD 1 []
  if p0 ≠ [] then
    match pyFloatE p0 with
    | .error e => .error e
    | .ok a =>
        match pyFloatE p1 with
        | .error e => .error e
        | .ok b => pyDiv a b
  else
    match pyFloatE p1 with
    | .error e => .error e
    | .ok b => pyDiv 1 b

/-- `ABC_BASE_NOTES[base_char]` lookup (validate_program.py:199-203). -/
def abcBaseNote (c : Char) : Option Int := ABC_BASE_NOTES.lookup c

/-- The rest-duration parse (validate_program.py:160-173): default `1.0`; a
slash suffix uses the fraction branch; a non-numeric slash-free suffix is
silently ignored (`except ValueError: pass`). -/
def parseRestDur (rest_part : List Char) : Except PyErr ℚ :=
  if rest_part = [] then .ok 1
  else if rest_part.contains '/' then parseFracDur rest_part
  else
    match pyFloat rest_part with
    | some d => .ok d
    | none => .ok 1

/-- The note-duration parse (validate_program.py:219-231): default `1.0`; a
slash suffix uses the fraction branch; a non-numeric slash-free suffix raises
`ValueError("Invalid duration in: ...")`. -/
def parseNoteDur (rem token : List Char) : Except PyErr ℚ :=
  if rem = [] then .ok 1
  else if rem.contains '/' then parseFracDur rem
  else
    match pyFloat rem with
    | some d => .ok d
    | none => .error (.valueError (str "Invalid duration in: " ++ token))

/-- The accidental prefix strip (validate_program.py:176-193): semitone delta
and remaining characters; `startswith` checks in source order. -/
def stripAccidental (note : List Char) : Int × List Char :=
  match note with
  | '^' :: '^' :: r => (2, r)
  | '^' :: r => (1, r)
  | '_' :: '_' :: r => (-2, r)
  | '_' :: r => (-1, r)
  | '=' :: r => (0, r)
  | _ => (0, note)

/-- The tail of `parse_abc_note` after the base letter is resolved
(validate_program.py:203-233): octave modifiers, MIDI-range check, duration. -/
def noteTail (base accidental : Int) (note2 token : List Char) :
    Except PyErr (Int × ℚ) :=
  let quotes := note2.takeWhile (fun c => c = '\'')
  let afterQ := note2.dropWhile (fun c => c = '\'')
  let commas := afterQ.takeWhile (fun c => c = ',')
  let rem := afterQ.dropWhile (fun c => c = ',')
  let midi := base + accidental + 12 * quotes.length - 12 * commas.length
  if midi < 0 ∨ midi > 127 then
    .error (.valueError
      (str "Note out of MIDI range (0-127): " ++ token ++ str " -> " ++ intStr midi))
  else
    match parseNoteDur rem token with
    | .error e => .error e
    | .ok d => .ok (midi, d)

/-- `parse_abc_note` (validate_program.py:146-233): one ABC token to
`(MIDI pitch, duration in beats)`, pitch `-1` for rests. -/
def parse_abc_note (token : List Char) : Except PyErr (Int × ℚ) :=
  if token = [] then .error (.valueError (str "Empty note token")) else
  let note := pyStripWs token
  -- rest branch (lines 159-174)
  if note.head? = some 'z' ∨ note.head? = some 'Z' then
    match parseRestDur note.tail with
    | .error e => .error e
    | .ok d => .ok (-1, d)
  else
  -- accidental prefix, base letter, octaves, range, duration (lines 176-233)
  let stripped := stripAccidental note
  match stripped.2 with
  | [] => .error (.valueError (str "Invalid ABC note: " ++ token))
  | base_char :: note2 =>
      match abcBaseNote base_char with
      | none =>
          .error (.valueError
            (str "Invalid note letter '" ++ [base_char] ++ str "' in: " ++ token))
      | some base => noteTail base stripped.1 note2 token

/-- Character class `[A-Ga-g]` of the chord note regex. -/
def isChordLetter (c : Char) : Bool :=
  ('A' ≤ c ∧ c ≤ 'G') ∨ ('a' ≤ c ∧ c ≤ 'g')

/-- The tail of a chord-member regex match after a fixed accidental prefix:
one letter in `[A-Ga-g]` followed by a greedy run of `[',]`. -/
def tryLetter (acc : List Char) (r : List Char) : Option (List Char × List Char) :=
  match r with
  | [] => none
  | c :: r2 =>
      if isChordLetter c then
        let octs := r2.takeWhile (fun x => x = '\'' ∨ x = ',')
        some (acc ++ [c] ++ octs, r2.dropWhile (fun x => x = '\'' ∨ x = ','))
      else none

/-- One attempted match of `(\^{1,2}|_{1,2}|=)?([A-Ga-g])([',]*)` at the head
of the input, with the regex backtracking order over the optional accidental
group (longest alternative first, then shorter, then none). -/
def chordMatchAt (l : List Char) : Option (List Char × List Char) :=
  match l with
  | '^' :: '^' :: r =>
      tryLetter ['^', '^'] r <|> tryLetter ['^'] ('^' :: r) <|> tryLetter [] l
  | '^' :: r => tryLetter ['^'] r <|> tryLetter [] l
  | '_' :: '_' :: r =>
      tryLetter ['_', '_'] r <|> tryLetter ['_'] ('_' :: r) <|> tryLetter [] l
  | '_' :: r => tryLetter ['_'] r <|> tryLetter [] l
  | '=' :: r => tryLetter ['='] r <|> tryLetter [] l
  | _ => tryLetter [] l

theorem length_dropWhile_le {α} (p : α → Bool) (l : List α) :
    (l.dropWhile p).length ≤ l.length :=
  (List.dropWhile_suffix p).sublist.length_le

theorem length_lt_cons {α} (c : α) (r : List α) : r.length < (c :: r).length := by
  simp

theorem length_dropWhile_lt_cons {α} (p : α → Bool) (c : α) (r : List α) :
    (r.dropWhile p).length < (c :: r).length := by
  have := length_dropWhile_le p r
  simp only [List.length_cons]
  omega

theorem length_drop_tail_drop_lt_cons {α} (p q : α → Bool) (c : α) (r : List α) :
    ((r.dropWhile p).tail.dropWhile q).length < (c :: r).length := by
  have h1 := length_dropWhile_le p r
  have h2 := length_dropWhile_le q ((r.dropWhile p).tail)
  have h3 : (r.dropWhile p).tail.length ≤ (r.dropWhile p).length := by
    cases r.dropWhile p <;> simp
  simp only [List.length_cons]
  omega

theorem tryLetter_shrinks {acc r m rest} (h : tryLetter acc r = some (m, rest)) :
    rest.length < r.length := by
  cases r with
  | nil => simp [tryLetter] at h
  | cons c r2 =>
    by_cases hc : isChordLetter c = true
    · simp only [tryLetter, hc, if_pos, Option.some.injEq, Prod.mk.injEq] at h
      have hd := length_dropWhile_le (fun x => decide (x = '\'' ∨ x = ',')) r2
      rw [← h.2]
      simp only [List.length_cons]
      omega
    · simp [tryLetter, hc] at h

theorem orElse_some {α} {a b : Option α} {x : α} (h : (a <|> b) = some x) :
    a = some x ∨ b = some x := by
  cases a <;> simp_all

theorem chordMatchAt_shrinks {l m rest} (h : chordMatchAt l = some (m, rest)) :
    rest.length < l.length := by
  unfold chordMatchAt at h
  split at h
  case h_1 r =>
    rcases orElse_some h with h | h
    · exact lt_trans (tryLetter_shrinks h) (by simp only [List.length_cons]; omega)
    rcases orElse_some h with h | h
    · exact lt_of_lt_of_le (tryLetter_shrinks h) (by simp)
    · exact tryLetter_shrinks h
  case h_2 r _ =>
    rcases orElse_some h with h | h
    · exact lt_trans (tryLetter_shrinks h) (by simp only [List.length_cons]; omega)
    · exact tryLetter_shrinks h
  case h_3 r =>
    rcases orElse_some h with h | h
    · exact lt_trans (tryLetter_shrinks h) (by simp only [List.length_cons]; omega)
    rcases orElse_some h with h | h
    · exact lt_of_lt_of_le (tryLetter_shrinks h) (by simp)
    · exact tryLetter_shrinks h
  case h_4 r _ =>
    rcases orElse_some h with h | h
    · exact lt_trans (tryLetter_shrinks h) (by simp only [List.length_cons]; omega)
    · exact tryLetter_shrinks h
  case h_5 r =>
    rcases orElse_some h with h | h
    · exact lt_trans (tryLetter_shrinks h) (by simp only [List.length_cons]; omega)
    · exact tryLetter_shrinks h
  case h_6 => exact tryLetter_shrinks h

/-- Fuel-indexed scanner for chord members; each step consumes at least one
character, so any fuel above the input length is enough. -/
def chordScanF : Nat → List Char → List (List Char)
  | 0, _ => []
  | fuel + 1, l =>
      match chordMatchAt l with
      | some (m, rest) => m :: chordScanF fuel rest
      | none =>
          match l with
          | [] => []
          | _ :: t => chordScanF fuel t

/-- `note_pattern.finditer(inner)` (validate_program.py:254-256): successive
non-overlapping leftmost matches of the chord-member regex. -/
def chordScan (l : List Char) : List (List Char) := chordScanF (l.length + 1) l

/-- Whether a character list fully matches the duration-suffix regex
alternation `\d+(?:/\d+)?|\d*/\d+` (validate_program.py:250, 369): either a
non-empty digit run, or `A/B` with `A` a possibly-empty digit run and `B` a
non-empty digit run. -/
def durPatMatch (l : List Char) : Bool :=
  match pySplit '/' l with
  | [a] => a ≠ [] ∧ a.all Char.isDigit
  | [a, b] => a.all Char.isDigit ∧ b ≠ [] ∧ b.all Char.isDigit
  | _ => false

/-- `re.search(r'(\d+(?:/\d+)?|\d*/\d+)$', l)` : the matched text, if any.
With the `$` anchor, `re.search` returns the match at the leftmost starting
position from which the pattern matches through to the end of the string. -/
def regexDurSuffix (l : List Char) : Option (List Char) :=
  (List.range (l.length + 1)).findSome? fun p =>
    let s := l.drop p
    if durPatMatch s then some s else none

/-- `parse_abc_chord` (validate_program.py:236-268).  Note the source computes
a duration-suffix regex match at line 250 but never uses it: `chord_duration`
stays at its initial `1.0` for every returned pitch. -/
def parse_abc_chord (chord_str : List Char) : Except PyErr (List (Int × ℚ)) :=
  let inner := pyStripChars ['[', ']'] chord_str
  if inner = [] then .ok [] else
  let chord_duration : ℚ := 1
  let _duration_match := regexDurSuffix (pyRStrip ']' chord_str)  -- dead (line 250)
  (chordScan inner).foldlM
    (fun acc tok =>
      match parse_abc_note tok with
      | .ok (midi, _) => .ok (acc ++ [(midi, chord_duration)])
      | .error (.valueError _) => .ok acc  -- `except ValueError: continue`
      | .error .zeroDivisionError => .error .zeroDivisionError)
    []

/-- `re.match(r'^[A-Z]:', line)` (validate_program.py:285). -/
def isHeaderLine (l : List Char) : Bool :=
  match l with
  | c :: ':' :: _ => 'A' ≤ c ∧ c ≤ 'Z'
  | _ => false

/-- `re.sub` of every maximal run of `p`-characters by one `sub` character:
the boolean flag records whether the previous character was in a run. -/
def collapseRunsGo (p : Char → Bool) (sub : Char) : Bool → List Char → List Char
  | _, [] => []
  | inRun, c :: r =>
      if p c then
        if inRun then collapseRunsGo p sub true r
        else sub :: collapseRunsGo p sub true r
      else c :: collapseRunsGo p sub false r

/-- `re.sub(r'\|+', ' ', content)` (validate_program.py:289): each maximal run
of bar characters becomes a single space. -/
def collapseBars (l : List Char) : List Char :=
  collapseRunsGo (· = '|') ' ' false l

/-- `re.sub(r'\s+', ' ', content)` (validate_program.py:290): each maximal run
of whitespace becomes a single space. -/
def collapseWs (l : List Char) : List Char :=
  collapseRunsGo pyIsSpace ' ' false l

/-- Character classes of the token scanner (validate_program.py:319-335). -/
def isAccChar (c : Char) : Bool := c = '^' ∨ c = '_' ∨ c = '='

/-- Pitch letters and rest markers accepted after accidentals (line 326). -/
def isNoteLetter (c : Char) : Bool :=
  ('A' ≤ c ∧ c ≤ 'G') ∨ ('a' ≤ c ∧ c ≤ 'g') ∨ c = 'z' ∨ c = 'Z'

/-- Characters that may begin a note/rest token (line 319). -/
def isNoteStart (c : Char) : Bool := isNoteLetter c || isAccChar c

/-- Octave-modifier characters (line 330). -/
def isOctChar (c : Char) : Bool := c = '\'' ∨ c = ','

/-- Duration-suffix characters collected by the scanner (lines 311, 334). -/
def isDurChar (c : Char) : Bool := c.isDigit ∨ c = '/'

/-- The note/rest token split of the scanner at a note-start position
(validate_program.py:320-336): accidentals, then at most one pitch/rest
letter, then octave modifiers, then duration characters; the second component
is the unconsumed remainder of the input. -/
def splitNoteTok (l : List Char) : List Char × List Char :=
  let accs := l.takeWhile isAccChar
  let r1 := l.dropWhile isAccChar
  let lettered : List Char × List Char :=
    match r1 with
    | d :: r2 => if isNoteLetter d then ([d], r2) else ([], r1)
    | [] => ([], r1)
  let octs := lettered.2.takeWhile isOctChar
  let r3 := lettered.2.dropWhile isOctChar
  let durs := r3.takeWhile isDurChar
  (accs ++ lettered.1 ++ octs ++ durs, r3.dropWhile isDurChar)

theorem splitNoteTok_shrinks {c : Char} {rest : List Char}
    (h : isNoteStart c = true) :
    (splitNoteTok (c :: rest)).2.length ≤ rest.length := by
  unfold splitNoteTok
  by_cases hacc : isAccChar c = true
  · simp only [List.takeWhile_cons, List.dropWhile_cons, hacc, if_pos]
    have h1 : (rest.dropWhile isAccChar).length ≤ rest.length :=
      length_dropWhile_le _ _
    rcases hr : rest.dropWhile isAccChar with _ | ⟨d, r2⟩
    · simp
    · by_cases hd : isNoteLetter d = true
      · simp only [hd, if_pos]
        have h2 := length_dropWhile_le isOctChar r2
        have h3 := length_dropWhile_le isDurChar (r2.dropWhile isOctChar)
        have : r2.length + 1 ≤ rest.length := by
          rw [hr] at h1; simp only [List.length_cons] at h1; omega
        omega
      · simp only [hd, if_neg, Bool.not_eq_true]
        have h2 := length_dropWhile_le isOctChar (d :: r2)
        have h3 := length_dropWhile_le isDurChar ((d :: r2).dropWhile isOctChar)
        have : r2.length + 1 ≤ rest.length := by
          rw [hr] at h1; simp only [List.length_cons] at h1; omega
        simp only [List.length_cons] at h2
        omega
  · have hlet : isNoteLetter c = true := by
      unfold isNoteStart at h
      simp only [Bool.or_eq_true] at h
      tauto
    simp only [List.takeWhile_cons, List.dropWhile_cons, hacc, if_neg,
      Bool.not_eq_true, hlet, if_pos]
    have h2 := length_dropWhile_le isOctChar rest
    have h3 := length_dropWhile_le isDurChar (rest.dropWhile isOctChar)
    omega

theorem splitNoteTok_lt {c : Char} {rest : List Char}
    (h : isNoteStart c = true) :
    (splitNoteTok (c :: rest)).2.length < (c :: rest).length := by
  have := @splitNoteTok_shrinks c rest h
  simp only [List.length_cons]
  omega

/-- A character that can occur in a scanner-produced note/rest token:
accidental, pitch/rest letter, octave modifier, or duration character. -/
def isNoteTokChar (c : Char) : Bool :=
  isAccChar c || isNoteLetter c || isOctChar c || isDurChar c

/-- Fuel-indexed scanning loop of `tokenize_abc` (validate_program.py:293-342);
each iteration consumes at least one character, so any fuel above the input
length is enough.  The source appends a note token only `if token:`; in the
note branch the token is provably non-empty (its first character is consumed
as an accidental or a letter), so the guard is omitted here. -/
def scanTokensF : Nat → List Char → List (List Char)
  | 0, _ => []
  | _, [] => []
  | fuel + 1, c :: rest =>
      if pyIsSpace c then scanTokensF fuel rest
      else if c = '[' then
        -- chord branch (lines 303-316); `content.find(']', i)`
        if rest.contains ']' then
          let inner := rest.takeWhile (· ≠ ']')
          let after := (rest.dropWhile (· ≠ ']')).tail
          let durs := after.takeWhile isDurChar
          ('[' :: inner ++ [']'] ++ durs) :: scanTokensF fuel (after.dropWhile isDurChar)
        else scanTokensF fuel rest  -- stray `[` skipped (lines 305-307)
      else if isNoteStart c then
        -- note/rest branch (lines 319-339)
        (splitNoteTok (c :: rest)).1 :: scanTokensF fuel (splitNoteTok (c :: rest)).2
      else scanTokensF fuel rest  -- unknown character skipped (line 342)

/-- The scanning loop at sufficient fuel. -/
def scanTokens (l : List Char) : List (List Char) := scanTokensF (l.length + 1) l

/-- `tokenize_abc` (validate_program.py:271-344): drop header lines, collapse
bar lines and whitespace, then scan tokens. -/
def tokenize_abc (abc_str : List Char) : List (List Char) :=
  let lines := pySplit '\n' (pyStripWs abc_str)
  let note_lines := lines.filter (fun l => ¬ isHeaderLine l)
  let content0 := List.intercalate [' '] note_lines
  let content1 := collapseBars content0
  let content2 := pyStripWs (collapseWs content1)
  scanTokens content2

/-- The mutable state of the builder loop in `abc_to_program`
(validate_program.py:355-357): collected notes, beat cursor, parse errors. -/
structure BuildState where
  notes : List NoteEvent
  current_beat : ℚ
  errors : List (List Char)
deriving DecidableEq, Repr

/-- The chord-duration computation of the builder (validate_program.py:367-379):
regex suffix search on `token.rstrip(']')`, then integer or fraction parse. -/
def chordDurOf (token : List Char) : Except PyErr ℚ :=
  match regexDurSuffix (pyRStrip ']' token) with
  | none => .ok 1
  | some dur_str =>
      if dur_str.contains '/' then parseFracDur dur_str
      else pyFloatE dur_str

/-- One iteration of the builder loop (validate_program.py:361-403): the token
is processed inside `try:`; a `ValueError` is appended to the error list, any
other exception (in particular `ZeroDivisionError`) propagates. -/
def buildTok (default_velocity : ℚ) (st : BuildState) (token : List Char) :
    Except PyErr BuildState :=
  let attempt : Except PyErr BuildState :=
    if token.head? = some '[' then
      match parse_abc_chord token with
      | .error e => .error e
      | .ok chord_notes =>
          match chordDurOf token with
          | .error e => .error e
          | .ok duration =>
              .ok { notes := st.notes ++ chord_notes.map (fun p =>
                      { pitch := p.1, startBeat := st.current_beat,
                        lengthBeats := duration, velocity := default_velocity }),
                    current_beat := st.current_beat + duration,
                    errors := st.errors }
    else
      match parse_abc_note token with
      | .error e => .error e
      | .ok md =>
          .ok { notes := st.notes ++
                  (if md.1 ≥ 0 then
                    [{ pitch := md.1, startBeat := st.current_beat,
                       lengthBeats := md.2, velocity := default_velocity }]
                   else []),
                current_beat := st.current_beat + md.2,
                errors := st.errors }
  match attempt with
  | .ok st2 => .ok st2
  | .error (.valueError m) => .ok { st with errors := st.errors ++ [m] }
  | .error .zeroDivisionError => .error .zeroDivisionError

/-- The builder loop over all tokens (validate_program.py:361-403). -/
def abcBuild (tokens : List (List Char)) (default_velocity : ℚ) :
    Except PyErr BuildState :=
  tokens.foldlM (buildTok default_velocity) ⟨[], 0, []⟩

/-- The bar-length quantizer inline in `abc_to_program`
(validate_program.py:405-416): first legal length `≥ bars - 0.001`, else the
largest legal length. -/
def quantizeBars (total_beats : ℚ) (beats_per_bar : Int) : ℚ :=
  let bars := if beats_per_bar > 0 then total_beats / beats_per_bar else total_beats
  match VALID_BAR_LENGTHS.find? (fun valid => valid ≥ bars - 1/1000) with
  | some v => v
  | none => 16

/-- `abc_to_program` (validate_program.py:347-423). -/
def abc_to_program (abc_str : List Char) (beats_per_bar : Int)
    (default_velocity : ℚ) : Except PyErr (Program × List (List Char)) := do
  let st ← abcBuild (tokenize_abc abc_str) default_velocity
  .ok ({ lengthBars := quantizeBars st.current_beat beats_per_bar,
         notes := st.notes }, st.errors)

/-- `midi_to_note_name` (validate_program.py:87-91). -/
def midi_to_note_name (midi : Int) : List Char :=
  let octave := midi.fdiv 12 - 1
  let note := NOTE_NAMES.getD (midi.fmod 12).toNat []
  note ++ intStr octave

/-- Python `c.lower()` on the note letters used here. -/
def charLower (c : Char) : Char := c.toLower

/-- The pitch-spelling part of `midi_to_abc` (validate_program.py:96-120):
optional sharp, letter (lowercase for octave ≥ 5), octave marks. -/
def midiPitchStr (pitch : Int) : List Char :=
  let octave := pitch.fdiv 12
  let note_in_octave := pitch.fmod 12
  let natural_notes : List Int := [0, 2, 4, 5, 7, 9, 11]
  let note_names_list : List Char := ['C', 'D', 'E', 'F', 'G', 'A', 'B']
  let is_sharp := ¬ natural_notes.contains note_in_octave
  let base_note := if is_sharp then note_in_octave - 1 else note_in_octave
  let note_idx := natural_notes.indexOf base_note
  let note_char := note_names_list.getD note_idx 'C'
  if octave ≥ 5 then
    let nc := charLower note_char
    (if is_sharp then ['^', nc] else [nc]) ++
      (if octave > 5 then List.replicate (octave - 5).toNat '\'' else [])
  else
    (if is_sharp then ['^', note_char] else [note_char]) ++
      (if octave < 4 then List.replicate (4 - octave).toNat ',' else [])

/-- The duration-suffix part of `midi_to_abc` (validate_program.py:122-142). -/
def durSuffixStr (duration_beats : ℚ) : List Char :=
  if |duration_beats - 1/4| < 1/100 then str "/4"
  else if |duration_beats - 1/2| < 1/100 then str "/2"
  else if |duration_beats - 1| < 1/100 then []
  else if |duration_beats - 2| < 1/100 then str "2"
  else if |duration_beats - 3| < 1/100 then str "3"
  else if |duration_beats - 4| < 1/100 then str "4"
  else if duration_beats = (pyInt duration_beats : ℚ) then intStr (pyInt duration_beats)
  else
    let numerator := pyInt (duration_beats * 4)
    if numerator > 0 then intStr numerator ++ str "/4" else []

/-- `midi_to_abc` (validate_program.py:94-143): MIDI pitch and beat duration to
one ABC token. -/
def midi_to_abc (pitch : Int) (duration_beats : ℚ) : List Char :=
  midiPitchStr pitch ++ durSuffixStr duration_beats

/-- Python float `x // y` for an integer-valued positive divisor, then `%`:
floor division and the matching remainder.  (`beats_per_bar = 0` would raise
`ZeroDivisionError` in Python; the claims only use positive values, and in ℚ
division by zero is the harmless junk value `0`.) -/
def pyFloorDiv (x : ℚ) (y : Int) : Int := ⌊x / (y : ℚ)⌋

/-- Python float modulo: `x % y = x - y * (x // y)`. -/
def pyMod (x : ℚ) (y : Int) : ℚ := x - (y : ℚ) * pyFloorDiv x y

/-- Insertion into a `≤`-sorted list of start times. -/
def insertSorted (x : ℚ) : List ℚ → List ℚ
  | [] => [x]
  | y :: r => if x ≤ y then x :: y :: r else y :: insertSorted x r

/-- Python `sorted` on the (distinct) start times. -/
def sortQ (l : List ℚ) : List ℚ := l.foldr insertSorted []

/-- The shared-duration suffix of a serialized chord
(validate_program.py:464-470). -/
def chordDurSuffixStr (duration : ℚ) : List Char :=
  if |duration - 1| > 1/100 then
    if duration = (pyInt duration : ℚ) then intStr (pyInt duration)
    else if |duration - 1/2| < 1/100 then str "/2"
    else if |duration - 1/4| < 1/100 then str "/4"
    else []
  else []

/-- Serialization of one start-time group (validate_program.py:455-471):
a single note token, or a bracketed chord with one shared duration suffix. -/
def serializeGroup (group : List NoteEvent) : List Char :=
  match group with
  | [n] => midi_to_abc n.pitch n.lengthBeats
  | _ =>
      let duration := ((group.head?).map (·.lengthBeats)).getD 1
      let chord_notes := group.map (fun n => midi_to_abc n.pitch 1)
      ('[' :: chord_notes.flatten ++ [']']) ++ chordDurSuffixStr duration

/-- The group loop of `program_to_abc` (validate_program.py:446-473), carrying
the `notes_in_bar` counter and emitting bar separators. -/
def serializeLoop (by_time : ℚ → List NoteEvent) (beats_per_bar : Int) :
    List ℚ → Nat → List (List Char)
  | [], _ => []
  | t :: rest, notes_in_bar =>
      let bar_num := pyFloorDiv t beats_per_bar
      let newBar := bar_num > 0 ∧ notes_in_bar > 0 ∧ pyMod t beats_per_bar < 1/100
      let nib := if newBar then 0 else notes_in_bar
      (if newBar then [str "|"] else []) ++
        (serializeGroup (by_time t) :: serializeLoop by_time beats_per_bar rest (nib + 1))

/-- `program_to_abc` (validate_program.py:426-478). -/
def program_to_abc (program : Program) (beats_per_bar : Int) : List Char :=
  let notes := program.notes
  if notes = [] then str "z4 |" else
  let times := sortQ ((notes.map (·.startBeat)).dedup)
  let abc_parts :=
    serializeLoop (fun t => notes.filter (fun n => n.startBeat = t))
      beats_per_bar times 0
  List.intercalate (str " ") (abc_parts ++ [str "|"])

/-- `get_scale_notes` (validate_program.py:481-493), as the list of member
pitches (the Python `set` is only ever used for membership tests). -/
def get_scale_notes (root : Int) (scale_name : List Char) : List Int :=
  match SCALES.lookup scale_name with
  | none => []
  | some intervals =>
      ((List.range 11).map (fun octave =>
        intervals.filterMap (fun interval =>
          let note := 12 * (octave : Int) + root.fmod 12 + interval
          if 0 ≤ note ∧ note ≤ 127 then some note else none))).flatten

/-- `validate_program` (validate_program.py:496-553) on a program built by
`abc_to_program`.  The source reads dict fields with `.get` and reports
missing keys; a program built by the ABC pipeline (the only caller in scope)
always carries every key, so those branches are unreachable here and the
fields are total.  `pitch` is always a Python `int` for built programs, so the
`isinstance` test succeeds. -/
def validate_program (program : Program) (key : Option Int)
    (scale : Option (List Char)) (beats_per_bar : Int) :
    List (List Char) × List (List Char) :=
  let errors0 : List (List Char) :=
    if VALID_BAR_LENGTHS.any (fun v => |program.lengthBars - v| < 1/1000) then []
    else [str "Invalid bar length " ++ intStr (pyInt program.lengthBars) ++
          str ". Must be: [0.125, 0.25, 0.5, 1.0, 2.0, 4.0, 8.0, 16.0]"]
  if program.notes = [] then
    (errors0, [str "Empty program (will silence track)"])
  else
  let total_beats := program.lengthBars * beats_per_bar
  -- `if key is not None and scale` (line 520): an empty scale name is falsy
  let scaleInfo : Option (Int × List Char) :=
    match key, scale with
    | some k, some sc => if sc ≠ [] then some (k, sc) else none
    | _, _ => none
  let scale_notes : List Int :=
    match scaleInfo with
    | some (k, sc) => get_scale_notes k sc
    | none => []
  let per := program.notes.enum.map (fun (i, note) =>
    let pre := str "Note " ++ natStr i
    let pitchErrs :=
      if note.pitch < 0 ∨ note.pitch > 127 then
        [pre ++ str ": Invalid pitch " ++ intStr note.pitch]
      else []
    let pitchWarns :=
      if (¬ (note.pitch < 0 ∨ note.pitch > 127)) ∧ scale_notes ≠ [] ∧
          ¬ scale_notes.contains note.pitch then
        match scaleInfo with
        | some (k, sc) =>
            [pre ++ str " (" ++ midi_to_note_name note.pitch ++ str "): Outside " ++
              NOTE_NAMES.getD (k.fmod 12).toNat [] ++ str " " ++ sc ++ str " scale"]
        | none => []
      else []
    let startErrs :=
      if note.startBeat < 0 then [pre ++ str ": Negative startBeat"]
      else if total_beats > 0 ∧ note.startBeat ≥ total_beats then
        [pre ++ str ": Starts past program end"]
      else []
    let lenErrs :=
      if note.lengthBeats ≤ 0 then [pre ++ str ": Non-positive duration"] else []
    let velErrs :=
      if note.velocity < 0 ∨ note.velocity > 1 then
        [pre ++ str ": Velocity must be 0.0-1.0"]
      else []
    (pitchErrs ++ startErrs ++ lenErrs ++ velErrs, pitchWarns))
  (errors0 ++ (per.map Prod.fst).flatten, (per.map Prod.snd).flatten)

/-- `validate_abc` (validate_program.py:556-604): the full pipeline. -/
def validate_abc (abc_str : List Char) (key : Option Int)
    (scale : Option (List Char)) (beats_per_bar : Int) :
    Except PyErr ValidationResult := do
  let pr ← abc_to_program abc_str beats_per_bar (4/5)
  let program := pr.1
  let parse_errors := pr.2
  if parse_errors ≠ [] then
    .ok { valid := false, abc_input := abc_str, program := none,
          errors := parse_errors, warnings := [], abc_output := none }
  else
  let vw := validate_program program key scale beats_per_bar
  if vw.1 ≠ [] then
    .ok { valid := false, abc_input := abc_str, program := some program,
          errors := vw.1, warnings := vw.2, abc_output := none }
  else
    .ok { valid := true, abc_input := abc_str, program := some program,
          errors := [], warnings := vw.2,
          abc_output := some (program_to_abc program beats_per_bar) }

/-- Substring test (Python `needle in hay`). -/
def strContainsSub (needle hay : List Char) : Bool :=
  hay.tails.any (fun t => needle.isPrefixOf t)

theorem pySplit_ne_nil (sep : Char) (l : List Char) : pySplit sep l ≠ [] := by
  induction l with
  | nil => simp [pySplit]
  | cons c r ih =>
      unfold pySplit
      by_cases hc : c = sep
      · simp [hc]
      · rw [if_neg hc]
        rcases hr : pySplit sep r with _ | ⟨p, ps⟩
        · simp
        · simp

theorem mem_of_mem_pySplit {sep : Char} :
    ∀ {l p x}, p ∈ pySplit sep l → x ∈ p → x ∈ l ∧ x ≠ sep := by
  intro l
  induction l with
  | nil =>
      intro p x hp hx
      simp [pySplit] at hp
      subst hp
      cases hx
  | cons c r ih =>
      intro p x hp hx
      unfold pySplit at hp
      by_cases hc : c = sep
      · rw [if_pos hc] at hp
        rcases List.mem_cons.mp hp with rfl | hp
        · cases hx
        · have := ih hp hx
          exact ⟨List.mem_cons_of_mem _ this.1, this.2⟩
      · rw [if_neg hc] at hp
        rcases hr : pySplit sep r with _ | ⟨p0, ps⟩
        · exact absurd hr (pySplit_ne_nil sep r)
        · rw [hr] at hp
          rcases List.mem_cons.mp hp with rfl | hp
          · rcases List.mem_cons.mp hx with rfl | hx
            · exact ⟨List.mem_cons_self _ _, hc⟩
            · have := ih (hr ▸ List.mem_cons_self p0 ps) hx
              exact ⟨List.mem_cons_of_mem _ this.1, this.2⟩
          · have := ih (hr ▸ List.mem_cons_of_mem p0 hp) hx
            exact ⟨List.mem_cons_of_mem _ this.1, this.2⟩

theorem pyStripWs_sublist (l : List Char) : (pyStripWs l).Sublist l := by
  unfold pyStripWs
  have h1 : (l.dropWhile pyIsSpace).Sublist l := List.dropWhile_sublist _
  have h2 : (((l.dropWhile pyIsSpace).reverse.dropWhile pyIsSpace)).Sublist
      (l.dropWhile pyIsSpace).reverse := List.dropWhile_sublist _
  have h3 := h2.reverse
  rw [List.reverse_reverse] at h3
  exact h3.trans h1

theorem mem_pyStripWs {l : List Char} {x : Char} (h : x ∈ pyStripWs l) : x ∈ l :=
  (pyStripWs_sublist l).mem h

theorem mem_getD_nil {α} {l : List (List α)} {i : Nat} {x : α}
    (hx : x ∈ l.getD i []) : ∃ p ∈ l, x ∈ p := by
  rcases he : l[i]? with _ | p
  · rw [List.getD_eq_getElem?_getD, he] at hx
    cases hx
  · rw [List.getD_eq_getElem?_getD, he] at hx
    exact ⟨p, List.getElem?_mem he, hx⟩

theorem pyIsSpace_cases {x : Char} (h : pyIsSpace x = true) :
    x = ' ' ∨ x = '\t' ∨ x = '\n' ∨ x = '\r' ∨ x = '\x0b' ∨ x = '\x0c' := by
  simpa [pyIsSpace] using h

theorem isDigit_not_space {x : Char} (h : x.isDigit = true) :
    pyIsSpace x = false := by
  by_contra hb
  rw [Bool.not_eq_false] at hb
  rcases pyIsSpace_cases hb with rfl | rfl | rfl | rfl | rfl | rfl <;>
    exact absurd h (by decide)

theorem pyStripWs_eq_self {l : List Char} (h : ∀ x ∈ l, pyIsSpace x = false) :
    pyStripWs l = l := by
  unfold pyStripWs
  have h1 : l.dropWhile pyIsSpace = l := by
    cases l with
    | nil => rfl
    | cons a t =>
        rw [List.dropWhile_cons, h a (List.mem_cons_self a t)]
        simp
  rw [h1]
  have h2 : l.reverse.dropWhile pyIsSpace = l.reverse := by
    cases hr : l.reverse with
    | nil => rfl
    | cons a t =>
        rw [List.dropWhile_cons,
          h a (by rw [← List.mem_reverse, hr]; exact List.mem_cons_self a t)]
        simp
  rw [h2, List.reverse_reverse]

theorem underscoresOK_of_no_underscore : ∀ (l : List Char), '_' ∉ l →
    underscoresOK l = true
  | [], _ => rfl
  | a :: r, h => by
      have ha : a ≠ '_' := fun he => h (he ▸ List.mem_cons_self _ _)
      have hr : '_' ∉ r := fun hm => h (List.mem_cons_of_mem _ hm)
      have ih := underscoresOK_of_no_underscore r hr
      cases r with
      | nil =>
          unfold underscoresOK
          split <;> simp_all
      | cons b r' =>
          have hb : b ≠ '_' := fun he => hr (he ▸ List.mem_cons_self _ _)
          unfold underscoresOK
          split <;> simp_all

theorem pyFloat_nonneg {s : List Char} {q : ℚ} (hs : '-' ∉ s)
    (h : pyFloat s = some q) : 0 ≤ q := by
  simp only [pyFloat] at h
  have hh : ¬ ((pyStripWs s).head? = some '-') := by
    intro hhd
    rcases ht : pyStripWs s with _ | ⟨c, r⟩
    · rw [ht] at hhd; cases hhd
    · rw [ht] at hhd
      simp only [List.head?_cons, Option.some.injEq] at hhd
      apply hs
      apply mem_pyStripWs
      rw [ht, hhd]
      exact List.mem_cons_self _ _
  rw [if_neg hh] at h
  repeat' split at h
  all_goals first
    | (obtain rfl := (Option.some.inj h).symm; positivity)
    | cases h

theorem pyFloatE_ok_nonneg {s : List Char} {q : ℚ} (hs : '-' ∉ s)
    (h : pyFloatE s = .ok q) : 0 ≤ q := by
  unfold pyFloatE at h
  split at h
  · obtain rfl := (Except.ok.inj h).symm
    exact pyFloat_nonneg hs (by assumption)
  · cases h

theorem pyDiv_ok_nonneg {a b d : ℚ} (ha : 0 ≤ a) (hb : 0 ≤ b)
    (h : pyDiv a b = .ok d) : 0 ≤ d := by
  unfold pyDiv at h
  split at h
  · cases h
  · obtain rfl := (Except.ok.inj h).symm
    exact div_nonneg ha hb

theorem parseFracDur_ok_nonneg {s : List Char} {d : ℚ} (hs : '-' ∉ s)
    (h : parseFracDur s = .ok d) : 0 ≤ d := by
  have hp : ∀ i, '-' ∉ (pySplit '/' s).getD i [] := by
    intro i hm
    obtain ⟨p, hpp, hx⟩ := mem_getD_nil hm
    exact hs (mem_of_mem_pySplit hpp hx).1
  simp only [parseFracDur] at h
  split at h
  · split at h
    · cases h
    · split at h
      · cases h
      · exact pyDiv_ok_nonneg (pyFloatE_ok_nonneg (hp 0) (by assumption))
          (pyFloatE_ok_nonneg (hp 1) (by assumption)) h
  · split at h
    · cases h
    · exact pyDiv_ok_nonneg (by norm_num)
        (pyFloatE_ok_nonneg (hp 1) (by assumption)) h

theorem parseRestDur_ok_nonneg {s : List Char} {d : ℚ} (hs : '-' ∉ s)
    (h : parseRestDur s = .ok d) : 0 ≤ d := by
  unfold parseRestDur at h
  split at h
  · obtain rfl := (Except.ok.inj h).symm
    norm_num
  · split at h
    · exact parseFracDur_ok_nonneg hs h
    · split at h
      · obtain rfl := (Except.ok.inj h).symm
        exact pyFloat_nonneg hs (by assumption)
      · obtain rfl := (Except.ok.inj h).symm
        norm_num

theorem parseNoteDur_ok_nonneg {rem token : List Char} {d : ℚ} (hr : '-' ∉ rem)
    (h : parseNoteDur rem token = .ok d) : 0 ≤ d := by
  unfold parseNoteDur at h
  split at h
  · obtain rfl := (Except.ok.inj h).symm
    norm_num
  · split at h
    · exact parseFracDur_ok_nonneg hr h
    · split at h
      · obtain rfl := (Except.ok.inj h).symm
        exact pyFloat_nonneg hr (by assumption)
      · cases h

theorem noteTail_ok_nonneg {base acc : Int} {note2 token : List Char}
    {m : Int} {d : ℚ} (hn : '-' ∉ note2)
    (h : noteTail base acc note2 token = .ok (m, d)) : 0 ≤ d := by
  simp only [noteTail] at h
  split at h
  · cases h
  · split at h
    · cases h
    · rename_i d' hd'
      simp only [Except.ok.injEq, Prod.mk.injEq] at h
      obtain ⟨-, rfl⟩ := h
      refine parseNoteDur_ok_nonneg ?_ hd'
      intro hmem2
      exact hn ((List.dropWhile_sublist _).mem ((List.dropWhile_sublist _).mem hmem2))

theorem stripAccidental_snd_mem {note : List Char} {x : Char}
    (h : x ∈ (stripAccidental note).2) : x ∈ note := by
  unfold stripAccidental at h
  split at h <;> simp_all

theorem parse_abc_note_ok_nonneg {t : List Char} {m : Int} {d : ℚ}
    (ht : '-' ∉ t) (h : parse_abc_note t = .ok (m, d)) : 0 ≤ d := by
  have hnote : '-' ∉ pyStripWs t := fun hm => ht (mem_pyStripWs hm)
  simp only [parse_abc_note] at h
  split at h
  · cases h
  · split at h
    · -- rest branch
      split at h
      · cases h
      · rename_i d' hd'
        simp only [Except.ok.injEq, Prod.mk.injEq] at h
        obtain ⟨-, rfl⟩ := h
        refine parseRestDur_ok_nonneg ?_ hd'
        intro hmem
        exact hnote ((List.tail_sublist _).mem hmem)
    · -- letter branch
      split at h
      · cases h
      · rename_i base_char note2 heq2
        split at h
        · cases h
        · rename_i base hbase
          refine noteTail_ok_nonneg ?_ h
          intro hmem
          apply hnote
          apply stripAccidental_snd_mem
          rw [heq2]
          exact List.mem_cons_of_mem _ hmem

theorem mem_pySplit_of_mem {sep : Char} :
    ∀ {l x}, x ∈ l → x = sep ∨ ∃ p ∈ pySplit sep l, x ∈ p := by
  intro l
  induction l with
  | nil => intro x hx; cases hx
  | cons c r ih =>
      intro x hx
      unfold pySplit
      by_cases hc : c = sep
      · rw [if_pos hc]
        rcases List.mem_cons.mp hx with rfl | hx
        · exact Or.inl hc
        · rcases ih hx with hs | ⟨p, hp, hxp⟩
          · exact Or.inl hs
          · exact Or.inr ⟨p, List.mem_cons_of_mem _ hp, hxp⟩
      · rw [if_neg hc]
        rcases hr : pySplit sep r with _ | ⟨p0, ps⟩
        · exact absurd hr (pySplit_ne_nil sep r)
        · rcases List.mem_cons.mp hx with rfl | hx
          · exact Or.inr ⟨x :: p0, List.mem_cons_self _ _, List.mem_cons_self _ _⟩
          · rcases ih hx with hs | ⟨p, hp, hxp⟩
            · exact Or.inl hs
            · rw [hr] at hp
              rcases List.mem_cons.mp hp with rfl | hp
              · exact Or.inr ⟨c :: p, List.mem_cons_self _ _,
                  List.mem_cons_of_mem _ hxp⟩
              · exact Or.inr ⟨p, List.mem_cons_of_mem _ hp, hxp⟩

theorem durPatMatch_no_minus {s : List Char} (h : durPatMatch s = true) :
    '-' ∉ s := by
  intro hmem
  rcases @mem_pySplit_of_mem '/' s '-' hmem with hs | ⟨p, hp, hxp⟩
  · cases hs
  · unfold durPatMatch at h
    split at h
    · rename_i a ha
      rw [ha] at hp
      rcases List.mem_cons.mp hp with rfl | hp
      · simp only [Bool.decide_and, Bool.and_eq_true, decide_eq_true_eq] at h
        have := List.all_eq_true.mp h.2 _ hxp
        exact absurd this (by decide)
      · cases hp
    · rename_i a b hab
      rw [hab] at hp
      simp only [Bool.decide_and, Bool.and_eq_true, decide_eq_true_eq,
        List.all_eq_true] at h
      rcases List.mem_cons.mp hp with rfl | hp
      · exact absurd (h.1 _ hxp) (by decide)
      · rcases List.mem_cons.mp hp with rfl | hp
        · exact absurd (h.2.2 _ hxp) (by decide)
        · cases hp
    · cases h

theorem regexDurSuffix_matches {l s : List Char}
    (h : regexDurSuffix l = some s) : durPatMatch s = true := by
  unfold regexDurSuffix at h
  obtain ⟨p, -, hf⟩ := List.exists_of_findSome?_eq_some h
  by_cases hd : durPatMatch (l.drop p) = true
  · simp only [hd, if_pos] at hf
    obtain rfl := (Option.some.inj hf).symm
    exact hd
  · simp only [if_neg hd] at hf
    cases hf

theorem chordDurOf_ok_nonneg {t : List Char} {d : ℚ}
    (h : chordDurOf t = .ok d) : 0 ≤ d := by
  unfold chordDurOf at h
  split at h
  · obtain rfl := (Except.ok.inj h).symm
    norm_num
  · rename_i dur_str hds
    have hminus := durPatMatch_no_minus (regexDurSuffix_matches hds)
    split at h
    · exact parseFracDur_ok_nonneg hminus h
    · exact pyFloatE_ok_nonneg hminus h

theorem splitNoteTok_fst_chars {l : List Char} {x : Char}
    (hx : x ∈ (splitNoteTok l).1) : isNoteTokChar x = true := by
  unfold splitNoteTok at hx
  rcases hr1 : l.dropWhile isAccChar with _ | ⟨d0, r2⟩ <;> rw [hr1] at hx <;>
    simp only [List.mem_append] at hx
  · rcases hx with ((hx | hx) | hx) | hx
    · simp [isNoteTokChar, List.mem_takeWhile_imp hx]
    · cases hx
    · simp [isNoteTokChar, List.mem_takeWhile_imp hx]
    · simp [isNoteTokChar, List.mem_takeWhile_imp hx]
  · by_cases hd : isNoteLetter d0 = true <;>
      simp only [hd, if_pos, if_neg, Bool.not_eq_true] at hx
    · rcases hx with ((hx | hx) | hx) | hx
      · simp [isNoteTokChar, List.mem_takeWhile_imp hx]
      · rcases List.mem_cons.mp hx with rfl | hx
        · simp [isNoteTokChar, hd]
        · cases hx
      · simp [isNoteTokChar, List.mem_takeWhile_imp hx]
      · simp [isNoteTokChar, List.mem_takeWhile_imp hx]
    · rcases hx with ((hx | hx) | hx) | hx
      · simp [isNoteTokChar, List.mem_takeWhile_imp hx]
      · cases hx
      · simp [isNoteTokChar, List.mem_takeWhile_imp hx]
      · simp [isNoteTokChar, List.mem_takeWhile_imp hx]

theorem scanTokensF_tokens : ∀ {fuel : Nat} {l t : List Char},
    t ∈ scanTokensF fuel l →
    t.head? = some '[' ∨ ∀ x ∈ t, isNoteTokChar x = true := by
  intro fuel
  induction fuel with
  | zero =>
      intro l t ht
      simp [scanTokensF] at ht
  | succ fuel ih =>
      intro l t ht
      cases l with
      | nil => simp [scanTokensF] at ht
      | cons c rest =>
          simp only [scanTokensF] at ht
          split at ht
          · exact ih ht
          · split at ht
            · split at ht
              · rcases List.mem_cons.mp ht with rfl | ht
                · exact Or.inl rfl
                · exact ih ht
              · exact ih ht
            · split at ht
              · rcases List.mem_cons.mp ht with rfl | ht
                · exact Or.inr (fun x hx => splitNoteTok_fst_chars hx)
                · exact ih ht
              · exact ih ht

theorem tokenize_abc_tokens {s t : List Char} (ht : t ∈ tokenize_abc s) :
    t.head? = some '[' ∨ ∀ x ∈ t, isNoteTokChar x = true :=
  scanTokensF_tokens ht

theorem chain'_le_of_all_eq {l : List ℚ} {a : ℚ} (h : ∀ x ∈ l, x = a) :
    List.Chain' (· ≤ ·) l := by
  induction l with
  | nil => exact List.chain'_nil
  | cons x xs ih =>
      rw [List.chain'_cons']
      refine ⟨?_, ih (fun y hy => h y (List.mem_cons_of_mem _ hy))⟩
      intro y hy
      rw [h x (List.mem_cons_self _ _),
        h y (List.mem_cons_of_mem _ (List.mem_of_mem_head? hy))]

/-- One successful builder step: the beat cursor never decreases, and all
notes appended by the step start exactly at the incoming cursor. -/
theorem buildTok_ok_step {v : ℚ} {st : BuildState} {t : List Char}
    {st' : BuildState}
    (hwf : t.head? = some '[' ∨ ∀ x ∈ t, isNoteTokChar x = true)
    (h : buildTok v st t = .ok st') :
    st.current_beat ≤ st'.current_beat ∧
    ∃ new, st'.notes = st.notes ++ new ∧
      ∀ n ∈ new, n.startBeat = st.current_beat := by
  simp only [buildTok] at h
  by_cases hh : t.head? = some '['
  · rw [if_pos hh] at h
    split at h
    · rename_i st2 heq
      obtain rfl := (Except.ok.inj h).symm
      split at heq
      · cases heq
      · split at heq
        · cases heq
        · rename_i chord_notes hchord duration hdur
          obtain rfl := (Except.ok.inj heq).symm
          refine ⟨by have := chordDurOf_ok_nonneg hdur; simp; linarith, _, rfl, ?_⟩
          intro n hn
          obtain ⟨p, -, rfl⟩ := List.mem_map.mp hn
          rfl
    · rename_i m heq
      obtain rfl := (Except.ok.inj h).symm
      exact ⟨le_refl _, [], by simp, by simp⟩
    · cases h
  · rw [if_neg hh] at h
    have hchars : ∀ x ∈ t, isNoteTokChar x = true := by
      rcases hwf with hl | hr
      · exact absurd hl hh
      · exact hr
    have hminus : '-' ∉ t := by
      intro hm
      exact absurd (hchars '-' hm) (by decide)
    split at h
    · rename_i st2 heq
      obtain rfl := (Except.ok.inj h).symm
      split at heq
      · cases heq
      · rename_i md hmd
        obtain rfl := (Except.ok.inj heq).symm
        refine ⟨by have := parse_abc_note_ok_nonneg hminus hmd; simp; linarith,
          _, rfl, ?_⟩
        intro n hn
        split at hn
        · rcases List.mem_cons.mp hn with rfl | hn
          · rfl
          · cases hn
        · cases hn
    · rename_i m heq
      obtain rfl := (Except.ok.inj h).symm
      exact ⟨le_refl _, [], by simp, by simp⟩
    · cases h

/-- The fold invariant of the builder: start beats stay sorted and bounded by
the cursor. -/
theorem abcBuild_fold_chain :
    ∀ {tokens : List (List Char)} {v : ℚ} {st st' : BuildState},
    (∀ t ∈ tokens, t.head? = some '[' ∨ ∀ x ∈ t, isNoteTokChar x = true) →
    List.Chain' (· ≤ ·) (st.notes.map (·.startBeat)) →
    (∀ n ∈ st.notes, n.startBeat ≤ st.current_beat) →
    List.foldlM (buildTok v) st tokens = .ok st' →
    List.Chain' (· ≤ ·) (st'.notes.map (·.startBeat)) := by
  intro tokens
  induction tokens with
  | nil =>
      intro v st st' _ hc hb h
      obtain rfl := (Except.ok.inj h).symm
      exact hc
  | cons t ts ih =>
      intro v st st' hwf hc hb h
      rw [List.foldlM_cons] at h
      rcases hstep : buildTok v st t with e | st1 <;> rw [hstep] at h
      · cases h
      · replace h : List.foldlM (buildTok v) st1 ts = .ok st' := h
        obtain ⟨hbeat, new, hnotes, hstart⟩ :=
          buildTok_ok_step (hwf t (List.mem_cons_self _ _)) hstep
        have hc1 : List.Chain' (· ≤ ·) (st1.notes.map (·.startBeat)) := by
          rw [hnotes, List.map_append]
          rw [List.chain'_append]
          refine ⟨hc, @chain'_le_of_all_eq _ st.current_beat ?_, ?_⟩
          · intro x hx
            obtain ⟨n, hn, rfl⟩ := List.mem_map.mp hx
            exact hstart n hn
          · intro x hx y hy
            obtain ⟨n, hn, rfl⟩ := List.mem_map.mp (List.mem_of_mem_getLast? hx)
            obtain ⟨n2, hn2, rfl⟩ := List.mem_map.mp (List.mem_of_mem_head? hy)
            rw [hstart n2 hn2]
            exact hb n hn
        have hb1 : ∀ n ∈ st1.notes, n.startBeat ≤ st1.current_beat := by
          intro n hn
          rw [hnotes] at hn
          rcases List.mem_append.mp hn with hn | hn
          · exact le_trans (hb n hn) hbeat
          · rw [hstart n hn]
            exact hbeat
        exact ih (fun u hu => hwf u (List.mem_cons_of_mem _ hu)) hc1 hb1 h

/-- C9: for every input text, a successful `abc_to_program` run produces its
NoteEvents with non-decreasing `startBeat` in list order (token durations are
never negative, so the beat cursor never decreases), and no de-duplication is
performed: the chord `[CC]` yields two identical NoteEvents, both kept. -/
theorem c9_start_beats_monotone_no_dedup :
    (∀ (s : List Char) (bpb : Int) (v : ℚ) (prog : Program)
      (errs : List (List Char)),
      abc_to_program s bpb v = .ok (prog, errs) →
      List.Chain' (· ≤ ·) (prog.notes.map (·.startBeat))) ∧
    abcBuild (tokenize_abc (str "[CC]")) (4/5) =
      .ok { notes := [⟨48, 0, 1, 4/5⟩, ⟨48, 0, 1, 4/5⟩],
            current_beat := 1, errors := [] } := by
  refine ⟨?_, by decide!⟩
  intro s bpb v prog errs h
  simp only [abc_to_program] at h
  rcases hb : abcBuild (tokenize_abc s) v with e | st <;> rw [hb] at h
  · cases h
  · replace h : Except.ok
        ({ lengthBars := quantizeBars st.current_beat bpb,
           notes := st.notes }, st.errors) = .ok (prog, errs) := h
    simp only [Except.ok.injEq, Prod.mk.injEq] at h
    obtain ⟨h1, -⟩ := h
    rw [← h1]
    exact abcBuild_fold_chain (fun t ht => tokenize_abc_tokens ht)
      (by simp) (by simp) hb

/-- C9 witness: reuses the theorem at the input `"C D"` (its builder
succeeds), instantiating the universally quantified first conjunct. -/
theorem c9_start_beats_monotone_no_dedup_witness :
    List.Chain' (· ≤ ·)
      ((Program.mk (1/2) [⟨48, 0, 1, 4/5⟩, ⟨50, 1, 1, 4/5⟩]).notes.map
        (·.startBeat)) :=
  c9_start_beats_monotone_no_dedup.1 (str "C D") 4 (4/5)
    ⟨1/2, [⟨48, 0, 1, 4/5⟩, ⟨50, 1, 1, 4/5⟩]⟩ [] (by decide!)

theorem digitChar_toNat {n : Nat} (h : n < 10) :
    (Char.ofNat (48 + n)).toNat = 48 + n := by
  interval_cases n <;> decide

theorem digitChar_isDigit {n : Nat} (h : n < 10) :
    (Char.ofNat (48 + n)).isDigit = true := by
  interval_cases n <;> decide

theorem natStrF_congr {n : Nat} : ∀ {f₁ f₂ : Nat}, n < f₁ → n < f₂ →
    natStrF f₁ n = natStrF f₂ n := by
  induction n using Nat.strong_induction_on with
  | _ n ih =>
    intro f₁ f₂ h₁ h₂
    match f₁, f₂ with
    | g + 1, k + 1 =>
      simp only [natStrF]
      by_cases h10 : n < 10
      · simp [h10]
      · rw [if_neg h10, if_neg h10]
        have hd : n / 10 < n := Nat.div_lt_self (by omega) (by omega)
        rw [@ih (n / 10) hd g k (by omega) (by omega)]

theorem natStr_unfold (n : Nat) : natStr n =
    if n < 10 then [Char.ofNat (48 + n)]
    else natStr (n / 10) ++ [Char.ofNat (48 + n % 10)] := by
  by_cases h10 : n < 10
  · rw [if_pos h10]
    unfold natStr
    simp [natStrF, h10]
  · rw [if_neg h10]
    show natStrF (n + 1) n = _
    simp only [natStrF]
    rw [if_neg h10]
    have hd : n / 10 < n := Nat.div_lt_self (by omega) (by omega)
    rw [@natStrF_congr (n / 10) n (n / 10 + 1) (by omega) (by omega)]
    rfl

theorem natStr_all_digits (n : Nat) : ∀ x ∈ natStr n, x.isDigit = true := by
  induction n using Nat.strong_induction_on with
  | _ n ih =>
    rw [natStr_unfold]
    by_cases h10 : n < 10
    · rw [if_pos h10]
      intro x hx
      rcases List.mem_cons.mp hx with rfl | hx
      · exact digitChar_isDigit h10
      · cases hx
    · rw [if_neg h10]
      intro x hx
      rcases List.mem_append.mp hx with hx | hx
      · exact ih (n / 10) (Nat.div_lt_self (by omega) (by omega)) x hx
      · rcases List.mem_cons.mp hx with rfl | hx
        · exact digitChar_isDigit (Nat.mod_lt _ (by omega))
        · cases hx

theorem natStr_ne_nil (n : Nat) : natStr n ≠ [] := by
  rw [natStr_unfold]
  by_cases h10 : n < 10
  · simp [h10]
  · simp [h10]

theorem digitsVal_append_digit (a : List Char) (c : Char) :
    digitsVal (a ++ [c]) = digitsVal a * 10 + (c.toNat - 48) := by
  simp [digitsVal, List.foldl_append]

theorem digitsVal_natStr (n : Nat) : digitsVal (natStr n) = n := by
  induction n using Nat.strong_induction_on with
  | _ n ih =>
    rw [natStr_unfold]
    by_cases h10 : n < 10
    · rw [if_pos h10]
      simp [digitsVal, digitChar_toNat h10]
    · rw [if_neg h10, digitsVal_append_digit,
        ih (n / 10) (Nat.div_lt_self (by omega) (by omega)),
        digitChar_toNat (Nat.mod_lt _ (by omega))]
      omega

theorem isDigit_ne_chars {c : Char} (h : c.isDigit = true) :
    c ≠ '-' ∧ c ≠ '+' ∧ c ≠ '/' ∧ c ≠ '\'' ∧ c ≠ ',' ∧ c ≠ '.' := by
  refine ⟨?_, ?_, ?_, ?_, ?_, ?_⟩ <;> (intro hcc; rw [hcc] at h; exact absurd h (by decide))

theorem pyFloat_digits {s : List Char} (h1 : s ≠ [])
    (h2 : ∀ x ∈ s, x.isDigit = true) : pyFloat s = some ((digitsVal s : Nat) : ℚ) := by
  have hstrip : pyStripWs s = s :=
    pyStripWs_eq_self (fun x hx => isDigit_not_space (h2 x hx))
  have hhead : ∀ c, s.head? = some c → c.isDigit = true := by
    intro c hc
    cases s with
    | nil => cases hc
    | cons a t =>
        simp only [List.head?_cons, Option.some.injEq] at hc
        exact hc ▸ h2 a (List.mem_cons_self _ _)
  simp only [pyFloat, hstrip]
  have hm : ¬ (s.head? = some '-') := by
    intro hc
    exact absurd (hhead _ hc) (by decide)
  have hp : ¬ (s.head? = some '-' ∨ s.head? = some '+') := by
    rintro (hc | hc)
    · exact hm hc
    · exact absurd (hhead _ hc) (by decide)
  have hnu : '_' ∉ s := by
    intro hm
    exact absurd (h2 '_' hm) (by decide)
  have hfil : s.filter (fun c => decide (c ≠ '_')) = s :=
    List.filter_eq_self.mpr (fun x hx => by
      simp only [decide_eq_true_eq]
      exact fun he => hnu (he ▸ hx))
  rw [if_neg hm, if_neg hp, if_pos (underscoresOK_of_no_underscore s hnu), hfil]
  rw [List.takeWhile_eq_self_iff.mpr h2, List.dropWhile_eq_nil_iff.mpr ?hd]
  case hd => intro x hx; exact h2 x hx
  rw [if_neg h1]
  rw [one_mul]

/-- A duration exactly representable and re-parseable for a single note token:
a positive whole number of quarter beats. -/
def QuarterPos (d : ℚ) : Prop := ∃ k : Nat, 1 ≤ k ∧ d = (k : ℚ) / 4

/-- A duration exactly representable and re-parseable as a chord suffix:
a quarter beat, a half beat, or a positive whole number of beats. -/
def ChordRepDur (d : ℚ) : Prop :=
  d = 1/4 ∨ d = 1/2 ∨ ∃ k : Nat, 1 ≤ k ∧ d = (k : ℚ)

/-- The groups of a contiguous program starting at beat `t`: each group is
non-empty, all its notes share the start `t` and one duration `d`, pitches
are in MIDI range, the duration is representable (singleton vs chord rules),
and the next group starts at `t + d`. -/
def ContiguousFrom : ℚ → List (List NoteEvent) → Prop
  | _, [] => True
  | t, g :: gs =>
      ∃ d, g ≠ [] ∧
        (∀ n ∈ g, n.startBeat = t ∧ 0 ≤ n.pitch ∧ n.pitch ≤ 127 ∧
          n.lengthBeats = d) ∧
        (if g.length = 1 then QuarterPos d else ChordRepDur d) ∧
        ContiguousFrom (t + d) gs

/-- The amended round-trip domain: the program's notes split into contiguous
uniform groups starting at beat 0. -/
def ProgramWF (p : Program) : Prop :=
  ∃ gs, p.notes = gs.flatten ∧ ContiguousFrom 0 gs

theorem pySplit_append_sep {sep : Char} {a b : List Char} (ha : sep ∉ a) :
    pySplit sep (a ++ sep :: b) = a :: pySplit sep b := by
  induction a with
  | nil =>
      simp [pySplit]
  | cons c r ih =>
      have hc : c ≠ sep := fun hcc => ha (hcc ▸ List.mem_cons_self _ _)
      simp only [List.cons_append, pySplit, if_neg hc, List.append_eq]
      rw [ih (fun hm => ha (List.mem_cons_of_mem _ hm))]

theorem pySplit_no_sep {sep : Char} {l : List Char} (h : sep ∉ l) :
    pySplit sep l = [l] := by
  induction l with
  | nil => rfl
  | cons c r ih =>
      have hc : c ≠ sep := fun hcc => h (hcc ▸ List.mem_cons_self _ _)
      simp only [pySplit, if_neg hc]
      rw [ih (fun hm => h (List.mem_cons_of_mem _ hm))]

theorem digits_no_slash {s : List Char} (h : ∀ x ∈ s, x.isDigit = true) :
    s.contains '/' = false := by
  by_contra hb
  rw [Bool.not_eq_false] at hb
  have hmem : '/' ∈ s := by simpa using hb
  have hd := h '/' hmem
  exact absurd hd (by decide)

theorem slash_not_mem_digits {s : List Char} (h : ∀ x ∈ s, x.isDigit = true) :
    '/' ∉ s := by
  intro hm
  have hd := h '/' hm
  exact absurd hd (by decide)

theorem pyFloatE_natStr (n : Nat) : pyFloatE (natStr n) = .ok ((n : Nat) : ℚ) := by
  unfold pyFloatE
  rw [pyFloat_digits (natStr_ne_nil n) (natStr_all_digits n), digitsVal_natStr]

theorem parseFracDur_frac (n m : Nat) (hm : m ≠ 0) :
    parseFracDur (natStr n ++ '/' :: natStr m) = .ok ((n : ℚ) / m) := by
  simp only [parseFracDur]
  rw [pySplit_append_sep (slash_not_mem_digits (natStr_all_digits n)),
    pySplit_no_sep (slash_not_mem_digits (natStr_all_digits m))]
  simp only [List.getD_cons_zero, List.getD_cons_succ]
  rw [if_pos (natStr_ne_nil n), pyFloatE_natStr, pyFloatE_natStr]
  show pyDiv ((n : Nat) : ℚ) ((m : Nat) : ℚ) = Except.ok ((n : ℚ) / m)
  unfold pyDiv
  rw [if_neg (by exact_mod_cast hm)]

theorem parseFracDur_oneOver (m : Nat) (hm : m ≠ 0) :
    parseFracDur ('/' :: natStr m) = .ok (1 / (m : ℚ)) := by
  simp only [parseFracDur]
  have h0 : ('/' :: natStr m) = [] ++ '/' :: natStr m := rfl
  rw [h0, pySplit_append_sep (by simp),
    pySplit_no_sep (slash_not_mem_digits (natStr_all_digits m))]
  simp only [List.getD_cons_zero, List.getD_cons_succ]
  rw [if_neg (by simp), pyFloatE_natStr]
  show pyDiv 1 ((m : Nat) : ℚ) = Except.ok (1 / (m : ℚ))
  unfold pyDiv
  rw [if_neg (by exact_mod_cast hm)]

theorem parseNoteDur_natStr (n : Nat) (tok : List Char) :
    parseNoteDur (natStr n) tok = .ok ((n : Nat) : ℚ) := by
  unfold parseNoteDur
  rw [if_neg (natStr_ne_nil n),
    if_neg (by simpa using slash_not_mem_digits (natStr_all_digits n)),
    pyFloat_digits (natStr_ne_nil n) (natStr_all_digits n), digitsVal_natStr]

/-- C1: the grammar token `C/0` (base letter plus duration suffix `/0`, of the
form `'/'+digits`) makes `parse_abc_note` raise a `ZeroDivisionError`, which
the pipeline's `except ValueError` handlers do not catch: `abc_to_program` and
`validate_abc` both terminate with an uncaught exception instead of collecting
a parse error. -/
theorem c1_slash_zero_uncaught :
    parse_abc_note (str "C/0") = .error .zeroDivisionError ∧
    abc_to_program (str "C/0") 4 (4/5) = .error .zeroDivisionError ∧
    validate_abc (str "C/0") none none 4 = .error .zeroDivisionError := by
  refine ⟨by decide!, by decide!, by decide!⟩

/-- C2: building `"[CEG]2"` yields exactly three NoteEvents, each with
`startBeat = 0`, `lengthBeats = 2`, `velocity = 0.8`, pitches 48, 52, 55, and
leaves the beat cursor at `2`, with no parse errors; `abc_to_program` with
`beats_per_bar = 4` returns exactly those notes. -/
theorem c2_chord_ceg2_events :
    abcBuild (tokenize_abc (str "[CEG]2")) (4/5) =
      .ok { notes := [⟨48, 0, 2, 4/5⟩, ⟨52, 0, 2, 4/5⟩, ⟨55, 0, 2, 4/5⟩],
            current_beat := 2, errors := [] } ∧
    abc_to_program (str "[CEG]2") 4 (4/5) =
      .ok ({ lengthBars := 1/2,
             notes := [⟨48, 0, 2, 4/5⟩, ⟨52, 0, 2, 4/5⟩, ⟨55, 0, 2, 4/5⟩] }, []) := by
  refine ⟨by decide!, by decide!⟩

/-- C3: `parse_abc_chord "[CEG]2"` returns duration `1.0` for every pitch —
not the suffix value `2.0` the claim (and the function's own docstring)
promises; the line-250 suffix match is computed and discarded. -/
theorem c3_chord_suffix_ignored :
    parse_abc_chord (str "[CEG]2") = .ok [(48, 1), (52, 1), (55, 1)] ∧
    ((1 : ℚ) ≠ 2) := by
  refine ⟨by decide!, by norm_num⟩

/-- C8 counterexample: `validate_abc ""` is valid with empty notes and no
errors, but its only warning is `"Empty program (will silence track)"`, which
does not contain the lowercase substring `"empty"` the claim requires. -/
theorem c8_empty_warning_not_lowercase :
    validate_abc (str "") none none 4 =
      .ok { valid := true, abc_input := [], program := some ⟨1/8, []⟩,
            errors := [], warnings := [str "Empty program (will silence track)"],
            abc_output := some (str "z4 |") } ∧
    strContainsSub (str "empty") (str "Empty program (will silence track)") = false := by
  refine ⟨by decide!, by decide!⟩

/-- C8 (amended): `validate_abc ""` returns `valid = true`, an empty note
list, no errors, and a warning containing `"Empty"` (capitalised: the
warning text mentions emptiness, but the lowercase `"empty"` of the claim is
not literally a substring). -/
theorem c8_empty_valid_with_warning :
    validate_abc (str "") none none 4 =
      .ok { valid := true, abc_input := [], program := some ⟨1/8, []⟩,
            errors := [], warnings := [str "Empty program (will silence track)"],
            abc_output := some (str "z4 |") } ∧
    strContainsSub (str "Empty") (str "Empty program (will silence track)") = true := by
  refine ⟨by decide!, by decide!⟩

/-- C10: the token `C0` parses without error to pitch 48 with duration `0`;
the structural validator then rejects the resulting zero-length NoteEvent with
a non-positive-duration error, so the pipeline returns `valid = false` with
the program populated and no normalized output — a validation failure, not a
parse failure. -/
theorem c10_zero_duration_rejected :
    parse_abc_note (str "C0") = .ok (48, 0) ∧
    validate_abc (str "C0") none none 4 =
      .ok { valid := false, abc_input := str "C0",
            program := some ⟨1/8, [⟨48, 0, 0, 4/5⟩]⟩,
            errors := [str "Note 0: Non-positive duration"],
            warnings := [], abc_output := none } := by
  refine ⟨by decide!, by decide!⟩

/-- The `(pitch, startBeat, lengthBeats)` triple of a note event (the claimed
round-trip invariant ignores velocity). -/
def triple (n : NoteEvent) : Int × ℚ × ℚ := (n.pitch, n.startBeat, n.lengthBeats)

/-- C5 counterexample: the integral-beat program with a single note at
`startBeat = 2` (no fractional-beat ambiguity) serializes to `"c |"`, which
re-parses to a note at `startBeat = 0`: the triple multiset is not
reproduced — the gap before the note is lost because the serializer never
emits rests, and the discrepancy of 2 beats exceeds any small tolerance. -/
theorem c5_gap_program_not_roundtripped :
    program_to_abc ⟨1, [⟨60, 2, 1, 4/5⟩]⟩ 4 = str "c |" ∧
    abc_to_program (str "c |") 4 (4/5) =
      .ok (⟨1/4, [⟨60, 0, 1, 4/5⟩]⟩, []) ∧
    [triple ⟨60, 0, 1, 4/5⟩] ≠ [triple ⟨60, 2, 1, 4/5⟩] ∧
    (2 : ℚ) - 0 > 1/100 := by
  refine ⟨by decide!, by decide!, by decide!, by norm_num⟩

set_option maxHeartbeats 1000000 in
/-- C6: for every total-beats value and positive beats-per-bar, the quantizer
returns the smallest legal bar length that is `≥ bars - 0.001` where
`bars = beats / beatsPerBar`, and clamps to `16` when every legal length is
below that bound; in particular 3 elapsed beats at 4 beats per bar quantize
to `lengthBars = 1`. -/
theorem c6_quantizer_rounds_up (beats : ℚ) (bpb : Int) (hb : 0 < bpb) :
    ((quantizeBars beats bpb ∈ VALID_BAR_LENGTHS ∧
      beats / (bpb : ℚ) - 1/1000 ≤ quantizeBars beats bpb ∧
      (∀ v ∈ VALID_BAR_LENGTHS, beats / (bpb : ℚ) - 1/1000 ≤ v →
        quantizeBars beats bpb ≤ v)) ∨
     ((∀ v ∈ VALID_BAR_LENGTHS, v < beats / (bpb : ℚ) - 1/1000) ∧
      quantizeBars beats bpb = 16)) ∧
    quantizeBars 3 4 = 1 := by
  refine ⟨?_, by decide!⟩
  simp only [quantizeBars, if_pos hb]
  set b := beats / (bpb : ℚ) with hbdef
  have mem8 : ∀ v ∈ VALID_BAR_LENGTHS,
      v = 1/8 ∨ v = 1/4 ∨ v = 1/2 ∨ v = 1 ∨ v = 2 ∨ v = 4 ∨ v = 8 ∨ (v : ℚ) = 16 := by
    intro v hv
    simpa [VALID_BAR_LENGTHS] using hv
  by_cases c1 : (1/8 : ℚ) ≥ b - 1/1000
  · rw [show VALID_BAR_LENGTHS = (1/8 : ℚ) :: [1/4, 1/2, 1, 2, 4, 8, 16] from rfl,
      List.find?_cons_of_pos _ (by simpa using c1)]
    refine Or.inl ⟨by norm_num [VALID_BAR_LENGTHS], by linarith, ?_⟩
    intro v hv _
    rcases mem8 v hv with rfl | rfl | rfl | rfl | rfl | rfl | rfl | rfl <;> norm_num
  by_cases c2 : (1/4 : ℚ) ≥ b - 1/1000
  · rw [show VALID_BAR_LENGTHS = (1/8 : ℚ) :: (1/4 : ℚ) :: [1/2, 1, 2, 4, 8, 16] from rfl,
      List.find?_cons_of_neg _ (by simpa using c1),
      List.find?_cons_of_pos _ (by simpa using c2)]
    refine Or.inl ⟨by norm_num [VALID_BAR_LENGTHS], by linarith, ?_⟩
    intro v hv hvge
    rcases mem8 v hv with rfl | rfl | rfl | rfl | rfl | rfl | rfl | rfl <;>
      first | linarith | norm_num
  by_cases c3 : (1/2 : ℚ) ≥ b - 1/1000
  · rw [show VALID_BAR_LENGTHS = (1/8 : ℚ) :: (1/4 : ℚ) :: (1/2 : ℚ) :: [1, 2, 4, 8, 16] from rfl,
      List.find?_cons_of_neg _ (by simpa using c1),
      List.find?_cons_of_neg _ (by simpa using c2),
      List.find?_cons_of_pos _ (by simpa using c3)]
    refine Or.inl ⟨by norm_num [VALID_BAR_LENGTHS], by linarith, ?_⟩
    intro v hv hvge
    rcases mem8 v hv with rfl | rfl | rfl | rfl | rfl | rfl | rfl | rfl <;>
      first | linarith | norm_num
  by_cases c4 : (1 : ℚ) ≥ b - 1/1000
  · rw [show VALID_BAR_LENGTHS
        = (1/8 : ℚ) :: (1/4 : ℚ) :: (1/2 : ℚ) :: (1 : ℚ) :: [2, 4, 8, 16] from rfl,
      List.find?_cons_of_neg _ (by simpa using c1),
      List.find?_cons_of_neg _ (by simpa using c2),
      List.find?_cons_of_neg _ (by simpa using c3),
      List.find?_cons_of_pos _ (by simpa using c4)]
    refine Or.inl ⟨by norm_num [VALID_BAR_LENGTHS], by linarith, ?_⟩
    intro v hv hvge
    rcases mem8 v hv with rfl | rfl | rfl | rfl | rfl | rfl | rfl | rfl <;>
      first | linarith | norm_num
  by_cases c5 : (2 : ℚ) ≥ b - 1/1000
  · rw [show VALID_BAR_LENGTHS
        = (1/8 : ℚ) :: (1/4 : ℚ) :: (1/2 : ℚ) :: (1 : ℚ) :: (2 : ℚ) :: [4, 8, 16] from rfl,
      List.find?_cons_of_neg _ (by simpa using c1),
      List.find?_cons_of_neg _ (by simpa using c2),
      List.find?_cons_of_neg _ (by simpa using c3),
      List.find?_cons_of_neg _ (by simpa using c4),
      List.find?_cons_of_pos _ (by simpa using c5)]
    refine Or.inl ⟨by norm_num [VALID_BAR_LENGTHS], by linarith, ?_⟩
    intro v hv hvge
    rcases mem8 v hv with rfl | rfl | rfl | rfl | rfl | rfl | rfl | rfl <;>
      first | linarith | norm_num
  by_cases c6 : (4 : ℚ) ≥ b - 1/1000
  · rw [show VALID_BAR_LENGTHS
        = (1/8 : ℚ) :: (1/4 : ℚ) :: (1/2 : ℚ) :: (1 : ℚ) :: (2 : ℚ) :: (4 : ℚ) :: [8, 16] from rfl,
      List.find?_cons_of_neg _ (by simpa using c1),
      List.find?_cons_of_neg _ (by simpa using c2),
      List.find?_cons_of_neg _ (by simpa using c3),
      List.find?_cons_of_neg _ (by simpa using c4),
      List.find?_cons_of_neg _ (by simpa using c5),
      List.find?_cons_of_pos _ (by simpa using c6)]
    refine Or.inl ⟨by norm_num [VALID_BAR_LENGTHS], by linarith, ?_⟩
    intro v hv hvge
    rcases mem8 v hv with rfl | rfl | rfl | rfl | rfl | rfl | rfl | rfl <;>
      first | linarith | norm_num
  by_cases c7 : (8 : ℚ) ≥ b - 1/1000
  · rw [show VALID_BAR_LENGTHS
        = (1/8 : ℚ) :: (1/4 : ℚ) :: (1/2 : ℚ) :: (1 : ℚ) :: (2 : ℚ) :: (4 : ℚ) :: (8 : ℚ)
            :: [16] from rfl,
      List.find?_cons_of_neg _ (by simpa using c1),
      List.find?_cons_of_neg _ (by simpa using c2),
      List.find?_cons_of_neg _ (by simpa using c3),
      List.find?_cons_of_neg _ (by simpa using c4),
      List.find?_cons_of_neg _ (by simpa using c5),
      List.find?_cons_of_neg _ (by simpa using c6),
      List.find?_cons_of_pos _ (by simpa using c7)]
    refine Or.inl ⟨by norm_num [VALID_BAR_LENGTHS], by linarith, ?_⟩
    intro v hv hvge
    rcases mem8 v hv with rfl | rfl | rfl | rfl | rfl | rfl | rfl | rfl <;>
      first | linarith | norm_num
  by_cases c8 : (16 : ℚ) ≥ b - 1/1000
  · rw [show VALID_BAR_LENGTHS
        = (1/8 : ℚ) :: (1/4 : ℚ) :: (1/2 : ℚ) :: (1 : ℚ) :: (2 : ℚ) :: (4 : ℚ) :: (8 : ℚ)
            :: (16 : ℚ) :: [] from rfl,
      List.find?_cons_of_neg _ (by simpa using c1),
      List.find?_cons_of_neg _ (by simpa using c2),
      List.find?_cons_of_neg _ (by simpa using c3),
      List.find?_cons_of_neg _ (by simpa using c4),
      List.find?_cons_of_neg _ (by simpa using c5),
      List.find?_cons_of_neg _ (by simpa using c6),
      List.find?_cons_of_neg _ (by simpa using c7),
      List.find?_cons_of_pos _ (by simpa using c8)]
    refine Or.inl ⟨by norm_num [VALID_BAR_LENGTHS], by linarith, ?_⟩
    intro v hv hvge
    rcases mem8 v hv with rfl | rfl | rfl | rfl | rfl | rfl | rfl | rfl <;>
      first | linarith | norm_num
  · rw [show VALID_BAR_LENGTHS
        = (1/8 : ℚ) :: (1/4 : ℚ) :: (1/2 : ℚ) :: (1 : ℚ) :: (2 : ℚ) :: (4 : ℚ) :: (8 : ℚ)
            :: (16 : ℚ) :: [] from rfl,
      List.find?_cons_of_neg _ (by simpa using c1),
      List.find?_cons_of_neg _ (by simpa using c2),
      List.find?_cons_of_neg _ (by simpa using c3),
      List.find?_cons_of_neg _ (by simpa using c4),
      List.find?_cons_of_neg _ (by simpa using c5),
      List.find?_cons_of_neg _ (by simpa using c6),
      List.find?_cons_of_neg _ (by simpa using c7),
      List.find?_cons_of_neg _ (by simpa using c8),
      List.find?_nil]
    refine Or.inr ⟨?_, rfl⟩
    intro v hv
    rcases mem8 v hv with rfl | rfl | rfl | rfl | rfl | rfl | rfl | rfl <;> linarith

/-- C6 witness: instantiated at 3 elapsed beats and 4 beats per bar, where
the quantizer picks `1` (the smallest legal length at least `0.749`). -/
theorem c6_quantizer_rounds_up_witness :
    ((quantizeBars 3 4 ∈ VALID_BAR_LENGTHS ∧
      (3 : ℚ) / ((4 : Int) : ℚ) - 1/1000 ≤ quantizeBars 3 4 ∧
      (∀ v ∈ VALID_BAR_LENGTHS, (3 : ℚ) / ((4 : Int) : ℚ) - 1/1000 ≤ v →
        quantizeBars 3 4 ≤ v)) ∨
     ((∀ v ∈ VALID_BAR_LENGTHS, v < (3 : ℚ) / ((4 : Int) : ℚ) - 1/1000) ∧
      quantizeBars 3 4 = 16)) ∧
    quantizeBars 3 4 = 1 :=
  c6_quantizer_rounds_up 3 4 (by norm_num)

/-- C4: for every input, if the builder returns parse errors the result is
invalid with exactly those errors and neither program nor normalized text; if
parsing succeeds but structural validation errors, the result is invalid with
the program populated and no normalized text; and the normalized text is
populated exactly when the result is valid. -/
theorem c4_validation_result_shape (s : List Char) (k : Option Int)
    (sc : Option (List Char)) (bpb : Int) (prog : Program)
    (errs : List (List Char))
    (h : abc_to_program s bpb (4/5) = .ok (prog, errs)) :
    (errs ≠ [] → validate_abc s k sc bpb =
        .ok ⟨false, s, none, errs, [], none⟩) ∧
    (errs = [] → (validate_program prog k sc bpb).1 ≠ [] →
        validate_abc s k sc bpb =
          .ok ⟨false, s, some prog, (validate_program prog k sc bpb).1,
               (validate_program prog k sc bpb).2, none⟩) ∧
    (errs = [] → (validate_program prog k sc bpb).1 = [] →
        validate_abc s k sc bpb =
          .ok ⟨true, s, some prog, [], (validate_program prog k sc bpb).2,
               some (program_to_abc prog bpb)⟩) ∧
    (∀ r, validate_abc s k sc bpb = .ok r → (r.abc_output.isSome ↔ r.valid = true)) := by
  have hv : validate_abc s k sc bpb =
      (if errs ≠ [] then
        .ok ⟨false, s, none, errs, [], none⟩
      else if (validate_program prog k sc bpb).1 ≠ [] then
        .ok ⟨false, s, some prog, (validate_program prog k sc bpb).1,
             (validate_program prog k sc bpb).2, none⟩
      else
        .ok ⟨true, s, some prog, [], (validate_program prog k sc bpb).2,
             some (program_to_abc prog bpb)⟩) := by
    unfold validate_abc
    rw [h]
    rfl
  refine ⟨?_, ?_, ?_, ?_⟩
  · intro he
    rw [hv, if_pos he]
  · intro he hve
    rw [hv, if_neg (by simp [he]), if_pos hve]
  · intro he hve
    rw [hv, if_neg (by simp [he]), if_neg (by simp [hve])]
  · intro r hr
    rw [hv] at hr
    by_cases he : errs ≠ []
    · rw [if_pos he] at hr
      cases hr
      simp
    · rw [if_neg he] at hr
      by_cases hve : (validate_program prog k sc bpb).1 ≠ []
      · rw [if_pos hve] at hr
        cases hr
        simp
      · rw [if_neg hve] at hr
        cases hr
        simp

/-- C4 witness: instantiated at the input `"C"` (which parses with no errors
and validates cleanly), discharging the builder-equation hypothesis. -/
theorem c4_validation_result_shape_witness :
    (([] : List (List Char)) ≠ [] → validate_abc (str "C") none none 4 =
        .ok ⟨false, str "C", none, [], [], none⟩) ∧
    (([] : List (List Char)) = [] →
      (validate_program ⟨1/4, [⟨48, 0, 1, 4/5⟩]⟩ none none 4).1 ≠ [] →
        validate_abc (str "C") none none 4 =
          .ok ⟨false, str "C", some ⟨1/4, [⟨48, 0, 1, 4/5⟩]⟩,
               (validate_program ⟨1/4, [⟨48, 0, 1, 4/5⟩]⟩ none none 4).1,
               (validate_program ⟨1/4, [⟨48, 0, 1, 4/5⟩]⟩ none none 4).2, none⟩) ∧
    (([] : List (List Char)) = [] →
      (validate_program ⟨1/4, [⟨48, 0, 1, 4/5⟩]⟩ none none 4).1 = [] →
        validate_abc (str "C") none none 4 =
          .ok ⟨true, str "C", some ⟨1/4, [⟨48, 0, 1, 4/5⟩]⟩, [],
               (validate_program ⟨1/4, [⟨48, 0, 1, 4/5⟩]⟩ none none 4).2,
               some (program_to_abc ⟨1/4, [⟨48, 0, 1, 4/5⟩]⟩ 4)⟩) ∧
    (∀ r, validate_abc (str "C") none none 4 = .ok r →
      (r.abc_output.isSome ↔ r.valid = true)) :=
  c4_validation_result_shape (str "C") none none 4 ⟨1/4, [⟨48, 0, 1, 4/5⟩]⟩ []
    (by decide!)

/-- C7 counterexample: the note token `C1/2/3` carries the duration suffix
`1/2/3`, which is not a valid integer or fraction, yet `parse_abc_note`
silently returns `(48, 1/2)` with no error of any kind: `split('/')` yields
`['1','2','3']` and the third component is ignored. -/
theorem c7_multi_slash_silently_accepted :
    parse_abc_note (str "C1/2/3") = .ok (48, 1/2) := by decide!

theorem abcBaseNote_range {c : Char} {base : Int}
    (h : abcBaseNote c = some base) : 48 ≤ base ∧ base ≤ 71 := by
  unfold abcBaseNote ABC_BASE_NOTES at h
  simp only [List.lookup] at h
  repeat' split at h
  all_goals first | (simp_all; omega) | simp_all | omega

theorem abcBaseNote_letter {c : Char} {base : Int}
    (h : abcBaseNote c = some base) :
    c ≠ 'z' ∧ c ≠ 'Z' ∧ c ≠ '^' ∧ c ≠ '_' ∧ c ≠ '=' ∧ pyIsSpace c = false := by
  unfold abcBaseNote ABC_BASE_NOTES at h
  simp only [List.lookup] at h
  repeat' split at h
  all_goals simp_all [pyIsSpace]

/-- C7 (amended): a non-rest note token whose duration suffix contains no `/`
and is not a valid number fails with an `InvalidDuration` error naming the
token; however (i) a suffix containing `/` is split on `/` and any components
beyond the second are silently ignored (so `C1/2/3` parses as `1/2` with no
error — the counterexample), and (ii) a rest token with an unparseable
slash-free suffix silently falls back to the default duration `1.0`
(`z,` parses as a one-beat rest with no error). -/
theorem c7_noslash_invalid_duration_errors (c : Char) (base : Int)
    (durs : List Char)
    (hc : abcBaseNote c = some base)
    (halpha : ∀ d ∈ durs,
      d.isDigit ∨ d = '\'' ∨ d = ',' ∨ d = '^' ∨ d = '_' ∨ d = '=')
    (hne : durs ≠ [])
    (hh1 : durs.head? ≠ some '\'') (hh2 : durs.head? ≠ some ',')
    (hfloat : pyFloat durs = none) :
    parse_abc_note (c :: durs) =
      .error (.valueError (str "Invalid duration in: " ++ c :: durs)) ∧
    parse_abc_note (str "z,") = .ok (-1, 1) := by
  refine ⟨?_, by decide!⟩
  obtain ⟨hz, hZ, hcar, hund, heq, hws⟩ := abcBaseNote_letter hc
  obtain ⟨hlo, hhi⟩ := abcBaseNote_range hc
  have hnws : ∀ x ∈ c :: durs, pyIsSpace x = false := by
    intro x hx
    rcases List.mem_cons.mp hx with rfl | hx
    · exact hws
    rcases halpha x hx with hd | rfl | rfl | rfl | rfl | rfl
    · exact isDigit_not_space hd
    all_goals decide
  have hstrip : pyStripWs (c :: durs) = c :: durs := pyStripWs_eq_self hnws
  have hmem : '/' ∉ durs := by
    intro hd
    rcases halpha '/' hd with h | h | h | h | h | h <;> revert h <;> decide
  have hq : durs.takeWhile (fun x => x = '\'') = [] := by
    cases durs with
    | nil => rfl
    | cons a t =>
        simp only [List.head?_cons, ne_eq, Option.some.injEq] at hh1
        rw [List.takeWhile_cons, if_neg (by simp [hh1])]
  have hqd : durs.dropWhile (fun x => x = '\'') = durs := by
    cases durs with
    | nil => rfl
    | cons a t =>
        simp only [List.head?_cons, ne_eq, Option.some.injEq] at hh1
        rw [List.dropWhile_cons, if_neg (by simp [hh1])]
  have hcm : durs.takeWhile (fun x => x = ',') = [] := by
    cases durs with
    | nil => rfl
    | cons a t =>
        simp only [List.head?_cons, ne_eq, Option.some.injEq] at hh2
        rw [List.takeWhile_cons, if_neg (by simp [hh2])]
  have hcmd : durs.dropWhile (fun x => x = ',') = durs := by
    cases durs with
    | nil => rfl
    | cons a t =>
        simp only [List.head?_cons, ne_eq, Option.some.injEq] at hh2
        rw [List.dropWhile_cons, if_neg (by simp [hh2])]
  have hacc : stripAccidental (c :: durs) = (0, c :: durs) := by
    unfold stripAccidental
    cases durs with
    | nil => split <;> simp_all
    | cons a t => split <;> simp_all
  unfold parse_abc_note
  rw [if_neg (by simp), hstrip, if_neg (by simp [hz, hZ]), hacc]
  have hstep : (match ((0 : Int), c :: durs).2 with
      | [] => (.error (.valueError (str "Invalid ABC note: " ++ c :: durs)) :
          Except PyErr (Int × ℚ))
      | base_char :: note2 =>
          match abcBaseNote base_char with
          | none =>
              .error (.valueError
                (str "Invalid note letter '" ++ [base_char] ++ str "' in: " ++ c :: durs))
          | some b => noteTail b ((0 : Int), c :: durs).1 note2 (c :: durs)) =
      noteTail base 0 durs (c :: durs) := by
    simp [hc]
  rw [hstep]
  unfold noteTail
  simp only [hq, hqd, hcm, hcmd]
  rw [if_neg (by simp; omega)]
  unfold parseNoteDur
  rw [if_neg hne]
  rw [if_neg (by simp [hmem])]
  rw [hfloat]

/-- C7 amended witness: `C2'` (suffix `2'`, slash-free and non-numeric) fails
with the `InvalidDuration` error naming the token. -/
theorem c7_noslash_invalid_duration_errors_witness :
    parse_abc_note (str "C2'") =
      .error (.valueError (str "Invalid duration in: " ++ 'C' :: str "2'")) ∧
    parse_abc_note (str "z,") = .ok (-1, 1) :=
  c7_noslash_invalid_duration_errors 'C' 48 (str "2'") (by decide!)
    (by decide) (by decide) (by decide) (by decide) (by decide!)

theorem takeWhile_append_all {p : Char → Bool} :
    ∀ {a : List Char} (b : List Char), (∀ c ∈ a, p c = true) →
      (a ++ b).takeWhile p = a ++ b.takeWhile p
  | [], b, _ => by simp
  | c :: a, b, h => by
      have hc : p c = true := h c (List.mem_cons_self _ _)
      simp only [List.cons_append, List.takeWhile_cons, hc, if_pos]
      rw [takeWhile_append_all b (fun x hx => h x (List.mem_cons_of_mem _ hx))]

theorem dropWhile_append_all {p : Char → Bool} :
    ∀ {a : List Char} (b : List Char), (∀ c ∈ a, p c = true) →
      (a ++ b).dropWhile p = b.dropWhile p
  | [], b, _ => by simp
  | c :: a, b, h => by
      have hc : p c = true := h c (List.mem_cons_self _ _)
      simp only [List.cons_append, List.dropWhile_cons, hc, if_pos]
      exact dropWhile_append_all b (fun x hx => h x (List.mem_cons_of_mem _ hx))

theorem takeWhile_nil_of_head {p : Char → Bool} {l : List Char}
    (h : ∀ c, l.head? = some c → p c = false) : l.takeWhile p = [] := by
  cases l with
  | nil => rfl
  | cons c r =>
      rw [List.takeWhile_cons, if_neg]
      simp [h c rfl]

theorem dropWhile_self_of_head {p : Char → Bool} {l : List Char}
    (h : ∀ c, l.head? = some c → p c = false) : l.dropWhile p = l := by
  cases l with
  | nil => rfl
  | cons c r =>
      rw [List.dropWhile_cons, if_neg]
      simp [h c rfl]

theorem intercalate_cons₂ (s a b : List Char) (t : List (List Char)) :
    List.intercalate s (a :: b :: t) = a ++ s ++ List.intercalate s (b :: t) := by
  simp [List.intercalate, List.intersperse]

theorem intercalate_single (s a : List Char) : List.intercalate s [a] = a := by
  simp [List.intercalate]

theorem mem_intercalate {s : List Char} {c : Char} :
    ∀ {parts : List (List Char)}, c ∈ List.intercalate s parts →
      c ∈ s ∨ ∃ p ∈ parts, c ∈ p
  | [], h => by simp [List.intercalate] at h
  | [a], h => by
      rw [intercalate_single] at h
      exact Or.inr ⟨a, List.mem_cons_self _ _, h⟩
  | a :: b :: t, h => by
      rw [intercalate_cons₂] at h
      rcases List.mem_append.mp h with h | h
      · rcases List.mem_append.mp h with h | h
        · exact Or.inr ⟨a, List.mem_cons_self _ _, h⟩
        · exact Or.inl h
      · rcases mem_intercalate h with h | ⟨p, hp, hcp⟩
        · exact Or.inl h
        · exact Or.inr ⟨p, List.mem_cons_of_mem _ hp, hcp⟩

theorem findSome?_eq_none_of_all {α β} {f : α → Option β} :
    ∀ {l : List α}, (∀ x ∈ l, f x = none) → l.findSome? f = none
  | [], _ => rfl
  | a :: t, h => by
      rw [List.findSome?_cons, h a (List.mem_cons_self _ _)]
      exact findSome?_eq_none_of_all (fun x hx => h x (List.mem_cons_of_mem _ hx))

theorem findSome?_append_none {α β} {f : α → Option β} :
    ∀ {l₁ : List α} (l₂ : List α), (∀ x ∈ l₁, f x = none) →
      (l₁ ++ l₂).findSome? f = l₂.findSome? f
  | [], l₂, _ => rfl
  | a :: t, l₂, h => by
      rw [List.cons_append, List.findSome?_cons, h a (List.mem_cons_self _ _)]
      exact findSome?_append_none l₂ (fun x hx => h x (List.mem_cons_of_mem _ hx))

theorem range_decompose (k m : Nat) :
    List.range (k + m) = List.range k ++ (List.range m).map (k + ·) := by
  induction m with
  | zero => simp
  | succ m ih =>
      rw [show k + (m + 1) = (k + m) + 1 from rfl, List.range_succ, ih,
        List.range_succ]
      simp

/-- `findSome?` over an initial range: all positions before `k` fail and `k`
succeeds. -/
theorem findSome?_range_first {β} {f : Nat → Option β} {k n : Nat} {x : β}
    (hk : k < n) (hbefore : ∀ p < k, f p = none) (hit : f k = some x) :
    (List.range n).findSome? f = some x := by
  obtain ⟨m, rfl⟩ : ∃ m, n = k + (m + 1) :=
    ⟨n - k - 1, by omega⟩
  rw [range_decompose,
    findSome?_append_none _ (fun p hp => hbefore p (List.mem_range.mp hp))]
  simp only [List.range_succ_eq_map, List.map_cons, List.findSome?_cons]
  simp [hit]

theorem collapseRunsGo_not_run {p : Char → Bool} {s : Char} :
    ∀ (w : List Char) (c : Char) (b : Bool) (r : List Char), p c = false →
      (∀ x ∈ w, p x = false) →
      collapseRunsGo p s b (c :: w ++ r) = c :: w ++ collapseRunsGo p s false r
  | [], c, b, r, hc, _ => by
      simp [collapseRunsGo, hc]
  | d :: w, c, b, r, hc, hw => by
      have : collapseRunsGo p s b (c :: (d :: w) ++ r) =
          c :: collapseRunsGo p s false (d :: w ++ r) := by
        simp [collapseRunsGo, hc]
      rw [this, collapseRunsGo_not_run w d false r (hw d (List.mem_cons_self _ _))
        (fun x hx => hw x (List.mem_cons_of_mem _ hx))]
      simp

theorem collapseRunsGo_run_char {p : Char → Bool} {s c : Char} {b : Bool}
    {r : List Char} (hc : p c = true) :
    collapseRunsGo p s b (c :: r) =
      (if b then [] else [s]) ++ collapseRunsGo p s true r := by
  cases b <;> simp [collapseRunsGo, hc]

theorem collapseRunsGo_sub_only {p : Char → Bool} {s : Char} :
    ∀ {l : List Char}, (∀ c ∈ l, p c = true ∨ c = s) → ∀ (b : Bool),
      ∀ c ∈ collapseRunsGo p s b l, c = s
  | [], _, b, c, hc => by simp [collapseRunsGo] at hc
  | d :: r, h, b, c, hc => by
      by_cases hd : p d = true
      · rw [collapseRunsGo_run_char hd] at hc
        rcases List.mem_append.mp hc with hc | hc
        · cases b <;> simp_all
        · exact collapseRunsGo_sub_only
            (fun x hx => h x (List.mem_cons_of_mem _ hx)) true c hc
      · have hds : d = s := by
          rcases h d (List.mem_cons_self _ _) with h' | h'
          · exact absurd h' hd
          · exact h'
        simp only [collapseRunsGo, hd, Bool.false_eq_true, if_neg,
          Bool.not_eq_true] at hc
        rcases List.mem_cons.mp hc with rfl | hc
        · exact hds
        · exact collapseRunsGo_sub_only
            (fun x hx => h x (List.mem_cons_of_mem _ hx)) false c hc

theorem pyStripWs_eq_of_ends {l : List Char}
    (h1 : ∀ c, l.head? = some c → pyIsSpace c = false)
    (h2 : ∀ c, l.getLast? = some c → pyIsSpace c = false) :
    pyStripWs l = l := by
  unfold pyStripWs
  rw [dropWhile_self_of_head h1, dropWhile_self_of_head
    (fun c hc => h2 c (by rwa [List.head?_reverse] at hc)), List.reverse_reverse]

/-- The shape of a scanner-recognizable single-note token: accidentals, one
pitch or rest letter, octave marks, duration characters. -/
def NoteShape (w : List Char) : Prop :=
  ∃ accs lc octs durs, w = accs ++ lc :: octs ++ durs ∧
    (∀ c ∈ accs, isAccChar c = true) ∧ isNoteLetter lc = true ∧
    (∀ c ∈ octs, isOctChar c = true) ∧ (∀ c ∈ durs, isDurChar c = true)

/-- The shape of a scanner-recognizable chord token: a bracketed body without
inner closing bracket, then duration characters. -/
def ChordShape (w : List Char) : Prop :=
  ∃ inner durs, w = '[' :: inner ++ ']' :: durs ∧
    ']' ∉ inner ∧ (∀ c ∈ inner, isNoteTokChar c = true) ∧
    (∀ c ∈ durs, isDurChar c = true)

/-- A token string the scanner consumes in one step. -/
def GoodTok (w : List Char) : Prop := NoteShape w ∨ ChordShape w

/-- `l` consists of the words `ws` in order, separated and surrounded by
space characters. -/
inductive Spaced : List (List Char) → List Char → Prop where
  | nil {l : List Char} : (∀ c ∈ l, c = ' ') → Spaced [] l
  | space {ws : List (List Char)} {l : List Char} :
      Spaced ws l → Spaced ws (' ' :: l)
  | word {w : List Char} {ws : List (List Char)} {l : List Char} :
      GoodTok w → (l = [] ∨ ∃ r, l = ' ' :: r) → Spaced ws l →
      Spaced (w :: ws) (w ++ l)

/-- `l` consists of the words `ws` in order, separated and surrounded by
space or bar characters. -/
inductive SpacedBar : List (List Char) → List Char → Prop where
  | nil {l : List Char} : (∀ c ∈ l, c = ' ' ∨ c = '|') → SpacedBar [] l
  | space {ws : List (List Char)} {l : List Char} :
      SpacedBar ws l → SpacedBar ws (' ' :: l)
  | bar {ws : List (List Char)} {l : List Char} :
      SpacedBar ws l → SpacedBar ws ('|' :: l)
  | word {w : List Char} {ws : List (List Char)} {l : List Char} :
      GoodTok w → (l = [] ∨ (∃ r, l = ' ' :: r) ∨ (∃ r, l = '|' :: r)) →
      SpacedBar ws l → SpacedBar (w :: ws) (w ++ l)

theorem isAccChar_cases {c : Char} (h : isAccChar c = true) :
    c = '^' ∨ c = '_' ∨ c = '=' := by
  simpa [isAccChar] using h

theorem isOctChar_cases {c : Char} (h : isOctChar c = true) :
    c = '\'' ∨ c = ',' := by
  simpa [isOctChar] using h

theorem isDurChar_cases {c : Char} (h : isDurChar c = true) :
    c.isDigit = true ∨ c = '/' := by
  simpa [isDurChar] using h

theorem isNoteLetter_ne {c : Char} (h : isNoteLetter c = true) :
    pyIsSpace c = false ∧ isAccChar c = false ∧ c ≠ '[' ∧ c ≠ ']' ∧
    c ≠ '|' ∧ c ≠ ':' ∧ c ≠ '\n' ∧ c ≠ '/' := by
  refine ⟨?_, ?_, ?_, ?_, ?_, ?_, ?_, ?_⟩
  · by_contra hb
    rw [Bool.not_eq_false] at hb
    rcases pyIsSpace_cases hb with rfl | rfl | rfl | rfl | rfl | rfl <;>
      exact absurd h (by decide)
  · by_contra hb
    rw [Bool.not_eq_false] at hb
    rcases isAccChar_cases hb with rfl | rfl | rfl <;> exact absurd h (by decide)
  all_goals intro hcc; rw [hcc] at h; exact absurd h (by decide)

theorem isDigit_ne_chars₂ {c : Char} (h : c.isDigit = true) :
    c ≠ '[' ∧ c ≠ ']' ∧ c ≠ '|' ∧ c ≠ ':' ∧ c ≠ '\n' ∧
    isOctChar c = false ∧ isAccChar c = false ∧ pyIsSpace c = false := by
  refine ⟨?_, ?_, ?_, ?_, ?_, ?_, ?_, isDigit_not_space h⟩
  · intro hcc; rw [hcc] at h; exact absurd h (by decide)
  · intro hcc; rw [hcc] at h; exact absurd h (by decide)
  · intro hcc; rw [hcc] at h; exact absurd h (by decide)
  · intro hcc; rw [hcc] at h; exact absurd h (by decide)
  · intro hcc; rw [hcc] at h; exact absurd h (by decide)
  · by_contra hb
    rw [Bool.not_eq_false] at hb
    rcases isOctChar_cases hb with rfl | rfl <;> exact absurd h (by decide)
  · by_contra hb
    rw [Bool.not_eq_false] at hb
    rcases isAccChar_cases hb with rfl | rfl | rfl <;> exact absurd h (by decide)

theorem isDurChar_ne {c : Char} (h : isDurChar c = true) :
    pyIsSpace c = false ∧ c ≠ '|' ∧ c ≠ ':' ∧ c ≠ '\n' ∧ c ≠ ']' ∧
    isOctChar c = false ∧ isAccChar c = false := by
  rcases isDurChar_cases h with hd | rfl
  · obtain ⟨h1, h2, h3, h4, h5, h6, h7, h8⟩ := isDigit_ne_chars₂ hd
    exact ⟨h8, h3, h4, h5, h2, h6, h7⟩
  · exact ⟨by decide, by decide, by decide, by decide, by decide,
      by decide, by decide⟩

theorem isAccChar_ne {c : Char} (h : isAccChar c = true) :
    pyIsSpace c = false ∧ c ≠ '[' ∧ c ≠ ']' ∧ c ≠ '|' ∧ c ≠ ':' ∧
    c ≠ '\n' ∧ isNoteStart c = true := by
  rcases isAccChar_cases h with rfl | rfl | rfl <;>
    exact ⟨by decide, by decide, by decide, by decide, by decide,
      by decide, by decide⟩

theorem isOctChar_ne {c : Char} (h : isOctChar c = true) :
    pyIsSpace c = false ∧ c ≠ '|' ∧ c ≠ ':' ∧ c ≠ '\n' ∧ c ≠ ']' ∧
    isAccChar c = false := by
  rcases isOctChar_cases h with rfl | rfl <;>
    exact ⟨by decide, by decide, by decide, by decide, by decide, by decide⟩

/-- Every character of a good token is printable content: not whitespace, not
a bar, not a colon, not a newline. -/
theorem isNoteTokChar_ne {c : Char} (h : isNoteTokChar c = true) :
    pyIsSpace c = false ∧ c ≠ '|' ∧ c ≠ ':' ∧ c ≠ '\n' := by
  have h4 : isAccChar c = true ∨ isNoteLetter c = true ∨ isOctChar c = true ∨
      isDurChar c = true := by
    simpa [isNoteTokChar, Bool.or_eq_true, or_assoc] using h
  rcases h4 with h' | h' | h' | h'
  · obtain ⟨h1, _, _, h2, h3, h4, _⟩ := isAccChar_ne h'
    exact ⟨h1, h2, h3, h4⟩
  · obtain ⟨h1, _, _, _, h2, h3, h4, _⟩ := isNoteLetter_ne h'
    exact ⟨h1, h2, h3, h4⟩
  · obtain ⟨h1, h2, h3, h4, _, _⟩ := isOctChar_ne h'
    exact ⟨h1, h2, h3, h4⟩
  · obtain ⟨h1, h2, h3, h4, _, _, _⟩ := isDurChar_ne h'
    exact ⟨h1, h2, h3, h4⟩

/-- Every character of a good token is printable content: not whitespace, not
a bar, not a colon, not a newline. -/
theorem GoodTok_char {w : List Char} {c : Char} (h : GoodTok w) (hc : c ∈ w) :
    pyIsSpace c = false ∧ c ≠ '|' ∧ c ≠ ':' ∧ c ≠ '\n' := by
  rcases h with ⟨accs, lc, octs, durs, rfl, haccs, hl, hocts, hdurs⟩ |
    ⟨inner, durs, rfl, hinb, hin, hdurs⟩
  · rcases List.mem_append.mp hc with hc | hc
    · rcases List.mem_append.mp hc with hc | hc
      · obtain ⟨h1, _, _, h2, h3, h4, _⟩ := isAccChar_ne (haccs c hc)
        exact ⟨h1, h2, h3, h4⟩
      · rcases List.mem_cons.mp hc with rfl | hc
        · obtain ⟨h1, _, _, _, h2, h3, h4, _⟩ := isNoteLetter_ne hl
          exact ⟨h1, h2, h3, h4⟩
        · obtain ⟨h1, h2, h3, h4, _, _⟩ := isOctChar_ne (hocts c hc)
          exact ⟨h1, h2, h3, h4⟩
    · obtain ⟨h1, h2, h3, h4, _, _, _⟩ := isDurChar_ne (hdurs c hc)
      exact ⟨h1, h2, h3, h4⟩
  · rcases List.mem_append.mp hc with hc | hc
    · rcases List.mem_cons.mp hc with rfl | hc
      · exact ⟨by decide, by decide, by decide, by decide⟩
      · exact isNoteTokChar_ne (hin c hc)
    · rcases List.mem_cons.mp hc with rfl | hc
      · exact ⟨by decide, by decide, by decide, by decide⟩
      · obtain ⟨h1, h2, h3, h4, _, _, _⟩ := isDurChar_ne (hdurs c hc)
        exact ⟨h1, h2, h3, h4⟩

theorem GoodTok_ne_nil {w : List Char} (h : GoodTok w) : w ≠ [] := by
  rcases h with ⟨accs, lc, octs, durs, rfl, _⟩ | ⟨inner, durs, rfl, _⟩ <;>
    simp

theorem GoodTok_head {w : List Char} (h : GoodTok w) :
    ∀ c, w.head? = some c → pyIsSpace c = false ∧ c ≠ '|' := by
  intro c hc
  have hm : c ∈ w := by
    cases w with
    | nil => cases hc
    | cons a t =>
        simp only [List.head?_cons, Option.some.injEq] at hc
        exact hc ▸ List.mem_cons_self _ _
  obtain ⟨h1, h2, _, _⟩ := GoodTok_char h hm
  exact ⟨h1, h2⟩

theorem GoodTok_ne_bar {w : List Char} (h : GoodTok w) : w ≠ str "|" := by
  intro hw
  obtain ⟨_, h2, _, _⟩ := GoodTok_char h (by rw [hw]; exact List.mem_cons_self _ _)
  exact h2 rfl

theorem head?_append_all {p : Char → Bool} {a b : List Char}
    (ha : ∀ c, a.head? = some c → p c = false)
    (hb : a = [] → ∀ c, b.head? = some c → p c = false) :
    ∀ c, (a ++ b).head? = some c → p c = false := by
  cases a with
  | nil => simpa using hb rfl
  | cons x t => simpa using ha x rfl

/-- The scanner's note-token split on a well-shaped token followed by a
separator. -/
theorem splitNoteTok_shape {accs octs durs l : List Char} {lc : Char}
    (haccs : ∀ c ∈ accs, isAccChar c = true) (hl : isNoteLetter lc = true)
    (hocts : ∀ c ∈ octs, isOctChar c = true)
    (hdurs : ∀ c ∈ durs, isDurChar c = true)
    (hsep : l = [] ∨ ∃ r, l = ' ' :: r) :
    splitNoteTok ((accs ++ lc :: octs ++ durs) ++ l) =
      (accs ++ lc :: octs ++ durs, l) := by
  have hsep_oct : ∀ c, l.head? = some c → isOctChar c = false := by
    rcases hsep with rfl | ⟨r, rfl⟩
    · intro c hc; cases hc
    · intro c hc
      simp only [List.head?_cons, Option.some.injEq] at hc
      subst hc; decide
  have hsep_dur : ∀ c, l.head? = some c → isDurChar c = false := by
    rcases hsep with rfl | ⟨r, rfl⟩
    · intro c hc; cases hc
    · intro c hc
      simp only [List.head?_cons, Option.some.injEq] at hc
      subst hc; decide
  have hassoc : (accs ++ lc :: octs ++ durs) ++ l =
      accs ++ (lc :: (octs ++ (durs ++ l)))  := by simp
  rw [hassoc]
  unfold splitNoteTok
  have hlacc : isAccChar lc = false := (isNoteLetter_ne hl).2.1
  have h1 : (accs ++ (lc :: (octs ++ (durs ++ l)))).takeWhile isAccChar = accs := by
    rw [takeWhile_append_all _ haccs, List.takeWhile_cons, hlacc]
    simp
  have h2 : (accs ++ (lc :: (octs ++ (durs ++ l)))).dropWhile isAccChar =
      lc :: (octs ++ (durs ++ l)) := by
    rw [dropWhile_append_all _ haccs, List.dropWhile_cons, hlacc]
    simp
  rw [h1, h2]
  simp only [hl, if_pos]
  have h3 : (octs ++ (durs ++ l)).takeWhile isOctChar = octs := by
    rw [takeWhile_append_all _ hocts, takeWhile_nil_of_head, List.append_nil]
    refine head?_append_all ?_ (fun _ => hsep_oct)
    intro c hc
    cases durs with
    | nil => cases hc
    | cons d t =>
        simp only [List.head?_cons, Option.some.injEq] at hc
        exact hc ▸ (isDurChar_ne (hdurs d (List.mem_cons_self _ _))).2.2.2.2.2.1
  have h4 : (octs ++ (durs ++ l)).dropWhile isOctChar = durs ++ l := by
    rw [dropWhile_append_all _ hocts, dropWhile_self_of_head]
    refine head?_append_all ?_ (fun _ => hsep_oct)
    intro c hc
    cases durs with
    | nil => cases hc
    | cons d t =>
        simp only [List.head?_cons, Option.some.injEq] at hc
        exact hc ▸ (isDurChar_ne (hdurs d (List.mem_cons_self _ _))).2.2.2.2.2.1
  rw [h3, h4]
  rw [takeWhile_append_all _ hdurs, takeWhile_nil_of_head hsep_dur,
    dropWhile_append_all _ hdurs, dropWhile_self_of_head hsep_dur]
  simp

/-- Fuel does not matter for the token scanner once it exceeds the input
length. -/
theorem scanTokensF_congr : ∀ {f₁ : Nat} (f₂ : Nat) {l : List Char},
    l.length < f₁ → l.length < f₂ → scanTokensF f₁ l = scanTokensF f₂ l
  | 0, _, _, h1, _ => absurd h1 (by omega)
  | _ + 1, 0, _, _, h2 => absurd h2 (by omega)
  | f₁ + 1, f₂ + 1, [], _, _ => rfl
  | f₁ + 1, f₂ + 1, c :: rest, h1, h2 => by
      simp only [List.length_cons] at h1 h2
      simp only [scanTokensF]
      by_cases hsp : pyIsSpace c = true
      · rw [if_pos hsp, if_pos hsp]
        exact scanTokensF_congr f₂ (by omega) (by omega)
      · rw [if_neg hsp, if_neg hsp]
        by_cases hbr : c = '['
        · rw [if_pos hbr, if_pos hbr]
          by_cases hcl : rest.contains ']' = true
          · rw [if_pos hcl, if_pos hcl]
            have hle : ((rest.dropWhile (· ≠ ']')).tail.dropWhile isDurChar).length
                ≤ rest.length := by
              have ha := length_dropWhile_le (· ≠ ']') rest
              have hb := length_dropWhile_le isDurChar (rest.dropWhile (· ≠ ']')).tail
              have hc : (rest.dropWhile (· ≠ ']')).tail.length ≤
                  (rest.dropWhile (· ≠ ']')).length := by
                cases rest.dropWhile (· ≠ ']') <;> simp
              omega
            rw [scanTokensF_congr f₂ (by omega) (by omega)]
          · rw [if_neg hcl, if_neg hcl]
            exact scanTokensF_congr f₂ (by omega) (by omega)
        · rw [if_neg hbr, if_neg hbr]
          by_cases hns : isNoteStart c = true
          · rw [if_pos hns, if_pos hns]
            have := @splitNoteTok_shrinks c rest hns
            rw [scanTokensF_congr f₂ (by omega) (by omega)]
          · rw [if_neg hns, if_neg hns]
            exact scanTokensF_congr f₂ (by omega) (by omega)

theorem scanTokensF_cons (fuel : Nat) (c : Char) (rest : List Char) :
    scanTokensF (fuel + 1) (c :: rest) =
      if pyIsSpace c then scanTokensF fuel rest
      else if c = '[' then
        if rest.contains ']' then
          ('[' :: rest.takeWhile (· ≠ ']') ++ [']'] ++
            ((rest.dropWhile (· ≠ ']')).tail.takeWhile isDurChar)) ::
            scanTokensF fuel
              ((rest.dropWhile (· ≠ ']')).tail.dropWhile isDurChar)
        else scanTokensF fuel rest
      else if isNoteStart c then
        (splitNoteTok (c :: rest)).1 :: scanTokensF fuel (splitNoteTok (c :: rest)).2
      else scanTokensF fuel rest := rfl

theorem scanTokens_space (l : List Char) : scanTokens (' ' :: l) = scanTokens l := by
  unfold scanTokens
  simp only [List.length_cons]
  rw [scanTokensF_cons, if_pos (by decide)]

theorem scanTokens_all_space : ∀ {l : List Char}, (∀ c ∈ l, c = ' ') →
    scanTokens l = []
  | [], _ => rfl
  | c :: r, h => by
      obtain rfl := h c (List.mem_cons_self _ _)
      rw [scanTokens_space]
      exact scanTokens_all_space (fun x hx => h x (List.mem_cons_of_mem _ hx))

/-- The scanner consumes a well-shaped note token in one step. -/
theorem scanTokens_note {w l : List Char} (h : NoteShape w)
    (hsep : l = [] ∨ ∃ r, l = ' ' :: r) :
    scanTokens (w ++ l) = w :: scanTokens l := by
  obtain ⟨accs, lc, octs, durs, rfl, haccs, hl, hocts, hdurs⟩ := h
  have hsplit := splitNoteTok_shape haccs hl hocts hdurs hsep
  have hw : ∃ c rest, (accs ++ lc :: octs ++ durs) ++ l = c :: rest ∧
      pyIsSpace c = false ∧ c ≠ '[' ∧ isNoteStart c = true := by
    cases accs with
    | nil =>
        refine ⟨lc, octs ++ durs ++ l, by simp, (isNoteLetter_ne hl).1,
          (isNoteLetter_ne hl).2.2.1, ?_⟩
        simp [isNoteStart, hl]
    | cons a t =>
        have ha := haccs a (List.mem_cons_self _ _)
        refine ⟨a, t ++ lc :: octs ++ durs ++ l, by simp, (isAccChar_ne ha).1,
          (isAccChar_ne ha).2.1, (isAccChar_ne ha).2.2.2.2.2.2⟩
  obtain ⟨c, rest, heq, hcsp, hcbr, hcns⟩ := hw
  unfold scanTokens
  rw [heq]
  simp only [List.length_cons]
  rw [scanTokensF_cons, if_neg (by simp [hcsp]), if_neg hcbr, if_pos hcns,
    ← heq, hsplit]
  have hlen : l.length < rest.length + 1 := by
    have hlen0 : (c :: rest).length = ((accs ++ lc :: octs ++ durs) ++ l).length := by
      rw [heq]
    have hwlen : 1 ≤ (accs ++ lc :: octs ++ durs).length := by
      simp only [List.length_append, List.length_cons]
      omega
    simp only [List.length_cons, List.length_append] at hlen0 hwlen
    omega
  rw [scanTokensF_congr (l.length + 1) hlen (by omega)]

/-- The scanner consumes a well-shaped chord token in one step. -/
theorem scanTokens_chord {w l : List Char} (h : ChordShape w)
    (hsep : l = [] ∨ ∃ r, l = ' ' :: r) :
    scanTokens (w ++ l) = w :: scanTokens l := by
  obtain ⟨inner, durs, rfl, hinb, hin, hdurs⟩ := h
  have hsep_dur : ∀ c, l.head? = some c → isDurChar c = false := by
    rcases hsep with rfl | ⟨r, rfl⟩
    · intro c hc; cases hc
    · intro c hc
      simp only [List.head?_cons, Option.some.injEq] at hc
      subst hc; decide
  have heq : ('[' :: inner ++ ']' :: durs) ++ l =
      '[' :: (inner ++ (']' :: (durs ++ l))) := by simp
  rw [heq]
  unfold scanTokens
  simp only [List.length_cons]
  rw [scanTokensF_cons, if_neg (by decide), if_pos rfl]
  have hcontains : (inner ++ (']' :: (durs ++ l))).contains ']' = true := by
    simp
  rw [if_pos hcontains]
  have hinner_ne : ∀ c ∈ inner, decide (c ≠ ']') = true := by
    intro c hc
    simp only [ne_eq, decide_eq_true_eq]
    intro hcc
    exact hinb (hcc ▸ hc)
  have h1 : (inner ++ (']' :: (durs ++ l))).takeWhile (· ≠ ']') = inner := by
    rw [takeWhile_append_all _ hinner_ne, List.takeWhile_cons]
    simp
  have h2 : (inner ++ (']' :: (durs ++ l))).dropWhile (· ≠ ']') =
      ']' :: (durs ++ l) := by
    rw [dropWhile_append_all _ hinner_ne, List.dropWhile_cons]
    simp
  rw [h1, h2]
  simp only [List.tail_cons]
  rw [takeWhile_append_all _ hdurs, takeWhile_nil_of_head hsep_dur,
    dropWhile_append_all _ hdurs, dropWhile_self_of_head hsep_dur]
  have hlen : l.length < (inner ++ (']' :: (durs ++ l))).length := by
    simp only [List.length_append, List.length_cons]
    omega
  rw [scanTokensF_congr (l.length + 1) (by omega) (by omega)]
  simp

/-- The scanner recovers exactly the words of a spaced text. -/
theorem scanTokens_spaced {ws : List (List Char)} {l : List Char}
    (h : Spaced ws l) : scanTokens l = ws := by
  induction h with
  | nil h => exact scanTokens_all_space h
  | space _ ih => rw [scanTokens_space]; exact ih
  | word hw hsep _ ih =>
      rcases hw with hn | hc
      · rw [scanTokens_note hn hsep, ih]
      · rw [scanTokens_chord hc hsep, ih]

theorem collapseRunsGo_cons_notp {p : Char → Bool} {s c : Char} {b : Bool}
    {r : List Char} (hc : p c = false) :
    collapseRunsGo p s b (c :: r) = c :: collapseRunsGo p s false r := by
  simp [collapseRunsGo, hc]

theorem collapseRunsGo_nil (p : Char → Bool) (s : Char) (b : Bool) :
    collapseRunsGo p s b [] = [] := rfl

/-- A spaced text whose characters are all whitespace carries no words. -/
theorem spaced_all_space {ws : List (List Char)} {l : List Char}
    (h : Spaced ws l) (hsp : ∀ c ∈ l, pyIsSpace c = true) : ws = [] := by
  induction h with
  | nil _ => rfl
  | space _ ih => exact ih (fun c hc => hsp c (List.mem_cons_of_mem _ hc))
  | word hw hsep hs ih =>
      rename_i w ws' l'
      cases hww : w with
      | nil => exact absurd hww (GoodTok_ne_nil hw)
      | cons c w' =>
          have hmem : c ∈ w ++ l' := by rw [hww]; simp
          have := (GoodTok_char hw (by rw [hww]; exact List.mem_cons_self _ _)).1
          rw [hsp c hmem] at this
          cases this

theorem spaced_collapseBars_go {ws : List (List Char)} {l : List Char}
    (h : SpacedBar ws l) :
    ∀ b, Spaced ws (collapseRunsGo (· = '|') ' ' b l) := by
  induction h with
  | nil hl =>
      intro b
      refine Spaced.nil (fun c hc => ?_)
      refine collapseRunsGo_sub_only ?_ b c hc
      intro x hx
      rcases hl x hx with rfl | rfl
      · exact Or.inr rfl
      · exact Or.inl (by simp)
  | space _ ih =>
      intro b
      rw [collapseRunsGo_cons_notp (by decide)]
      exact Spaced.space (ih false)
  | bar _ ih =>
      intro b
      rw [collapseRunsGo_run_char (by simp)]
      cases b
      · exact Spaced.space (ih true)
      · simpa using ih true
  | word hw hsep hs ih =>
      rename_i w ws' l'
      intro b
      cases hww : w with
      | nil => exact absurd hww (GoodTok_ne_nil hw)
      | cons c w' =>
          subst hww
          have hc : decide (c = '|') = false := by
            simp [(GoodTok_char hw (List.mem_cons_self _ _)).2.1]
          have hw' : ∀ x ∈ w', decide (x = '|') = false := by
            intro x hx
            simp [(GoodTok_char hw (List.mem_cons_of_mem _ hx)).2.1]
          rw [collapseRunsGo_not_run w' c b _ hc hw']
          refine Spaced.word hw ?_ (ih false)
          rcases hsep with rfl | ⟨r, rfl⟩ | ⟨r, rfl⟩
          · exact Or.inl (collapseRunsGo_nil _ _ _)
          · rw [collapseRunsGo_cons_notp (by decide)]
            exact Or.inr ⟨_, rfl⟩
          · rw [collapseRunsGo_run_char (by simp)]
            exact Or.inr ⟨_, rfl⟩

theorem spaced_collapseBars {ws : List (List Char)} {l : List Char}
    (h : SpacedBar ws l) : Spaced ws (collapseBars l) := by
  unfold collapseBars
  exact spaced_collapseBars_go h false

theorem spaced_collapseWs_go {ws : List (List Char)} {l : List Char}
    (h : Spaced ws l) :
    ∀ b, Spaced ws (collapseRunsGo pyIsSpace ' ' b l) := by
  induction h with
  | nil hl =>
      intro b
      refine Spaced.nil (fun c hc => ?_)
      refine collapseRunsGo_sub_only ?_ b c hc
      intro x hx
      exact Or.inr (hl x hx)
  | space _ ih =>
      intro b
      rw [collapseRunsGo_run_char (by decide)]
      cases b
      · exact Spaced.space (ih true)
      · simpa using ih true
  | word hw hsep hs ih =>
      rename_i w ws' l'
      intro b
      cases hww : w with
      | nil => exact absurd hww (GoodTok_ne_nil hw)
      | cons c w' =>
          subst hww
          have hc : pyIsSpace c = false :=
            (GoodTok_char hw (List.mem_cons_self _ _)).1
          have hw' : ∀ x ∈ w', pyIsSpace x = false := fun x hx =>
            (GoodTok_char hw (List.mem_cons_of_mem _ hx)).1
          rw [collapseRunsGo_not_run w' c b _ hc hw']
          refine Spaced.word hw ?_ (ih false)
          rcases hsep with rfl | ⟨r, rfl⟩
          · exact Or.inl (collapseRunsGo_nil _ _ _)
          · rw [collapseRunsGo_run_char (by decide)]
            exact Or.inr ⟨_, rfl⟩

theorem spaced_collapseWs {ws : List (List Char)} {l : List Char}
    (h : Spaced ws l) : Spaced ws (collapseWs l) := by
  unfold collapseWs
  exact spaced_collapseWs_go h false

theorem spaced_lstrip {ws : List (List Char)} {l : List Char}
    (h : Spaced ws l) : Spaced ws (l.dropWhile pyIsSpace) := by
  induction h with
  | nil hl =>
      exact Spaced.nil (fun c hc =>
        hl c ((List.dropWhile_suffix pyIsSpace).sublist.subset hc))
  | space _ ih =>
      rw [List.dropWhile_cons]
      simpa using ih
  | word hw hsep hs ih =>
      rename_i w ws' l'
      cases hww : w with
      | nil => exact absurd hww (GoodTok_ne_nil hw)
      | cons c w' =>
          subst hww
          rw [List.cons_append, List.dropWhile_cons,
            (GoodTok_char hw (List.mem_cons_self _ _)).1]
          exact Spaced.word hw hsep hs

theorem dropWhile_append_cases {p : Char → Bool} :
    ∀ (a b : List Char), (a ++ b).dropWhile p =
      if a.dropWhile p = [] then b.dropWhile p else a.dropWhile p ++ b
  | [], b => by simp
  | c :: a, b => by
      by_cases hc : p c = true
      · simp only [List.cons_append, List.dropWhile_cons, hc, if_pos]
        exact dropWhile_append_cases a b
      · simp only [List.cons_append, List.dropWhile_cons, hc]
        simp

theorem all_space_of_rev_dropWhile_nil {l : List Char}
    (h : l.reverse.dropWhile pyIsSpace = []) : ∀ c ∈ l, pyIsSpace c = true := by
  intro c hc
  have := List.dropWhile_eq_nil_iff.mp h
  exact this c (List.mem_reverse.mpr hc)

theorem spaced_rstrip {ws : List (List Char)} {l : List Char}
    (h : Spaced ws l) : Spaced ws ((l.reverse.dropWhile pyIsSpace).reverse) := by
  induction h with
  | nil hl =>
      refine Spaced.nil (fun c hc => ?_)
      refine hl c ?_
      have := (List.dropWhile_suffix pyIsSpace).sublist.subset
        (List.mem_reverse.mp hc)
      exact List.mem_reverse.mp (by simpa using this)
  | space hs ih =>
      rename_i ws' l'
      rw [List.reverse_cons, dropWhile_append_cases]
      by_cases hnil : l'.reverse.dropWhile pyIsSpace = []
      · rw [if_pos hnil,
          show (List.dropWhile pyIsSpace [' ']) = ([] : List Char) from by decide]
        have hws : ws' = [] := spaced_all_space hs
          (fun c hc => all_space_of_rev_dropWhile_nil hnil c hc)
        subst hws
        exact Spaced.nil (by simp)
      · rw [if_neg hnil, List.reverse_append]
        exact Spaced.space ih
  | word hw hsep hs ih =>
      rename_i w ws' l'
      rw [List.reverse_append, dropWhile_append_cases]
      have hwrev : w.reverse.dropWhile pyIsSpace = w.reverse := by
        refine dropWhile_self_of_head ?_
        intro c hc
        rw [List.head?_reverse] at hc
        have hcm : c ∈ w := by
          cases hlw : w.getLast? with
          | none => rw [hlw] at hc; cases hc
          | some d =>
              rw [hlw] at hc
              obtain rfl := Option.some.inj hc
              exact List.mem_of_getLast?_eq_some hlw
        exact (GoodTok_char hw hcm).1
      by_cases hnil : l'.reverse.dropWhile pyIsSpace = []
      · rw [if_pos hnil, hwrev, List.reverse_reverse]
        have hws : ws' = [] := spaced_all_space hs
          (fun c hc => all_space_of_rev_dropWhile_nil hnil c hc)
        subst hws
        have := Spaced.word hw (Or.inl rfl) (Spaced.nil (by simp))
        simpa using this
      · rw [if_neg hnil, List.reverse_append, List.reverse_reverse]
        refine Spaced.word hw ?_ ih
        rcases hsep with rfl | ⟨r, rfl⟩
        · simp at hnil
        · rw [List.reverse_cons, dropWhile_append_cases] at hnil ⊢
          by_cases hnil2 : r.reverse.dropWhile pyIsSpace = []
          · rw [if_pos hnil2] at hnil
            exact absurd (by decide :
              List.dropWhile pyIsSpace [' '] = ([] : List Char)) hnil
          · rw [if_neg hnil2] at hnil ⊢
            refine Or.inr ⟨(r.reverse.dropWhile pyIsSpace).reverse, ?_⟩
            rw [List.reverse_append]
            rfl

theorem spaced_pyStripWs {ws : List (List Char)} {l : List Char}
    (h : Spaced ws l) : Spaced ws (pyStripWs l) := by
  unfold pyStripWs
  exact spaced_rstrip (spaced_lstrip h)

theorem head?_append_left {a b : List Char} (h : a ≠ []) :
    (a ++ b).head? = a.head? := by
  cases a with
  | nil => exact absurd rfl h
  | cons c t => rfl

theorem getLast?_append_right {a b : List Char} (h : b ≠ []) :
    (a ++ b).getLast? = b.getLast? := by
  rw [← List.head?_reverse, List.reverse_append,
    head?_append_left (by simpa using h), List.head?_reverse]

theorem intercalate_head {s : List Char} {w : List Char}
    {rest : List (List Char)} (hw : w ≠ []) :
    (List.intercalate s (w :: rest)).head? = w.head? := by
  cases rest with
  | nil => rw [intercalate_single]
  | cons b t =>
      rw [intercalate_cons₂, head?_append_left
        (by simp [hw]), head?_append_left hw]

theorem intercalate_getLast {s : List Char} :
    ∀ {parts : List (List Char)} {q : List Char}, parts.getLast? = some q →
      q ≠ [] → (List.intercalate s parts).getLast? = q.getLast?
  | [], q, hq, _ => by cases hq
  | [a], q, hq, hqne => by
      obtain rfl : a = q := by simpa using hq
      rw [intercalate_single]
  | a :: b :: t, q, hq, hqne => by
      rw [List.getLast?_cons_cons] at hq
      have ih := @intercalate_getLast s (b :: t) q hq hqne
      rw [intercalate_cons₂]
      have hne : List.intercalate s (b :: t) ≠ [] := by
        intro h0
        rw [h0] at ih
        simp only [List.getLast?_nil] at ih
        cases hql : q.getLast? with
        | none =>
            cases q with
            | nil => exact hqne rfl
            | cons x xs => simp [List.getLast?_eq_getLast] at hql
        | some d => rw [hql] at ih; cases ih
      rw [List.append_assoc, getLast?_append_right
        (by simp [hne]), getLast?_append_right hne, ih]

/-- Joining bar markers and good tokens with single spaces produces a
bar-spaced text whose words are exactly the non-bar parts. -/
theorem spacedBar_intercalate :
    ∀ {parts : List (List Char)}, parts ≠ [] →
      (∀ p ∈ parts, p = str "|" ∨ GoodTok p) →
      SpacedBar (parts.filter (fun p => p ≠ str "|"))
        (List.intercalate (str " ") parts)
  | [], hne, _ => absurd rfl hne
  | [p], _, hall => by
      rw [intercalate_single]
      rcases hall p (List.mem_cons_self _ _) with rfl | hg
      · rw [show List.filter (fun p => decide (p ≠ str "|")) [str "|"] = []
          from by simp]
        exact SpacedBar.bar (SpacedBar.nil (by simp))
      · rw [show List.filter (fun q => decide (q ≠ str "|")) [p] = [p]
          from by simp [GoodTok_ne_bar hg]]
        simpa using SpacedBar.word hg (Or.inl rfl) (SpacedBar.nil (by simp))
  | p :: q :: t, _, hall => by
      have ih := @spacedBar_intercalate (q :: t) (by simp)
        (fun x hx => hall x (List.mem_cons_of_mem _ hx))
      rw [intercalate_cons₂]
      rcases hall p (List.mem_cons_self _ _) with rfl | hg
      · rw [show List.filter (fun x => decide (x ≠ str "|")) (str "|" :: q :: t) =
          List.filter (fun x => decide (x ≠ str "|")) (q :: t) from by
            rw [List.filter_cons]; simp]
        have : str "|" ++ str " " ++ List.intercalate (str " ") (q :: t) =
            '|' :: ' ' :: List.intercalate (str " ") (q :: t) := rfl
        rw [this]
        exact SpacedBar.bar (SpacedBar.space ih)
      · rw [show List.filter (fun x => decide (x ≠ str "|")) (p :: q :: t) =
          p :: List.filter (fun x => decide (x ≠ str "|")) (q :: t) from by
            rw [List.filter_cons]; simp [GoodTok_ne_bar hg]]
        have : p ++ str " " ++ List.intercalate (str " ") (q :: t) =
            p ++ (' ' :: List.intercalate (str " ") (q :: t)) := by
          rw [List.append_assoc]; rfl
        rw [this]
        exact SpacedBar.word hg (Or.inr (Or.inl ⟨_, rfl⟩)) (SpacedBar.space ih)

theorem colon_mem_of_isHeaderLine {l : List Char} (h : isHeaderLine l = true) :
    ':' ∈ l := by
  unfold isHeaderLine at h
  split at h
  · simp
  · cases h

/-- `tokenize_abc` on single spaces joining bar markers and good tokens
recovers exactly the non-bar tokens. -/
theorem tokenize_abc_parts {parts : List (List Char)}
    (hne : parts ≠ [])
    (hall : ∀ p ∈ parts, p = str "|" ∨ GoodTok p)
    (hfirst : ∀ w, parts.head? = some w → GoodTok w)
    (hlast : parts.getLast? = some (str "|")) :
    tokenize_abc (List.intercalate (str " ") parts) =
      parts.filter (fun p => p ≠ str "|") := by
  have hchars : ∀ c ∈ List.intercalate (str " ") parts, c ≠ '\n' ∧ c ≠ ':' := by
    intro c hc
    rcases mem_intercalate hc with hc | ⟨p, hp, hcp⟩
    · have : c = ' ' := by simpa [str] using hc
      subst this
      exact ⟨by decide, by decide⟩
    · rcases hall p hp with rfl | hg
      · have : c = '|' := by simpa [str] using hcp
        subst this
        exact ⟨by decide, by decide⟩
      · obtain ⟨_, _, h3, h4⟩ := GoodTok_char hg hcp
        exact ⟨h4, h3⟩
  have hstrip : pyStripWs (List.intercalate (str " ") parts) =
      List.intercalate (str " ") parts := by
    refine pyStripWs_eq_of_ends ?_ ?_
    · intro c hc
      cases parts with
      | nil => exact absurd rfl hne
      | cons w rest =>
          have hg : GoodTok w := hfirst w rfl
          rw [intercalate_head (GoodTok_ne_nil hg)] at hc
          exact (GoodTok_head hg c hc).1
    · intro c hc
      rw [intercalate_getLast hlast (by simp [str])] at hc
      have : '|' = c := by simpa [str] using hc
      subst this
      decide
  have hsb := spacedBar_intercalate hne hall
  have hsp := spaced_pyStripWs (spaced_collapseWs (spaced_collapseBars hsb))
  simp only [tokenize_abc]
  rw [hstrip, pySplit_no_sep (fun hmem => (hchars '\n' hmem).1 rfl)]
  have hhd : isHeaderLine (List.intercalate (str " ") parts) = false := by
    by_contra hb
    rw [Bool.not_eq_false] at hb
    exact (hchars ':' (colon_mem_of_isHeaderLine hb)).2 rfl
  rw [show List.filter (fun l => ¬ isHeaderLine l)
      [List.intercalate (str " ") parts] = [List.intercalate (str " ") parts]
    from by simp [hhd]]
  rw [show List.intercalate [' '] [List.intercalate (str " ") parts] =
      List.intercalate (str " ") parts from intercalate_single _ _]
  exact scanTokens_spaced hsp

/-- Whether `midi_to_abc` spells the pitch with a sharp
(validate_program.py:104-106). -/
def sharpOf (pitch : Int) : Prop :=
  ¬ ([0, 2, 4, 5, 7, 9, 11] : List Int).contains (pitch.fmod 12)

instance sharpOf_decidable (pitch : Int) : Decidable (sharpOf pitch) := by
  unfold sharpOf
  infer_instance

/-- The pitch letter chosen by `midi_to_abc` (validate_program.py:107-116). -/
def letterOf (pitch : Int) : Char :=
  let note_in_octave := pitch.fmod 12
  let base_note := if sharpOf pitch then note_in_octave - 1 else note_in_octave
  let note_idx := ([0, 2, 4, 5, 7, 9, 11] : List Int).indexOf base_note
  let note_char := (['C', 'D', 'E', 'F', 'G', 'A', 'B'] : List Char).getD note_idx 'C'
  if pitch.fdiv 12 ≥ 5 then charLower note_char else note_char

/-- The octave marks emitted by `midi_to_abc` (validate_program.py:112-120). -/
def octsOf (pitch : Int) : List Char :=
  let octave := pitch.fdiv 12
  if octave ≥ 5 then
    (if octave > 5 then List.replicate (octave - 5).toNat '\'' else [])
  else
    (if octave < 4 then List.replicate (4 - octave).toNat ',' else [])

/-- `midiPitchStr` split into accidental, letter and octave marks. -/
theorem midiPitchStr_decomp (pitch : Int) :
    midiPitchStr pitch =
      (if sharpOf pitch then ['^'] else []) ++ letterOf pitch :: octsOf pitch := by
  unfold midiPitchStr letterOf octsOf sharpOf
  simp only [ge_iff_le, gt_iff_lt]
  split_ifs <;> first | rfl | simp_all

theorem stripAccidental_caret {c : Char} {r : List Char} (h : c ≠ '^') :
    stripAccidental ('^' :: c :: r) = (1, c :: r) := by
  unfold stripAccidental
  split <;> simp_all

theorem stripAccidental_plain {c : Char} {r : List Char}
    (h1 : c ≠ '^') (h2 : c ≠ '_') (h3 : c ≠ '=') :
    stripAccidental (c :: r) = (0, c :: r) := by
  unfold stripAccidental
  split <;> simp_all

set_option maxHeartbeats 1000000 in
/-- The per-pitch facts of the serializer's pitch spelling, checked over the
whole MIDI range: the chosen letter is a chord letter with a base value in
`ABC_BASE_NOTES`, the octave marks are uniform, and base + accidental +
octave shifts reproduce the pitch. -/
theorem pitchFact : ∀ p : Fin 128,
    abcBaseNote (letterOf (p : Int)) =
      some ((abcBaseNote (letterOf (p : Int))).getD 0) ∧
    (abcBaseNote (letterOf (p : Int))).getD 0 +
      (if sharpOf (p : Int) then 1 else 0) +
      12 * (((octsOf (p : Int)).count '\'' : Int)) -
      12 * (((octsOf (p : Int)).count ',' : Int)) = (p : Int) ∧
    ((∀ c ∈ octsOf (p : Int), c = '\'') ∨ (∀ c ∈ octsOf (p : Int), c = ',')) ∧
    isChordLetter (letterOf (p : Int)) = true ∧
    isNoteLetter (letterOf (p : Int)) = true := by
  decide!

theorem parseNoteDur_nil (tok : List Char) : parseNoteDur [] tok = .ok 1 := by
  unfold parseNoteDur
  simp

/-- The tail of the note parser on uniform octave marks followed by duration
characters. -/
theorem noteTail_shape {b acc : Int} {octs rem tok : List Char} {d : ℚ}
    (hocts : (∀ c ∈ octs, c = '\'') ∨ (∀ c ∈ octs, c = ','))
    (hrem : ∀ c ∈ rem, isDurChar c = true)
    (h0 : 0 ≤ b + acc + 12 * (octs.count '\'' : Int) - 12 * (octs.count ',' : Int))
    (h127 : b + acc + 12 * (octs.count '\'' : Int) - 12 * (octs.count ',' : Int) ≤ 127)
    (hdur : parseNoteDur rem tok = .ok d) :
    noteTail b acc (octs ++ rem) tok =
      .ok (b + acc + 12 * (octs.count '\'' : Int) - 12 * (octs.count ',' : Int), d) := by
  have hremq : ∀ c, rem.head? = some c → decide (c = '\'') = false := by
    intro c hc
    cases rem with
    | nil => cases hc
    | cons a t =>
        simp only [List.head?_cons, Option.some.injEq] at hc
        subst hc
        rcases isDurChar_cases (hrem a (List.mem_cons_self _ _)) with hd | rfl
        · simp [(isDigit_ne_chars hd).2.2.2.1]
        · decide
  have hremc : ∀ c, rem.head? = some c → decide (c = ',') = false := by
    intro c hc
    cases rem with
    | nil => cases hc
    | cons a t =>
        simp only [List.head?_cons, Option.some.injEq] at hc
        subst hc
        rcases isDurChar_cases (hrem a (List.mem_cons_self _ _)) with hd | rfl
        · simp [(isDigit_ne_chars hd).2.2.2.2.1]
        · decide
  simp only [noteTail]
  rcases hocts with hq | hcm
  · have hqall : ∀ c ∈ octs, decide (c = '\'') = true := by
      intro c hc
      simp [hq c hc]
    have hcnt1 : (octs.count '\'' : Int) = (octs.length : Int) := by
      norm_cast
      exact List.count_eq_length.mpr (fun x hx => (hq x hx).symm)
    have hcnt2 : (octs.count ',' : Int) = 0 := by
      norm_cast
      refine List.count_eq_zero.mpr ?_
      intro hmem
      have := hq ',' hmem
      cases this
    rw [hcnt1, hcnt2] at h0 h127 ⊢
    rw [takeWhile_append_all _ hqall, takeWhile_nil_of_head hremq,
      dropWhile_append_all _ hqall, dropWhile_self_of_head hremq,
      takeWhile_nil_of_head hremc, dropWhile_self_of_head hremc]
    rw [if_neg (by simp only [List.append_nil, List.length_nil, Nat.cast_zero]; omega)]
    rw [hdur]
    simp only [List.append_nil, List.length_nil, Nat.cast_zero]
  · have hcall : ∀ c ∈ octs, decide (c = ',') = true := by
      intro c hc
      simp [hcm c hc]
    have hcnt1 : (octs.count ',' : Int) = (octs.length : Int) := by
      norm_cast
      exact List.count_eq_length.mpr (fun x hx => (hcm x hx).symm)
    have hcnt2 : (octs.count '\'' : Int) = 0 := by
      norm_cast
      refine List.count_eq_zero.mpr ?_
      intro hmem
      have := hcm '\'' hmem
      cases this
    have hoctq : ∀ c, (octs ++ rem).head? = some c → decide (c = '\'') = false := by
      refine head?_append_all ?_ (fun _ => hremq)
      intro c hc
      cases octs with
      | nil => cases hc
      | cons a t =>
          simp only [List.head?_cons, Option.some.injEq] at hc
          subst hc
          obtain rfl := hcm a (List.mem_cons_self _ _)
          decide
    rw [hcnt1, hcnt2] at h0 h127 ⊢
    rw [takeWhile_nil_of_head hoctq, dropWhile_self_of_head hoctq,
      takeWhile_append_all _ hcall, takeWhile_nil_of_head hremc,
      dropWhile_append_all _ hcall, dropWhile_self_of_head hremc]
    rw [if_neg (by simp only [List.append_nil, List.length_nil, Nat.cast_zero]; omega)]
    rw [hdur]
    simp only [List.append_nil, List.length_nil, Nat.cast_zero]

/-- The note parser on a serialized pitch spelling: optional sharp, letter
with a base value, uniform octave marks, then duration characters. -/
theorem parse_abc_note_shape {sharp : Bool} {lc : Char} {b : Int}
    {octs rem : List Char} {d : ℚ}
    (hb : abcBaseNote lc = some b)
    (hocts : (∀ c ∈ octs, c = '\'') ∨ (∀ c ∈ octs, c = ','))
    (hrem : ∀ c ∈ rem, isDurChar c = true)
    (h0 : 0 ≤ b + (if sharp then (1 : Int) else 0) +
      12 * (octs.count '\'' : Int) - 12 * (octs.count ',' : Int))
    (h127 : b + (if sharp then (1 : Int) else 0) +
      12 * (octs.count '\'' : Int) - 12 * (octs.count ',' : Int) ≤ 127)
    (hdur : parseNoteDur rem ((if sharp then ['^'] else []) ++ lc :: octs ++ rem)
      = .ok d) :
    parse_abc_note ((if sharp then ['^'] else []) ++ lc :: octs ++ rem) =
      .ok (b + (if sharp then (1 : Int) else 0) +
        12 * (octs.count '\'' : Int) - 12 * (octs.count ',' : Int), d) := by
  obtain ⟨hz, hZ, hcar, hund, heq, hws⟩ := abcBaseNote_letter hb
  have hnospace : ∀ x ∈ (if sharp then ['^'] else []) ++ lc :: octs ++ rem,
      pyIsSpace x = false := by
    intro x hx
    rcases List.mem_append.mp hx with hx | hx
    · rcases List.mem_append.mp hx with hx | hx
      · cases sharp
        · cases hx
        · obtain rfl : x = '^' := by simpa using hx
          decide
      · rcases List.mem_cons.mp hx with rfl | hx
        · exact hws
        · rcases hocts with ho | ho
          · obtain rfl := ho x hx
            decide
          · obtain rfl := ho x hx
            decide
    · exact (isDurChar_ne (hrem x hx)).1
  cases sharp
  · simp only [Bool.false_eq_true, reduceIte, List.nil_append,
      List.cons_append] at hdur h0 h127 ⊢
    unfold parse_abc_note
    rw [if_neg (by simp), pyStripWs_eq_self (by simpa using hnospace)]
    rw [if_neg ?hzz]
    case hzz =>
      simp only [List.head?_cons]
      rintro (hh | hh) <;> simp_all
    rw [stripAccidental_plain hcar hund heq]
    simp only [hb]
    have := @noteTail_shape b 0 octs rem _ d hocts hrem h0 h127 hdur
    simpa using this
  · simp only [reduceIte, List.singleton_append, List.cons_append,
      List.nil_append] at hdur h0 h127 ⊢
    unfold parse_abc_note
    rw [if_neg (by simp), pyStripWs_eq_self (by simpa using hnospace)]
    rw [if_neg ?hzz2]
    case hzz2 =>
      simp only [List.head?_cons]
      rintro (hh | hh) <;> simp_all
    rw [stripAccidental_caret hcar]
    simp only [hb]
    have := @noteTail_shape b 1 octs rem _ d hocts hrem h0 h127 hdur
    simpa using this

theorem pyInt_natCast (k : Nat) : pyInt (k : ℚ) = (k : Int) := by
  unfold pyInt
  rw [if_pos (by positivity)]
  exact_mod_cast Int.floor_natCast k

theorem intStr_natCast (k : Nat) : intStr ((k : Nat) : Int) = natStr k := by
  unfold intStr
  rw [if_neg (by omega)]
  simp

theorem quarter_ne_branch {k m : Nat} (hkm : k ≠ m) :
    ¬ |(k : ℚ)/4 - (m : ℚ)/4| < 1/100 := by
  rw [abs_sub_lt_iff]
  rintro ⟨h1, h2⟩
  rcases Nat.lt_or_ge k m with h | h
  · have hc : (k : ℚ) + 1 ≤ (m : ℚ) := by exact_mod_cast h
    linarith
  · have hmk : m < k := lt_of_le_of_ne h (Ne.symm hkm)
    have hc : (m : ℚ) + 1 ≤ (k : ℚ) := by exact_mod_cast hmk
    linarith

theorem parseNoteDur_slash {rem : List Char} (tok : List Char)
    (h1 : rem ≠ []) (h2 : rem.contains '/' = true) :
    parseNoteDur rem tok = parseFracDur rem := by
  unfold parseNoteDur
  rw [if_neg h1, if_pos (by simp only [h2])]

/-- The single-note duration suffix of the serializer round-trips through the
note-duration parser for every positive whole number of quarter beats, and
consists of duration characters only. -/
theorem durSuffix_roundtrip (k : Nat) (hk : 1 ≤ k) (tok : List Char) :
    parseNoteDur (durSuffixStr ((k : ℚ) / 4)) tok = .ok ((k : ℚ) / 4) ∧
    ∀ c ∈ durSuffixStr ((k : ℚ) / 4), isDurChar c = true := by
  by_cases hk1 : k = 1
  · subst hk1
    rw [show durSuffixStr (((1 : Nat) : ℚ) / 4) = str "/4" from by decide!]
    constructor
    · rw [parseNoteDur_slash tok (by decide) (by decide)]
      rw [show parseFracDur (str "/4") = .ok (1/4) from by decide!]
      norm_num
    · decide
  by_cases hk2 : k = 2
  · subst hk2
    rw [show durSuffixStr (((2 : Nat) : ℚ) / 4) = str "/2" from by decide!]
    constructor
    · rw [parseNoteDur_slash tok (by decide) (by decide)]
      rw [show parseFracDur (str "/2") = .ok (1/2) from by decide!]
      norm_num
    · decide
  by_cases hk4 : k = 4
  · subst hk4
    rw [show durSuffixStr (((4 : Nat) : ℚ) / 4) = [] from by decide!]
    constructor
    · rw [parseNoteDur_nil]
      norm_num
    · simp
  by_cases hk8 : k = 8
  · subst hk8
    rw [show durSuffixStr (((8 : Nat) : ℚ) / 4) = natStr 2 from by decide!]
    constructor
    · rw [parseNoteDur_natStr]
      norm_num
    · exact fun c hc => by simp [isDurChar, natStr_all_digits 2 c hc]
  by_cases hk12 : k = 12
  · subst hk12
    rw [show durSuffixStr (((12 : Nat) : ℚ) / 4) = natStr 3 from by decide!]
    constructor
    · rw [parseNoteDur_natStr]
      norm_num
    · exact fun c hc => by simp [isDurChar, natStr_all_digits 3 c hc]
  by_cases hk16 : k = 16
  · subst hk16
    rw [show durSuffixStr (((16 : Nat) : ℚ) / 4) = natStr 4 from by decide!]
    constructor
    · rw [parseNoteDur_natStr]
      norm_num
    · exact fun c hc => by simp [isDurChar, natStr_all_digits 4 c hc]
  -- the generic branches: k is none of 1, 2, 4, 8, 12, 16
  have hb1 : ¬ |(k : ℚ)/4 - 1/4| < 1/100 := by
    have h' := @quarter_ne_branch k 1 hk1
    norm_num at h' ⊢
    convert h' using 2
  have hb2 : ¬ |(k : ℚ)/4 - 1/2| < 1/100 := by
    have h' := @quarter_ne_branch k 2 hk2
    norm_num at h' ⊢
    convert h' using 2
  have hb4 : ¬ |(k : ℚ)/4 - 1| < 1/100 := by
    have h' := @quarter_ne_branch k 4 hk4
    norm_num at h' ⊢
    convert h' using 2
  have hb8 : ¬ |(k : ℚ)/4 - 2| < 1/100 := by
    have h' := @quarter_ne_branch k 8 hk8
    norm_num at h' ⊢
    convert h' using 2
  have hb12 : ¬ |(k : ℚ)/4 - 3| < 1/100 := by
    have h' := @quarter_ne_branch k 12 hk12
    norm_num at h' ⊢
    convert h' using 2
  have hb16 : ¬ |(k : ℚ)/4 - 4| < 1/100 := by
    have h' := @quarter_ne_branch k 16 hk16
    norm_num at h' ⊢
    convert h' using 2
  unfold durSuffixStr
  rw [if_neg hb1, if_neg hb2, if_neg hb4, if_neg hb8, if_neg hb12, if_neg hb16]
  have hpy : pyInt ((k : ℚ)/4) = ⌊(k : ℚ)/4⌋ := by
    unfold pyInt
    rw [if_pos (by positivity)]
  by_cases hdvd : 4 ∣ k
  · obtain ⟨m, rfl⟩ := hdvd
    have hd : (((4 * m : Nat) : ℚ))/4 = (m : ℚ) := by push_cast; ring
    rw [hd]
    rw [if_pos (by rw [pyInt_natCast]; exact_mod_cast rfl)]
    rw [pyInt_natCast, intStr_natCast]
    refine ⟨?_, ?_⟩
    · rw [parseNoteDur_natStr]
    · exact fun c hc => by simp [isDurChar, natStr_all_digits m c hc]
  · rw [if_neg ?hnint]
    case hnint =>
      intro heq
      rw [hpy] at heq
      have h4 : (k : ℚ) = 4 * ((⌊(k : ℚ)/4⌋ : Int) : ℚ) := by linarith
      have h4i : (k : Int) = 4 * ⌊(k : ℚ)/4⌋ := by exact_mod_cast h4
      exact hdvd (by
        have : ((4 : Nat) : Int) ∣ (k : Int) := ⟨_, h4i⟩
        exact_mod_cast this)
    have hmul : (k : ℚ)/4 * 4 = ((k : Nat) : ℚ) := by field_simp
    rw [hmul, pyInt_natCast]
    rw [if_pos (by exact_mod_cast hk)]
    rw [intStr_natCast]
    have hsuffix : str "/4" = '/' :: natStr 4 := rfl
    rw [hsuffix]
    refine ⟨?_, ?_⟩
    · rw [parseNoteDur_slash tok (by simp) (by simp)]
      have := parseFracDur_frac k 4 (by norm_num)
      rw [this]
      norm_num
    · intro c hc
      rcases List.mem_append.mp hc with hc | hc
      · simp [isDurChar, natStr_all_digits k c hc]
      · rcases List.mem_cons.mp hc with rfl | hc
        · decide
        · simp [isDurChar, natStr_all_digits 4 c hc]

theorem durSuffixStr_one : durSuffixStr 1 = [] := by decide!

/-- The chord duration suffix of the serializer for each representable chord
duration. -/
theorem chordDurSuffixStr_quarter : chordDurSuffixStr (1/4) = str "/4" := by
  decide!

theorem chordDurSuffixStr_half : chordDurSuffixStr (1/2) = str "/2" := by
  decide!

theorem chordDurSuffixStr_one : chordDurSuffixStr 1 = [] := by decide!

theorem chordDurSuffixStr_nat (k : Nat) (hk : 2 ≤ k) :
    chordDurSuffixStr (k : ℚ) = natStr k := by
  unfold chordDurSuffixStr
  rw [if_pos ?hgt]
  case hgt =>
    have h2 : (2 : ℚ) ≤ (k : ℚ) := by exact_mod_cast hk
    rw [abs_of_nonneg (by linarith)]
    linarith
  rw [if_pos (by rw [pyInt_natCast]; exact_mod_cast rfl), pyInt_natCast,
    intStr_natCast]

theorem QuarterPos_ge {d : ℚ} (h : QuarterPos d) : 1/4 ≤ d := by
  obtain ⟨k, hk, rfl⟩ := h
  have : (1 : ℚ) ≤ (k : ℚ) := by exact_mod_cast hk
  linarith

theorem ChordRepDur_ge {d : ℚ} (h : ChordRepDur d) : 1/4 ≤ d := by
  rcases h with rfl | rfl | ⟨k, hk, rfl⟩
  · norm_num
  · norm_num
  · have : (1 : ℚ) ≤ (k : ℚ) := by exact_mod_cast hk
    linarith

/-- The shape of one serialized chord member: optional sharp, chord letter,
octave marks. -/
def PitchShape (m : List Char) : Prop :=
  ∃ (sharp : Bool) (lc : Char) (octs : List Char),
    m = (if sharp = true then ['^'] else []) ++ lc :: octs ∧
    isChordLetter lc = true ∧ (∀ c ∈ octs, isOctChar c = true)

theorem isChordLetter_not_digit {c : Char} (h : isChordLetter c = true) :
    c.isDigit = false := by
  by_contra hb
  rw [Bool.not_eq_false] at hb
  simp only [Char.isDigit, Bool.and_eq_true, decide_eq_true_eq] at hb
  simp only [isChordLetter, decide_eq_true_eq, Char.le_def] at h
  obtain ⟨hb1, hb2⟩ := hb
  have k2 : c.val.toNat ≤ 57 := hb2
  rcases h with ⟨h1, h2⟩ | ⟨h1, h2⟩
  · have k1 : (65 : Nat) ≤ c.val.toNat := h1
    omega
  · have k1 : (97 : Nat) ≤ c.val.toNat := h1
    omega

theorem isNoteLetter_not_digit {c : Char} (h : isNoteLetter c = true) :
    c.isDigit = false := by
  by_contra hb
  rw [Bool.not_eq_false] at hb
  simp only [Char.isDigit, Bool.and_eq_true, decide_eq_true_eq] at hb
  simp only [isNoteLetter, decide_eq_true_eq, Char.le_def] at h
  obtain ⟨hb1, hb2⟩ := hb
  have k2 : c.val.toNat ≤ 57 := hb2
  rcases h with ⟨h1, h2⟩ | ⟨h1, h2⟩ | rfl | rfl
  · have k1 : (65 : Nat) ≤ c.val.toNat := h1
    omega
  · have k1 : (97 : Nat) ≤ c.val.toNat := h1
    omega
  · exact absurd hb2 (by decide)
  · exact absurd hb2 (by decide)

theorem isChordLetter_ne {c : Char} (h : isChordLetter c = true) :
    c ≠ '^' ∧ c ≠ '_' ∧ c ≠ '=' ∧ isOctChar c = false ∧ c ≠ ']' ∧
    c ≠ '[' ∧ c ≠ '/' ∧ isNoteLetter c = true := by
  refine ⟨?_, ?_, ?_, ?_, ?_, ?_, ?_, ?_⟩
  · intro hcc; rw [hcc] at h; exact absurd h (by decide)
  · intro hcc; rw [hcc] at h; exact absurd h (by decide)
  · intro hcc; rw [hcc] at h; exact absurd h (by decide)
  · by_contra hb
    rw [Bool.not_eq_false] at hb
    rcases isOctChar_cases hb with rfl | rfl <;> exact absurd h (by decide)
  · intro hcc; rw [hcc] at h; exact absurd h (by decide)
  · intro hcc; rw [hcc] at h; exact absurd h (by decide)
  · intro hcc; rw [hcc] at h; exact absurd h (by decide)
  · simp only [isChordLetter, decide_eq_true_eq] at h
    simp only [isNoteLetter, decide_eq_true_eq]
    tauto

theorem mem_of_head?_vp {l : List Char} {c : Char} (h : l.head? = some c) :
    c ∈ l := by
  cases l with
  | nil => cases h
  | cons a t =>
      simp only [List.head?_cons, Option.some.injEq] at h
      exact h ▸ List.mem_cons_self _ _

theorem PitchShape_ne_nil {m : List Char} (h : PitchShape m) : m ≠ [] := by
  obtain ⟨s, lc, octs, rfl, _⟩ := h
  cases s <;> simp

theorem PitchShape_head_oct {m : List Char} {c : Char} (h : PitchShape m)
    (hc : m.head? = some c) : isOctChar c = false := by
  obtain ⟨sharp, lc, octs, rfl, hl, _⟩ := h
  cases sharp
  · simp only [Bool.false_eq_true, reduceIte, List.nil_append,
      List.head?_cons, Option.some.injEq] at hc
    rw [← hc]
    exact (isChordLetter_ne hl).2.2.2.1
  · simp only [reduceIte, List.singleton_append, List.cons_append,
      List.head?_cons, Option.some.injEq] at hc
    rw [← hc]
    decide

theorem chordScanF_succ (fuel : Nat) (l : List Char) :
    chordScanF (fuel + 1) l =
      match chordMatchAt l with
      | some (m, rest) => m :: chordScanF fuel rest
      | none =>
          match l with
          | [] => []
          | _ :: t => chordScanF fuel t := rfl

theorem chordScanF_congr : ∀ {f₁ : Nat} (f₂ : Nat) {l : List Char},
    l.length < f₁ → l.length < f₂ → chordScanF f₁ l = chordScanF f₂ l
  | 0, _, _, h1, _ => absurd h1 (by omega)
  | _ + 1, 0, _, _, h2 => absurd h2 (by omega)
  | f₁ + 1, f₂ + 1, l, h1, h2 => by
      rw [chordScanF_succ, chordScanF_succ]
      cases hm : chordMatchAt l with
      | some pr =>
          obtain ⟨m, rest⟩ := pr
          have := chordMatchAt_shrinks hm
          show m :: chordScanF f₁ rest = m :: chordScanF f₂ rest
          rw [chordScanF_congr f₂ (by omega) (by omega)]
      | none =>
          cases l with
          | nil => rfl
          | cons c t =>
              simp only [List.length_cons] at h1 h2
              show chordScanF f₁ t = chordScanF f₂ t
              rw [chordScanF_congr f₂ (by omega) (by omega)]

theorem chordMatchAt_caret {lc : Char} {X : List Char} (h : lc ≠ '^') :
    chordMatchAt ('^' :: lc :: X) =
      (tryLetter ['^'] (lc :: X) <|> tryLetter [] ('^' :: lc :: X)) := by
  unfold chordMatchAt
  split <;> simp_all

theorem chordMatchAt_plain {c : Char} {X : List Char}
    (h1 : c ≠ '^') (h2 : c ≠ '_') (h3 : c ≠ '=') :
    chordMatchAt (c :: X) = tryLetter [] (c :: X) := by
  unfold chordMatchAt
  split <;> simp_all

/-- One chord-member regex match at the head of a serialized member. -/
theorem chordMatchAt_member {sharp : Bool} {lc : Char} {octs r : List Char}
    (hl : isChordLetter lc = true)
    (hocts : ∀ c ∈ octs, isOctChar c = true)
    (hr : ∀ c, r.head? = some c → isOctChar c = false) :
    chordMatchAt (((if sharp then ['^'] else []) ++ lc :: octs) ++ r) =
      some ((if sharp then ['^'] else []) ++ lc :: octs, r) := by
  obtain ⟨hc1, hc2, hc3, _, _, _, _, _⟩ := isChordLetter_ne hl
  have hocts' : ∀ c ∈ octs, decide (c = '\'' ∨ c = ',') = true :=
    fun c hc => hocts c hc
  have hr' : ∀ c, r.head? = some c → decide (c = '\'' ∨ c = ',') = false :=
    fun c hc => hr c hc
  have htake : (octs ++ r).takeWhile (fun x => decide (x = '\'' ∨ x = ',')) = octs := by
    rw [takeWhile_append_all _ hocts', takeWhile_nil_of_head hr']
    simp
  have hdrop : (octs ++ r).dropWhile (fun x => decide (x = '\'' ∨ x = ',')) = r := by
    rw [dropWhile_append_all _ hocts', dropWhile_self_of_head hr']
  cases sharp
  · rw [show ((if (false : Bool) = true then ['^'] else []) ++ lc :: octs) ++ r =
      lc :: (octs ++ r) from by simp]
    rw [chordMatchAt_plain hc1 hc2 hc3]
    simp only [tryLetter]
    rw [if_pos hl]
    rw [htake, hdrop]
    simp
  · rw [show ((if (true : Bool) = true then ['^'] else []) ++ lc :: octs) ++ r =
      '^' :: lc :: (octs ++ r) from by simp]
    rw [chordMatchAt_caret hc1]
    simp only [tryLetter]
    rw [if_pos hl]
    rw [htake, hdrop]
    simp

/-- The chord-member scan yields nothing on junk characters. -/
theorem chordScan_junk : ∀ {junk : List Char},
    (∀ c ∈ junk, isChordLetter c = false ∧ c ≠ '^' ∧ c ≠ '_' ∧ c ≠ '=') →
    chordScan junk = []
  | [], _ => rfl
  | c :: t, h => by
      obtain ⟨hl, h1, h2, h3⟩ := h c (List.mem_cons_self _ _)
      have hnone : tryLetter [] (c :: t) = none := by
        simp only [tryLetter]
        rw [if_neg (by simp [hl])]
      unfold chordScan
      simp only [List.length_cons]
      rw [chordScanF_succ, chordMatchAt_plain h1 h2 h3, hnone]
      show chordScanF (t.length + 1) t = []
      exact chordScan_junk (fun x hx => h x (List.mem_cons_of_mem _ hx))

/-- The chord-member scan of concatenated members followed by junk recovers
exactly the members. -/
theorem chordScan_members : ∀ (ms : List (List Char)) (junk : List Char),
    (∀ m ∈ ms, PitchShape m) →
    (∀ c ∈ junk, (isChordLetter c = false ∧ c ≠ '^' ∧ c ≠ '_' ∧ c ≠ '=') ∧
      isOctChar c = false) →
    chordScan (ms.flatten ++ junk) = ms
  | [], junk, _, hjunk => by
      simp only [List.flatten_nil, List.nil_append]
      exact chordScan_junk (fun c hc => (hjunk c hc).1)
  | m :: ms, junk, hms, hjunk => by
      obtain ⟨sharp, lc, octs, hm, hl, hocts⟩ := hms m (List.mem_cons_self _ _)
      have hrest : ∀ c, (ms.flatten ++ junk).head? = some c → isOctChar c = false := by
        intro c hc
        cases ms with
        | nil =>
            simp only [List.flatten_nil, List.nil_append] at hc
            exact (hjunk c (mem_of_head?_vp hc)).2
        | cons m' ms' =>
            have hps := hms m' (List.mem_cons_of_mem _ (List.mem_cons_self _ _))
            rw [show (m' :: ms').flatten ++ junk = m' ++ (ms'.flatten ++ junk)
              from by simp, head?_append_left (PitchShape_ne_nil hps)] at hc
            exact PitchShape_head_oct hps hc
      have hsplit : (m :: ms).flatten ++ junk = m ++ (ms.flatten ++ junk) := by
        simp
      rw [hsplit]
      unfold chordScan
      rw [chordScanF_succ]
      rw [show m ++ (ms.flatten ++ junk) =
        ((if sharp = true then ['^'] else []) ++ lc :: octs) ++
          (ms.flatten ++ junk) from by rw [← hm]]
      rw [chordMatchAt_member hl hocts hrest]
      show ((if sharp = true then ['^'] else []) ++ lc :: octs) ::
        chordScanF ((((if sharp = true then ['^'] else []) ++ lc :: octs) ++
          (ms.flatten ++ junk)).length) (ms.flatten ++ junk) = m :: ms
      rw [← hm]
      have hmlen : 1 ≤ m.length := by
        rw [hm]
        cases sharp <;> simp
      rw [chordScanF_congr ((ms.flatten ++ junk).length + 1)
        (by simp only [List.length_append]; omega) (by omega)]
      rw [show chordScanF ((ms.flatten ++ junk).length + 1) (ms.flatten ++ junk) =
        chordScan (ms.flatten ++ junk) from rfl]
      rw [chordScan_members ms junk
        (fun x hx => hms x (List.mem_cons_of_mem _ hx)) hjunk]

theorem durPatMatch_false_of_mem {s : List Char} {c : Char} (hc : c ∈ s)
    (h1 : c.isDigit = false) (h2 : c ≠ '/') : durPatMatch s = false := by
  by_contra hb
  rw [Bool.not_eq_false] at hb
  rcases @mem_pySplit_of_mem '/' s c hc with hs | ⟨p, hp, hxp⟩
  · exact h2 hs
  · unfold durPatMatch at hb
    split at hb
    · rename_i a ha
      rw [ha] at hp
      rcases List.mem_cons.mp hp with rfl | hp
      · simp only [Bool.decide_and, Bool.and_eq_true, decide_eq_true_eq] at hb
        have := List.all_eq_true.mp hb.2 _ hxp
        rw [h1] at this
        cases this
      · cases hp
    · rename_i a b hab
      rw [hab] at hp
      simp only [Bool.decide_and, Bool.and_eq_true, decide_eq_true_eq,
        List.all_eq_true] at hb
      rcases List.mem_cons.mp hp with rfl | hp
      · have := hb.1 _ hxp
        rw [h1] at this
        cases this
      · rcases List.mem_cons.mp hp with rfl | hp
        · have := hb.2.2 _ hxp
          rw [h1] at this
          cases this
        · cases hp
    · cases hb

theorem durPatMatch_natStr (k : Nat) : durPatMatch (natStr k) = true := by
  unfold durPatMatch
  rw [pySplit_no_sep (slash_not_mem_digits (natStr_all_digits k))]
  simp only [Bool.decide_and, Bool.and_eq_true, decide_eq_true_eq,
    List.all_eq_true]
  refine ⟨by simp [natStr_ne_nil k], ?_⟩
  intro x hx
  simp [natStr_all_digits k x hx]

/-- No duration-suffix match exists in a string free of digits and slashes. -/
theorem regexDurSuffix_none {l : List Char}
    (h : ∀ c ∈ l, c.isDigit = false ∧ c ≠ '/') : regexDurSuffix l = none := by
  unfold regexDurSuffix
  refine findSome?_eq_none_of_all ?_
  intro p _
  rcases hdrop : l.drop p with _ | ⟨c, t⟩
  · simp only [hdrop]
    rw [if_neg (by decide)]
  · have hcm : c ∈ l := by
      refine (List.drop_sublist p l).subset ?_
      rw [hdrop]
      exact List.mem_cons_self _ _
    obtain ⟨hd1, hd2⟩ := h c hcm
    simp only [hdrop]
    rw [if_neg (by
      simp only [durPatMatch_false_of_mem (List.mem_cons_self c t) hd1 hd2]
      simp)]

/-- The leftmost end-anchored duration-suffix match on a bracketed body
followed by a matching suffix is the suffix itself. -/
theorem regexDurSuffix_suffix {X suffix : List Char}
    (hmatch : durPatMatch suffix = true) :
    regexDurSuffix ((X ++ [']']) ++ suffix) = some suffix := by
  unfold regexDurSuffix
  refine @findSome?_range_first (List Char) _ (X.length + 1) _ suffix ?_ ?_ ?_
  · simp only [List.length_append, List.length_cons, List.length_nil]
    omega
  · intro p hp
    have hple : p ≤ X.length := by omega
    have hdropeq : ((X ++ [']']) ++ suffix).drop p = (X ++ [']']).drop p ++ suffix := by
      rw [List.drop_append_of_le_length (by simp; omega)]
    have hmem : ']' ∈ (X ++ [']']).drop p := by
      rw [List.drop_append_of_le_length hple]
      simp
    have hbad : durPatMatch (((X ++ [']']) ++ suffix).drop p) = false := by
      rw [hdropeq]
      exact durPatMatch_false_of_mem
        (List.mem_append.mpr (Or.inl hmem)) (by decide) (by decide)
    simp only [hbad]
    rw [if_neg (by simp)]
  · have hdropeq : ((X ++ [']']) ++ suffix).drop (X.length + 1) = suffix := by
      rw [show X.length + 1 = (X ++ [']']).length from by simp]
      exact List.drop_left _ _
    simp only [hdropeq]
    rw [if_pos (by simp only [hmatch])]

theorem pyRStrip_noop {c : Char} {l : List Char}
    (h : ∀ x, l.getLast? = some x → decide (x = c) = false) : pyRStrip c l = l := by
  unfold pyRStrip
  rw [dropWhile_self_of_head (fun x hx => h x (by rwa [List.head?_reverse] at hx)),
    List.reverse_reverse]

theorem pyRStrip_bracket {flat : List Char}
    (h : ∀ x, ('[' :: flat).getLast? = some x → x ≠ ']') :
    pyRStrip ']' ('[' :: flat ++ [']']) = '[' :: flat := by
  unfold pyRStrip
  rw [show ('[' :: flat ++ [']']) = ('[' :: flat) ++ [']'] from by simp]
  rw [List.reverse_append]
  show (((']' :: []) ++ ('[' :: flat).reverse).dropWhile (· = ']')).reverse = _
  rw [List.cons_append, List.dropWhile_cons]
  rw [if_pos (by simp), List.nil_append]
  rw [dropWhile_self_of_head ?hl, List.reverse_reverse]
  case hl =>
    intro x hx
    rw [List.head?_reverse] at hx
    simp [h x hx]

theorem durPatMatch_ne_nil {s : List Char} (h : durPatMatch s = true) : s ≠ [] := by
  intro h0
  rw [h0] at h
  exact absurd h (by decide)

theorem PitchShape_char {m : List Char} {c : Char} (h : PitchShape m) (hc : c ∈ m) :
    c.isDigit = false ∧ c ≠ '/' ∧ c ≠ ']' ∧ c ≠ '[' ∧ isNoteTokChar c = true := by
  obtain ⟨sharp, lc, octs, rfl, hl, ho⟩ := h
  rcases List.mem_append.mp hc with hc | hc
  · cases sharp
    · simp at hc
    · simp only [reduceIte] at hc
      obtain rfl : c = '^' := by simpa using hc
      exact ⟨by decide, by decide, by decide, by decide, by decide⟩
  · rcases List.mem_cons.mp hc with rfl | hc
    · obtain ⟨h1, h2, h3, h4, h5, h6, h7, h8⟩ := isChordLetter_ne hl
      exact ⟨isChordLetter_not_digit hl, h7, h5, h6,
        by simp [isNoteTokChar, h8]⟩
    · rcases isOctChar_cases (ho c hc) with rfl | rfl
      · exact ⟨by decide, by decide, by decide, by decide, by decide⟩
      · exact ⟨by decide, by decide, by decide, by decide, by decide⟩

theorem chordDurOf_no_suffix {flat : List Char} (hfne : flat ≠ [])
    (hfl : ∀ c ∈ flat, c.isDigit = false ∧ c ≠ '/' ∧ c ≠ ']') :
    chordDurOf ('[' :: flat ++ [']']) = .ok 1 := by
  unfold chordDurOf
  rw [pyRStrip_bracket ?hlast]
  case hlast =>
    intro x hx
    rcases List.mem_cons.mp (List.mem_of_getLast?_eq_some hx) with rfl | hx
    · decide
    · exact (hfl x hx).2.2
  rw [regexDurSuffix_none ?hnod]
  case hnod =>
    intro c hc
    rcases List.mem_cons.mp hc with rfl | hc
    · exact ⟨by decide, by decide⟩
    · exact ⟨(hfl c hc).1, (hfl c hc).2.1⟩

theorem chordDurOf_with_suffix {flat suffix : List Char}
    (hmatch : durPatMatch suffix = true)
    (hlast : ∀ x, suffix.getLast? = some x → x ≠ ']') :
    chordDurOf ('[' :: flat ++ ']' :: suffix) =
      (if suffix.contains '/' then parseFracDur suffix else pyFloatE suffix) := by
  unfold chordDurOf
  rw [show '[' :: flat ++ ']' :: suffix = (('[' :: flat) ++ [']']) ++ suffix
    from by simp]
  rw [pyRStrip_noop ?h1]
  case h1 =>
    intro x hx
    rw [getLast?_append_right (durPatMatch_ne_nil hmatch)] at hx
    simp [hlast x hx]
  rw [regexDurSuffix_suffix hmatch]

set_option maxHeartbeats 1000000 in
/-- The note parser recovers the pitch of a serialized pitch spelling with
the default duration `1`, and the spelling is a well-shaped chord member. -/
theorem parse_abc_note_pitch {p : Int} (h0 : 0 ≤ p) (h127 : p ≤ 127) :
    parse_abc_note (midiPitchStr p) = .ok (p, 1) ∧ PitchShape (midiPitchStr p) := by
  have hfin : p.toNat < 128 := by omega
  have hp := pitchFact ⟨p.toNat, hfin⟩
  have hcast : ((⟨p.toNat, hfin⟩ : Fin 128) : Int) = p := by
    simp [Int.toNat_of_nonneg h0]
  rw [hcast] at hp
  obtain ⟨hb, hsum, hocts, hchord, hnote⟩ := hp
  have hoctm : ∀ c ∈ octsOf p, isOctChar c = true := by
    intro c hc
    rcases hocts with ho | ho
    · rw [ho c hc]; decide
    · rw [ho c hc]; decide
  have hbridge : (if sharpOf p then (['^'] : List Char) else []) =
      (if decide (sharpOf p) = true then ['^'] else []) := by
    by_cases h : sharpOf p <;> simp [h]
  have hbridge2 : (if decide (sharpOf p) = true then (1 : Int) else 0) =
      (if sharpOf p then (1 : Int) else 0) := by
    by_cases h : sharpOf p <;> simp [h]
  constructor
  · have hshape := @parse_abc_note_shape (decide (sharpOf p)) (letterOf p)
      ((abcBaseNote (letterOf p)).getD 0) (octsOf p) [] 1 hb hocts
      (by intro c hc; cases hc)
      (by rw [hbridge2, hsum]; exact h0)
      (by rw [hbridge2, hsum]; exact h127)
      (parseNoteDur_nil _)
    rw [hbridge2, hsum] at hshape
    rw [midiPitchStr_decomp, hbridge]
    rw [show (if decide (sharpOf p) = true then (['^'] : List Char) else []) ++
      letterOf p :: octsOf p =
      ((if decide (sharpOf p) = true then (['^'] : List Char) else []) ++
        letterOf p :: octsOf p ++ []) from by simp]
    exact hshape
  · refine ⟨decide (sharpOf p), letterOf p, octsOf p, ?_, hchord, hoctm⟩
    rw [midiPitchStr_decomp, hbridge]

/-- The serialized single-note token: parses back to its pitch and duration
and is scanner-well-shaped. -/
theorem serialized_note_parse {p : Int} {k : Nat} (h0 : 0 ≤ p) (h127 : p ≤ 127)
    (hk : 1 ≤ k) :
    parse_abc_note (midi_to_abc p ((k : ℚ)/4)) = .ok (p, (k : ℚ)/4) ∧
    NoteShape (midi_to_abc p ((k : ℚ)/4)) := by
  have hfin : p.toNat < 128 := by omega
  have hp := pitchFact ⟨p.toNat, hfin⟩
  have hcast : ((⟨p.toNat, hfin⟩ : Fin 128) : Int) = p := by
    simp [Int.toNat_of_nonneg h0]
  rw [hcast] at hp
  obtain ⟨hb, hsum, hocts, hchord, hnote⟩ := hp
  have hoctm : ∀ c ∈ octsOf p, isOctChar c = true := by
    intro c hc
    rcases hocts with ho | ho
    · rw [ho c hc]; decide
    · rw [ho c hc]; decide
  have hbridge : (if sharpOf p then (['^'] : List Char) else []) =
      (if decide (sharpOf p) = true then ['^'] else []) := by
    by_cases h : sharpOf p <;> simp [h]
  have hbridge2 : (if decide (sharpOf p) = true then (1 : Int) else 0) =
      (if sharpOf p then (1 : Int) else 0) := by
    by_cases h : sharpOf p <;> simp [h]
  obtain ⟨hdur, hdurchars⟩ := durSuffix_roundtrip k hk
    ((if decide (sharpOf p) = true then (['^'] : List Char) else []) ++
      letterOf p :: octsOf p ++ durSuffixStr ((k : ℚ)/4))
  constructor
  · have hshape := @parse_abc_note_shape (decide (sharpOf p)) (letterOf p)
      ((abcBaseNote (letterOf p)).getD 0) (octsOf p)
      (durSuffixStr ((k : ℚ)/4)) ((k : ℚ)/4) hb hocts hdurchars
      (by rw [hbridge2, hsum]; exact h0)
      (by rw [hbridge2, hsum]; exact h127)
      hdur
    rw [hbridge2, hsum] at hshape
    unfold midi_to_abc
    rw [midiPitchStr_decomp, hbridge]
    rw [show ((if decide (sharpOf p) = true then (['^'] : List Char) else []) ++
      letterOf p :: octsOf p) ++ durSuffixStr ((k : ℚ)/4) =
      (if decide (sharpOf p) = true then (['^'] : List Char) else []) ++
        letterOf p :: octsOf p ++ durSuffixStr ((k : ℚ)/4) from by simp]
    exact hshape
  · refine ⟨(if decide (sharpOf p) = true then (['^'] : List Char) else []),
      letterOf p, octsOf p, durSuffixStr ((k : ℚ)/4), ?_, ?_, hnote, hoctm,
      hdurchars⟩
    · unfold midi_to_abc
      rw [midiPitchStr_decomp, hbridge]
    · intro c hc
      by_cases h : sharpOf p
      · rw [if_pos (by simp [h])] at hc
        obtain rfl : c = '^' := by simpa using hc
        decide
      · rw [if_neg (by simp [h])] at hc
        simp at hc

theorem pyStripChars_suffix {flat suffix : List Char} (hfne : flat ≠ [])
    (hfh : ∀ c, flat.head? = some c → (['[', ']'] : List Char).contains c = false)
    (hsl : ∀ c, suffix.getLast? = some c →
      (['[', ']'] : List Char).contains c = false)
    (hsne : suffix ≠ []) :
    pyStripChars ['[', ']'] ('[' :: flat ++ ']' :: suffix) = flat ++ ']' :: suffix := by
  unfold pyStripChars
  rw [show '[' :: flat ++ ']' :: suffix = '[' :: (flat ++ ']' :: suffix)
    from by simp]
  have hinner : ('[' :: (flat ++ ']' :: suffix)).dropWhile
      (fun x => (['[', ']'] : List Char).contains x) = flat ++ ']' :: suffix := by
    rw [List.dropWhile_cons, if_pos (by decide)]
    refine dropWhile_self_of_head ?_
    intro c hc
    rw [head?_append_left hfne] at hc
    exact hfh c hc
  rw [hinner]
  rw [dropWhile_self_of_head ?h2, List.reverse_reverse]
  case h2 =>
    intro c hc
    rw [List.head?_reverse] at hc
    rw [getLast?_append_right (by simp),
      show (']' :: suffix) = [']'] ++ suffix from rfl,
      getLast?_append_right hsne] at hc
    exact hsl c hc

theorem pyStripChars_nosuffix {flat : List Char} (hfne : flat ≠ [])
    (hfh : ∀ c, flat.head? = some c → (['[', ']'] : List Char).contains c = false)
    (hfl : ∀ c, flat.getLast? = some c →
      (['[', ']'] : List Char).contains c = false) :
    pyStripChars ['[', ']'] ('[' :: flat ++ [']']) = flat := by
  unfold pyStripChars
  rw [show '[' :: flat ++ [']'] = '[' :: (flat ++ [']']) from by simp]
  have hinner : ('[' :: (flat ++ [']'])).dropWhile
      (fun x => (['[', ']'] : List Char).contains x) = flat ++ [']'] := by
    rw [List.dropWhile_cons, if_pos (by decide)]
    refine dropWhile_self_of_head ?_
    intro c hc
    rw [head?_append_left hfne] at hc
    exact hfh c hc
  rw [hinner]
  rw [show (flat ++ [']']).reverse = ']' :: flat.reverse from by simp]
  rw [List.dropWhile_cons, if_pos (by decide)]
  rw [dropWhile_self_of_head ?h2, List.reverse_reverse]
  case h2 =>
    intro c hc
    rw [List.head?_reverse] at hc
    exact hfl c hc

theorem chord_fold : ∀ (ps : List Int), (∀ p ∈ ps, 0 ≤ p ∧ p ≤ 127) →
    ∀ acc : List (Int × ℚ),
    ((ps.map midiPitchStr).foldlM (fun acc tok =>
      match parse_abc_note tok with
      | .ok (midi, _) => .ok (acc ++ [(midi, (1 : ℚ))])
      | .error (.valueError _) => .ok acc
      | .error .zeroDivisionError => .error .zeroDivisionError) acc :
        Except PyErr (List (Int × ℚ))) =
    .ok (acc ++ ps.map (fun p => (p, (1 : ℚ))))
  | [], _, acc => by
      simp only [List.map_nil, List.foldlM_nil, List.append_nil]
      rfl
  | p :: ps, hall, acc => by
      obtain ⟨h0, h127⟩ := hall p (List.mem_cons_self _ _)
      have hparse := (parse_abc_note_pitch h0 h127).1
      simp only [List.map_cons, List.foldlM_cons, hparse]
      have ih := chord_fold ps (fun x hx => hall x (List.mem_cons_of_mem _ hx))
        (acc ++ [(p, (1 : ℚ))])
      exact ih.trans (by simp)

theorem isDurChar_junk {c : Char} (h : isDurChar c = true) :
    (isChordLetter c = false ∧ c ≠ '^' ∧ c ≠ '_' ∧ c ≠ '=') ∧
    isOctChar c = false := by
  rcases isDurChar_cases h with hd | rfl
  · have hacc := (isDigit_ne_chars₂ hd).2.2.2.2.2.2.1
    have hoct := (isDigit_ne_chars₂ hd).2.2.2.2.2.1
    refine ⟨⟨?_, ?_, ?_, ?_⟩, hoct⟩
    · by_contra hb
      rw [Bool.not_eq_false] at hb
      rw [isChordLetter_not_digit hb] at hd
      cases hd
    · intro hcc; rw [hcc] at hacc; exact absurd hacc (by decide)
    · intro hcc; rw [hcc] at hacc; exact absurd hacc (by decide)
    · intro hcc; rw [hcc] at hacc; exact absurd hacc (by decide)
  · exact ⟨⟨by decide, by decide, by decide, by decide⟩, by decide⟩

theorem flat_shapes {ps : List Int} (hall : ∀ p ∈ ps, 0 ≤ p ∧ p ≤ 127) :
    ∀ m ∈ ps.map midiPitchStr, PitchShape m := by
  intro m hm
  obtain ⟨p, hp, rfl⟩ := List.mem_map.mp hm
  exact (parse_abc_note_pitch (hall p hp).1 (hall p hp).2).2

theorem flat_char {ps : List Int} (hall : ∀ p ∈ ps, 0 ≤ p ∧ p ≤ 127) :
    ∀ c ∈ (ps.map midiPitchStr).flatten,
      c.isDigit = false ∧ c ≠ '/' ∧ c ≠ ']' ∧ c ≠ '[' ∧ isNoteTokChar c = true := by
  intro c hc
  obtain ⟨m, hm, hcm⟩ := List.mem_flatten.mp hc
  exact PitchShape_char (flat_shapes hall m hm) hcm

theorem flat_ne_nil {ps : List Int} (hne : ps ≠ [])
    (hall : ∀ p ∈ ps, 0 ≤ p ∧ p ≤ 127) :
    (ps.map midiPitchStr).flatten ≠ [] := by
  cases ps with
  | nil => exact absurd rfl hne
  | cons p t =>
      simp only [List.map_cons, List.flatten_cons]
      have := PitchShape_ne_nil ((parse_abc_note_pitch
        (hall p (List.mem_cons_self _ _)).1 (hall p (List.mem_cons_self _ _)).2).2)
      intro h0
      rw [List.append_eq_nil] at h0
      exact this h0.1

theorem flat_head {ps : List Int} (hne : ps ≠ [])
    (hall : ∀ p ∈ ps, 0 ≤ p ∧ p ≤ 127) :
    ∀ c, (ps.map midiPitchStr).flatten.head? = some c →
      (['[', ']'] : List Char).contains c = false := by
  intro c hc
  have := (flat_char hall c (mem_of_head?_vp hc)).2.2.2
  have h2 := (flat_char hall c (mem_of_head?_vp hc)).2.2.1
  simp [this, h2]

theorem flat_last {ps : List Int} (hne : ps ≠ [])
    (hall : ∀ p ∈ ps, 0 ≤ p ∧ p ≤ 127) :
    ∀ c, (ps.map midiPitchStr).flatten.getLast? = some c →
      (['[', ']'] : List Char).contains c = false := by
  intro c hc
  have hm := List.mem_of_getLast?_eq_some hc
  have := (flat_char hall c hm).2.2.2
  have h2 := (flat_char hall c hm).2.2.1
  simp [this, h2]

/-- `parse_abc_chord` on a serialized chord without duration suffix. -/
theorem parse_abc_chord_nosuffix {ps : List Int} (hne : ps ≠ [])
    (hall : ∀ p ∈ ps, 0 ≤ p ∧ p ≤ 127) :
    parse_abc_chord ('[' :: (ps.map midiPitchStr).flatten ++ [']']) =
      .ok (ps.map (fun p => (p, (1 : ℚ)))) := by
  simp only [parse_abc_chord]
  rw [pyStripChars_nosuffix (flat_ne_nil hne hall) (flat_head hne hall)
    (flat_last hne hall)]
  rw [if_neg (flat_ne_nil hne hall)]
  rw [show (ps.map midiPitchStr).flatten = (ps.map midiPitchStr).flatten ++ []
    from by simp]
  rw [chordScan_members (ps.map midiPitchStr) [] (flat_shapes hall)
    (by intro c hc; cases hc)]
  exact (chord_fold ps hall []).trans (by simp)

/-- `parse_abc_chord` on a serialized chord with a duration suffix; the
suffix contributes no members. -/
theorem parse_abc_chord_suffix {ps : List Int} {suffix : List Char}
    (hne : ps ≠ []) (hall : ∀ p ∈ ps, 0 ≤ p ∧ p ≤ 127)
    (hsuf : ∀ c ∈ suffix, isDurChar c = true) (hsufne : suffix ≠ []) :
    parse_abc_chord ('[' :: (ps.map midiPitchStr).flatten ++ ']' :: suffix) =
      .ok (ps.map (fun p => (p, (1 : ℚ)))) := by
  simp only [parse_abc_chord]
  have hsl : ∀ c, suffix.getLast? = some c →
      (['[', ']'] : List Char).contains c = false := by
    intro c hc
    have hd := hsuf c (List.mem_of_getLast?_eq_some hc)
    have h1 := (isDurChar_ne hd).2.2.2.2.1
    rcases isDurChar_cases hd with hdig | rfl
    · simp [(isDigit_ne_chars₂ hdig).1, h1]
    · decide
  rw [pyStripChars_suffix (flat_ne_nil hne hall) (flat_head hne hall) hsl hsufne]
  rw [if_neg (by simp)]
  rw [show (ps.map midiPitchStr).flatten ++ ']' :: suffix =
    (ps.map midiPitchStr).flatten ++ (']' :: suffix) from by simp]
  rw [chordScan_members (ps.map midiPitchStr) (']' :: suffix) (flat_shapes hall)
    ?hjunk]
  case hjunk =>
    intro c hc
    rcases List.mem_cons.mp hc with rfl | hc
    · exact ⟨⟨by decide, by decide, by decide, by decide⟩, by decide⟩
    · exact isDurChar_junk (hsuf c hc)
  exact (chord_fold ps hall []).trans (by simp)

/-- The serialized chord token is scanner-well-shaped. -/
theorem serializedChord_shape {ps : List Int} {suffix : List Char}
    (hall : ∀ p ∈ ps, 0 ≤ p ∧ p ≤ 127)
    (hsuf : ∀ c ∈ suffix, isDurChar c = true) :
    ChordShape ('[' :: (ps.map midiPitchStr).flatten ++ ']' :: suffix) := by
  refine ⟨(ps.map midiPitchStr).flatten, suffix, rfl, ?_, ?_, hsuf⟩
  · intro hmem
    exact (flat_char hall ']' hmem).2.2.1 rfl
  · intro c hc
    exact (flat_char hall c hc).2.2.2.2

/-- The shared start beat of a nonempty note group. -/
def groupStart (g : List NoteEvent) : ℚ :=
  ((g.head?.map (fun n => n.startBeat)).getD 0)

/-- The shared duration of a nonempty note group (the serializer reads the
first note's duration, validate_program.py:456-457). -/
def groupDur (g : List NoteEvent) : ℚ :=
  ((g.head?.map (fun n => n.lengthBeats)).getD 1)

/-- The start beats of the groups in order. -/
def startTimes (gs : List (List NoteEvent)) : List ℚ := gs.map groupStart

theorem groupStart_eq {g : List NoteEvent} {t d : ℚ} (hg : g ≠ [])
    (hall : ∀ n ∈ g, n.startBeat = t ∧ 0 ≤ n.pitch ∧ n.pitch ≤ 127 ∧
      n.lengthBeats = d) : groupStart g = t := by
  cases g with
  | nil => exact absurd rfl hg
  | cons n r =>
      simp only [groupStart, List.head?_cons, Option.map_some, Option.getD_some]
      exact (hall n (List.mem_cons_self _ _)).1

theorem groupDur_eq {g : List NoteEvent} {t d : ℚ} (hg : g ≠ [])
    (hall : ∀ n ∈ g, n.startBeat = t ∧ 0 ≤ n.pitch ∧ n.pitch ≤ 127 ∧
      n.lengthBeats = d) : groupDur g = d := by
  cases g with
  | nil => exact absurd rfl hg
  | cons n r =>
      simp only [groupDur, List.head?_cons, Option.map_some, Option.getD_some]
      exact (hall n (List.mem_cons_self _ _)).2.2.2

theorem rep_dur_ge {g : List NoteEvent} {d : ℚ}
    (hrep : if g.length = 1 then QuarterPos d else ChordRepDur d) :
    1/4 ≤ d := by
  by_cases h : g.length = 1
  · rw [if_pos h] at hrep
    exact QuarterPos_ge hrep
  · rw [if_neg h] at hrep
    exact ChordRepDur_ge hrep

/-- Every note of a contiguous tail starts no earlier than the tail's start. -/
theorem contiguous_lb : ∀ {gs : List (List NoteEvent)} {t : ℚ},
    ContiguousFrom t gs → ∀ n ∈ gs.flatten, t ≤ n.startBeat
  | [], _, _, n, hn => by simp at hn
  | g :: gs, t, h, n, hn => by
      obtain ⟨d, hg, hall, hrep, hnext⟩ := h
      rcases (by simpa using hn : n ∈ g ∨ ∃ l ∈ gs, n ∈ l) with hn | ⟨l, hl, hn⟩
      · rw [(hall n hn).1]
      · have := contiguous_lb hnext n (List.mem_flatten.mpr ⟨l, hl, hn⟩)
        have hd := rep_dur_ge hrep
        linarith

/-- The group start beats of a contiguous family are strictly increasing. -/
theorem contiguous_chain : ∀ {gs : List (List NoteEvent)} {t : ℚ},
    ContiguousFrom t gs →
    List.Chain' (· < ·) (startTimes gs) ∧ (∀ x ∈ startTimes gs, t ≤ x)
  | [], _, _ => ⟨List.chain'_nil, by simp [startTimes]⟩
  | g :: gs, t, h => by
      obtain ⟨d, hg, hall, hrep, hnext⟩ := h
      obtain ⟨ihchain, ihlb⟩ := contiguous_chain hnext
      have hd := rep_dur_ge hrep
      have hst : groupStart g = t := groupStart_eq hg hall
      constructor
      · simp only [startTimes, List.map_cons]
        rw [List.chain'_cons']
        refine ⟨?_, ihchain⟩
        intro y hy
        have hym : y ∈ List.map groupStart gs := by
          cases hgs : List.map groupStart gs with
          | nil => rw [hgs] at hy; cases hy
          | cons a r =>
              rw [hgs] at hy
              simp only [List.head?_cons, Option.mem_def, Option.some.injEq] at hy
              rw [← hy]
              exact List.mem_cons_self _ _
        have hley := ihlb y hym
        rw [hst]
        linarith
      · intro x hx
        simp only [startTimes, List.map_cons] at hx
        rcases List.mem_cons.mp hx with rfl | hx
        · rw [hst]
        · have := ihlb x hx
          linarith

/-- Membership in the start beats of a contiguous family. -/
theorem contiguous_mem_iff : ∀ {gs : List (List NoteEvent)} {t : ℚ},
    ContiguousFrom t gs →
    ∀ x, (x ∈ gs.flatten.map (fun n => n.startBeat) ↔ x ∈ startTimes gs)
  | [], _, _, x => by simp [startTimes]
  | g :: gs, t, h, x => by
      obtain ⟨d, hg, hall, hrep, hnext⟩ := h
      have hst : groupStart g = t := groupStart_eq hg hall
      have ih := contiguous_mem_iff hnext x
      simp only [startTimes, List.map_cons, List.flatten_cons, List.map_append,
        List.mem_append, List.mem_cons]
      constructor
      · rintro (hx | hx)
        · obtain ⟨n, hn, rfl⟩ := List.mem_map.mp hx
          left
          rw [hst, (hall n hn).1]
        · right
          exact (by simpa [startTimes] using ih.mp hx)
      · rintro (rfl | hx)
        · left
          cases g with
          | nil => exact absurd rfl hg
          | cons n r =>
              refine List.mem_map.mpr ⟨n, List.mem_cons_self _ _, ?_⟩
              rw [(hall n (List.mem_cons_self _ _)).1, ← hst]
        · right
          exact ih.mpr (by simpa [startTimes] using hx)

theorem insertSorted_eq (x : ℚ) : ∀ (l : List ℚ),
    insertSorted x l = List.orderedInsert (· ≤ ·) x l
  | [] => rfl
  | y :: r => by
      unfold insertSorted List.orderedInsert
      rw [insertSorted_eq x r]

theorem sortQ_eq (l : List ℚ) : sortQ l = l.insertionSort (· ≤ ·) := by
  induction l with
  | nil => rfl
  | cons a r ih =>
      unfold sortQ at ih ⊢
      simp only [List.foldr_cons, List.insertionSort]
      rw [ih, insertSorted_eq]

/-- Sorting the deduplicated start beats of a contiguous program yields the
group start beats in order. -/
theorem sortQ_dedup_eq {gs : List (List NoteEvent)} {t : ℚ}
    (h : ContiguousFrom t gs) :
    sortQ ((gs.flatten.map (fun n => n.startBeat)).dedup) = startTimes gs := by
  obtain ⟨hchain, _⟩ := contiguous_chain h
  have hpair : (startTimes gs).Pairwise (· < ·) := List.chain'_iff_pairwise.mp hchain
  have hnodup2 : (startTimes gs).Nodup := hpair.imp ne_of_lt
  have hsorted2 : (startTimes gs).Sorted (· ≤ ·) := hpair.imp le_of_lt
  rw [sortQ_eq]
  refine List.eq_of_perm_of_sorted ?_ (List.sorted_insertionSort _ _) hsorted2
  refine ((List.perm_insertionSort _ _).trans ?_)
  refine (List.perm_ext_iff_of_nodup (List.nodup_dedup _) hnodup2).mpr ?_
  intro a
  rw [List.mem_dedup]
  exact contiguous_mem_iff h a

/-- Filtering the whole note list by a group's start beat recovers exactly
that group. -/
theorem filter_groups : ∀ {gs : List (List NoteEvent)} {t : ℚ}
    (_ : ContiguousFrom t gs) {pre : List NoteEvent}
    (_ : ∀ n ∈ pre, n.startBeat < t) {g' : List NoteEvent} {t' : ℚ},
    (g', t') ∈ gs.zip (startTimes gs) →
    (pre ++ gs.flatten).filter (fun n => n.startBeat = t') = g'
  | [], _, _, _, _, _, _, hmem => by simp [startTimes] at hmem
  | g :: gs, t, h, pre, hpre, g', t', hmem => by
      obtain ⟨d, hg, hall, hrep, hnext⟩ := h
      have hst : groupStart g = t := groupStart_eq hg hall
      have hd := rep_dur_ge hrep
      simp only [startTimes, List.map_cons, List.zip_cons_cons, List.mem_cons] at hmem
      rcases hmem with heq | hmem
      · have h1 : g' = g := congrArg Prod.fst heq
        have h2 : t' = groupStart g := congrArg Prod.snd heq
        rw [h1, h2, hst]
        have h1 : pre.filter (fun n => decide (n.startBeat = t)) = [] := by
          refine List.filter_eq_nil_iff.mpr ?_
          intro n hn
          simp only [decide_eq_true_eq]
          exact ne_of_lt (hpre n hn)
        have h2 : g.filter (fun n => decide (n.startBeat = t)) = g := by
          refine List.filter_eq_self.mpr ?_
          intro n hn
          simp only [decide_eq_true_eq]
          exact (hall n hn).1
        have h3 : gs.flatten.filter (fun n => decide (n.startBeat = t)) = [] := by
          refine List.filter_eq_nil_iff.mpr ?_
          intro n hn
          simp only [decide_eq_true_eq]
          have := contiguous_lb hnext n hn
          intro heq2
          rw [heq2] at this
          linarith
        rw [show (g :: gs).flatten = g ++ gs.flatten from by simp]
        rw [List.filter_append, List.filter_append, h1, h2, h3]
        simp
      · have hpre2 : ∀ n ∈ pre ++ g, n.startBeat < t + d := by
          intro n hn
          rcases List.mem_append.mp hn with hn | hn
          · have := hpre n hn
            linarith
          · rw [(hall n hn).1]
            linarith
        have hfwd := @filter_groups gs (t + d) hnext (pre ++ g) hpre2 g' t' hmem
        rw [show (g :: gs).flatten = g ++ gs.flatten from by simp,
          ← List.append_assoc]
        exact hfwd

theorem midi_to_abc_one (p : Int) : midi_to_abc p 1 = midiPitchStr p := by
  unfold midi_to_abc
  rw [durSuffixStr_one, List.append_nil]

theorem NoteShape_no_bracket {w : List Char} (h : NoteShape w) :
    ∀ c ∈ w, c ≠ '[' := by
  obtain ⟨accs, lc, octs, durs, rfl, haccs, hl, hocts, hdurs⟩ := h
  intro c hc
  rcases List.mem_append.mp hc with hc | hc
  · rcases List.mem_append.mp hc with hc | hc
    · rcases isAccChar_cases (haccs c hc) with rfl | rfl | rfl <;> decide
    · rcases List.mem_cons.mp hc with rfl | hc
      · exact (isNoteLetter_ne hl).2.2.1
      · rcases isOctChar_cases (hocts c hc) with rfl | rfl <;> decide
  · rcases isDurChar_cases (hdurs c hc) with hd | rfl
    · exact (isDigit_ne_chars₂ hd).1
    · decide

theorem serializeGroup_single (n : NoteEvent) :
    serializeGroup [n] = midi_to_abc n.pitch n.lengthBeats := rfl

theorem chord_notes_eq (g : List NoteEvent) :
    g.map (fun n => midi_to_abc n.pitch 1) =
      (g.map (fun n => n.pitch)).map midiPitchStr := by
  rw [List.map_map]
  exact List.map_congr_left (fun n _ => midi_to_abc_one n.pitch)

theorem serializeGroup_chord (a b : NoteEvent) (rest : List NoteEvent) :
    serializeGroup (a :: b :: rest) =
      ('[' :: (((a :: b :: rest).map (fun n => n.pitch)).map midiPitchStr).flatten
        ++ [']']) ++ chordDurSuffixStr a.lengthBeats := by
  show ('[' :: ((a :: b :: rest).map (fun n => midi_to_abc n.pitch 1)).flatten
      ++ [']']) ++ chordDurSuffixStr
        ((((a :: b :: rest).head?).map (fun n => n.lengthBeats)).getD 1) = _
  rw [chord_notes_eq]
  rfl

set_option maxHeartbeats 1000000 in
/-- One builder step on a serialized uniform group: appends the group's
events at the cursor and advances the cursor by the shared duration. -/
theorem buildTok_group {g : List NoteEvent} {t d v : ℚ} {ns : List NoteEvent}
    {errs : List (List Char)} (hg : g ≠ [])
    (hall : ∀ n ∈ g, n.startBeat = t ∧ 0 ≤ n.pitch ∧ n.pitch ≤ 127 ∧
      n.lengthBeats = d)
    (hrep : if g.length = 1 then QuarterPos d else ChordRepDur d) :
    buildTok v ⟨ns, t, errs⟩ (serializeGroup g) =
      .ok ⟨ns ++ g.map (fun n => ⟨n.pitch, t, d, v⟩), t + d, errs⟩ := by
  cases g with
  | nil => exact absurd rfl hg
  | cons n₁ gtail =>
    cases gtail with
    | nil =>
        rw [serializeGroup_single]
        obtain ⟨ht, h0, h127, hd⟩ := hall n₁ (List.mem_cons_self _ _)
        rw [if_pos (show ([n₁] : List NoteEvent).length = 1 from rfl)] at hrep
        obtain ⟨k, hk, hkd⟩ := hrep
        rw [hd, hkd]
        obtain ⟨hparse, hshape⟩ := @serialized_note_parse n₁.pitch k h0 h127 hk
        simp only [buildTok]
        rw [if_neg ?hbr]
        case hbr =>
          intro hh
          exact NoteShape_no_bracket hshape '[' (mem_of_head?_vp hh) rfl
        rw [hparse]
        show Except.ok _ = _
        rw [if_pos (show n₁.pitch ≥ 0 from h0)]
        simp
    | cons n₂ rest =>
        rw [serializeGroup_chord]
        obtain ⟨ht, h0, h127, hd⟩ := hall n₁ (List.mem_cons_self _ _)
        rw [if_neg (by simp)] at hrep
        have hpsne : (n₁ :: n₂ :: rest).map (fun n => n.pitch) ≠ [] := by simp
        have hpsall : ∀ p ∈ (n₁ :: n₂ :: rest).map (fun n => n.pitch),
            0 ≤ p ∧ p ≤ 127 := by
          intro p hp
          obtain ⟨n, hn, rfl⟩ := List.mem_map.mp hp
          exact ⟨(hall n hn).2.1, (hall n hn).2.2.1⟩
        rw [hd]
        have hmapmap : ∀ dd : ℚ,
            (((n₁ :: n₂ :: rest).map (fun n => n.pitch)).map
              (fun p => (p, (1 : ℚ)))).map
                (fun p => (⟨p.1, t, dd, v⟩ : NoteEvent)) =
            (n₁ :: n₂ :: rest).map (fun n => (⟨n.pitch, t, dd, v⟩ : NoteEvent)) := by
          intro dd
          rw [List.map_map, List.map_map]
          exact List.map_congr_left (fun n _ => rfl)
        rcases hrep with rfl | rfl | ⟨k, hk, rfl⟩
        · rw [chordDurSuffixStr_quarter]
          rw [show ('[' :: (((n₁ :: n₂ :: rest).map (fun n => n.pitch)).map
              midiPitchStr).flatten ++ [']']) ++ str "/4" =
            '[' :: (((n₁ :: n₂ :: rest).map (fun n => n.pitch)).map
              midiPitchStr).flatten ++ ']' :: str "/4" from by simp [str]]
          simp only [buildTok]
          rw [if_pos (by rfl)]
          rw [parse_abc_chord_suffix hpsne hpsall (by decide) (by decide)]
          rw [chordDurOf_with_suffix (by decide) (by decide)]
          rw [if_pos (by decide)]
          rw [show parseFracDur (str "/4") = Except.ok (1/4 : ℚ) from by decide!]
          show Except.ok _ = _
          rw [hmapmap]
        · rw [chordDurSuffixStr_half]
          rw [show ('[' :: (((n₁ :: n₂ :: rest).map (fun n => n.pitch)).map
              midiPitchStr).flatten ++ [']']) ++ str "/2" =
            '[' :: (((n₁ :: n₂ :: rest).map (fun n => n.pitch)).map
              midiPitchStr).flatten ++ ']' :: str "/2" from by simp [str]]
          simp only [buildTok]
          rw [if_pos (by rfl)]
          rw [parse_abc_chord_suffix hpsne hpsall (by decide) (by decide)]
          rw [chordDurOf_with_suffix (by decide) (by decide)]
          rw [if_pos (by decide)]
          rw [show parseFracDur (str "/2") = Except.ok (1/2 : ℚ) from by decide!]
          show Except.ok _ = _
          rw [hmapmap]
        · by_cases hk1 : k = 1
          · subst hk1
            rw [show ((1 : Nat) : ℚ) = 1 from by norm_num]
            rw [chordDurSuffixStr_one, List.append_nil]
            simp only [buildTok]
            rw [if_pos (by rfl)]
            rw [parse_abc_chord_nosuffix hpsne hpsall]
            rw [chordDurOf_no_suffix (flat_ne_nil hpsne hpsall) ?hflc]
            case hflc =>
              intro c hc
              have := flat_char hpsall c hc
              exact ⟨this.1, this.2.1, this.2.2.1⟩
            show Except.ok _ = _
            rw [hmapmap]
          · have hk2 : 2 ≤ k := by omega
            rw [chordDurSuffixStr_nat k hk2]
            rw [show ('[' :: (((n₁ :: n₂ :: rest).map (fun n => n.pitch)).map
                midiPitchStr).flatten ++ [']']) ++ natStr k =
              '[' :: (((n₁ :: n₂ :: rest).map (fun n => n.pitch)).map
                midiPitchStr).flatten ++ ']' :: natStr k from by simp]
            simp only [buildTok]
            rw [if_pos (by rfl)]
            rw [parse_abc_chord_suffix hpsne hpsall
              (fun c hc => by simp [isDurChar, natStr_all_digits k c hc])
              (natStr_ne_nil k)]
            rw [chordDurOf_with_suffix (durPatMatch_natStr k) ?hlstd]
            case hlstd =>
              intro x hx
              have hd2 := natStr_all_digits k x (List.mem_of_getLast?_eq_some hx)
              exact (isDigit_ne_chars₂ hd2).2.1
            rw [if_neg ?hnsl]
            case hnsl =>
              rw [digits_no_slash (natStr_all_digits k)]
              simp
            rw [pyFloatE_natStr]
            show Except.ok _ = _
            rw [hmapmap]

theorem head?_append_left' {α} {a b : List α} (h : a ≠ []) :
    (a ++ b).head? = a.head? := by
  cases a with
  | nil => exact absurd rfl h
  | cons x t => rfl

theorem getLast?_append_right' {α} {a b : List α} (h : b ≠ []) :
    (a ++ b).getLast? = b.getLast? := by
  rw [← List.head?_reverse, List.reverse_append,
    head?_append_left' (by simpa using h), List.head?_reverse]

theorem mem_zip_right {α β} : ∀ {l1 : List α} {l2 : List β} {b : β},
    l1.length = l2.length → b ∈ l2 → ∃ a, (a, b) ∈ l1.zip l2
  | [], [], b, _, hb => by cases hb
  | [], y :: t2, b, hlen, _ => by cases hlen
  | x :: t1, [], b, hlen, hb => by cases hb
  | x :: t1, y :: t2, b, hlen, hb => by
      rcases List.mem_cons.mp hb with rfl | hb
      · exact ⟨x, List.mem_cons_self _ _⟩
      · obtain ⟨a, ha⟩ := mem_zip_right (by simpa using hlen) hb
        exact ⟨a, List.mem_cons_of_mem _ ha⟩

theorem map_eq_of_zip {α β γ} {f : α → γ} {h : β → γ} :
    ∀ {l1 : List α} {l2 : List β}, l1.length = l2.length →
      (∀ pr ∈ l1.zip l2, h pr.2 = f pr.1) → l2.map h = l1.map f
  | [], [], _, _ => rfl
  | [], y :: t2, hlen, _ => by cases hlen
  | x :: t1, [], hlen, _ => by cases hlen
  | x :: t1, y :: t2, hlen, hzip => by
      simp only [List.map_cons]
      rw [hzip (x, y) (List.mem_cons_self _ _),
        map_eq_of_zip (by simpa using hlen)
          (fun pr hpr => hzip pr (List.mem_cons_of_mem _ hpr))]

/-- Every group of a contiguous family is nonempty and uniform. -/
theorem contiguous_group_facts : ∀ {gs : List (List NoteEvent)} {t : ℚ},
    ContiguousFrom t gs → ∀ g' ∈ gs,
    ∃ t' d, g' ≠ [] ∧
      (∀ n ∈ g', n.startBeat = t' ∧ 0 ≤ n.pitch ∧ n.pitch ≤ 127 ∧
        n.lengthBeats = d) ∧
      (if g'.length = 1 then QuarterPos d else ChordRepDur d)
  | [], _, _, g', hg' => by cases hg'
  | g :: gs, t, h, g', hg' => by
      obtain ⟨d, hg, hall, hrep, hnext⟩ := h
      rcases List.mem_cons.mp hg' with rfl | hg'
      · exact ⟨t, d, hg, hall, hrep⟩
      · exact contiguous_group_facts hnext g' hg'

/-- A serialized uniform group is a good token. -/
theorem serializeGroup_good {g : List NoteEvent} {t d : ℚ} (hg : g ≠ [])
    (hall : ∀ n ∈ g, n.startBeat = t ∧ 0 ≤ n.pitch ∧ n.pitch ≤ 127 ∧
      n.lengthBeats = d)
    (hrep : if g.length = 1 then QuarterPos d else ChordRepDur d) :
    GoodTok (serializeGroup g) := by
  cases g with
  | nil => exact absurd rfl hg
  | cons n₁ gtail =>
    cases gtail with
    | nil =>
        rw [if_pos (show ([n₁] : List NoteEvent).length = 1 from rfl)] at hrep
        obtain ⟨ht, h0, h127, hd⟩ := hall n₁ (List.mem_cons_self _ _)
        obtain ⟨k, hk, hkd⟩ := hrep
        rw [serializeGroup_single, hd, hkd]
        exact Or.inl (@serialized_note_parse n₁.pitch k h0 h127 hk).2
    | cons n₂ rest =>
        rw [if_neg (by simp)] at hrep
        obtain ⟨ht, h0, h127, hd⟩ := hall n₁ (List.mem_cons_self _ _)
        have hpsall : ∀ p ∈ (n₁ :: n₂ :: rest).map (fun n => n.pitch),
            0 ≤ p ∧ p ≤ 127 := by
          intro p hp
          obtain ⟨n, hn, rfl⟩ := List.mem_map.mp hp
          exact ⟨(hall n hn).2.1, (hall n hn).2.2.1⟩
        rw [serializeGroup_chord, hd]
        have hsufchars : ∀ c ∈ chordDurSuffixStr d, isDurChar c = true := by
          rcases hrep with rfl | rfl | ⟨k, hk, rfl⟩
          · rw [chordDurSuffixStr_quarter]
            decide
          · rw [chordDurSuffixStr_half]
            decide
          · by_cases hk1 : k = 1
            · subst hk1
              rw [show ((1 : Nat) : ℚ) = 1 from by norm_num, chordDurSuffixStr_one]
              simp
            · rw [chordDurSuffixStr_nat k (by omega)]
              intro c hc
              simp [isDurChar, natStr_all_digits k c hc]
        refine Or.inr ?_
        rw [show ('[' :: (((n₁ :: n₂ :: rest).map (fun n => n.pitch)).map
            midiPitchStr).flatten ++ [']']) ++ chordDurSuffixStr d =
          '[' :: (((n₁ :: n₂ :: rest).map (fun n => n.pitch)).map
            midiPitchStr).flatten ++ ']' :: chordDurSuffixStr d from by simp]
        exact serializedChord_shape hpsall hsufchars

/-- The builder over the serialized groups of a contiguous family. -/
theorem abcBuild_groups : ∀ (gs : List (List NoteEvent)) (t v : ℚ)
    (ns : List NoteEvent), ContiguousFrom t gs →
    ∃ total, ((gs.map serializeGroup).foldlM (buildTok v) ⟨ns, t, []⟩ :
        Except PyErr BuildState) =
      .ok ⟨ns ++ gs.flatten.map (fun n =>
        ⟨n.pitch, n.startBeat, n.lengthBeats, v⟩), total, []⟩
  | [], t, v, ns, _ => ⟨t, by simp; rfl⟩
  | g :: gs, t, v, ns, h => by
      obtain ⟨d, hg, hall, hrep, hnext⟩ := h
      have hstep := @buildTok_group g t d v ns [] hg hall hrep
      obtain ⟨total, ih⟩ := abcBuild_groups gs (t + d) v
        (ns ++ g.map (fun n => ⟨n.pitch, t, d, v⟩)) hnext
      refine ⟨total, ?_⟩
      simp only [List.map_cons, List.foldlM_cons, hstep]
      refine ih.trans ?_
      have hgmap : g.map (fun n => (⟨n.pitch, t, d, v⟩ : NoteEvent)) =
          g.map (fun n => (⟨n.pitch, n.startBeat, n.lengthBeats, v⟩ : NoteEvent)) := by
        refine List.map_congr_left ?_
        intro n hn
        rw [(hall n hn).1, (hall n hn).2.2.2]
      rw [hgmap]
      simp

theorem serializeLoop_cons (by_time : ℚ → List NoteEvent) (bpb : Int)
    (t0 : ℚ) (rest : List ℚ) (nib : Nat) :
    serializeLoop by_time bpb (t0 :: rest) nib =
      (if pyFloorDiv t0 bpb > 0 ∧ nib > 0 ∧ pyMod t0 bpb < 1/100
        then [str "|"] else []) ++
        (serializeGroup (by_time t0) ::
          serializeLoop by_time bpb rest
            ((if pyFloorDiv t0 bpb > 0 ∧ nib > 0 ∧ pyMod t0 bpb < 1/100
              then 0 else nib) + 1)) := rfl

theorem serializeLoop_parts {by_time : ℚ → List NoteEvent} {bpb : Int} :
    ∀ (times : List ℚ) (nib : Nat),
      (∀ t' ∈ times, GoodTok (serializeGroup (by_time t'))) →
      (serializeLoop by_time bpb times nib).filter (fun p => p ≠ str "|") =
        times.map (fun t' => serializeGroup (by_time t')) ∧
      (∀ p ∈ serializeLoop by_time bpb times nib, p = str "|" ∨ GoodTok p)
  | [], nib, _ => ⟨rfl, by intro p hp; cases hp⟩
  | t0 :: rest, nib, hgood => by
      have hg0 := hgood t0 (List.mem_cons_self _ _)
      have htail := fun x hx => hgood x (List.mem_cons_of_mem _ hx)
      rw [serializeLoop_cons]
      by_cases hbar : pyFloorDiv t0 bpb > 0 ∧ nib > 0 ∧ pyMod t0 bpb < 1/100
      · rw [if_pos hbar, if_pos hbar]
        obtain ⟨ih1, ih2⟩ := @serializeLoop_parts by_time bpb rest (0 + 1) htail
        have hbf : List.filter (fun p => decide (p ≠ str "|")) [str "|"] = [] := by
          decide
        constructor
        · rw [List.filter_append, hbf, List.nil_append, List.filter_cons,
            if_pos (by simp [GoodTok_ne_bar hg0]), ih1]
          simp
        · intro q hq
          rcases List.mem_append.mp hq with hq | hq
          · exact Or.inl (by simpa using hq)
          · rcases List.mem_cons.mp hq with rfl | hq
            · exact Or.inr hg0
            · exact ih2 q hq
      · rw [if_neg hbar, if_neg hbar]
        obtain ⟨ih1, ih2⟩ := @serializeLoop_parts by_time bpb rest (nib + 1) htail
        constructor
        · rw [List.nil_append, List.filter_cons,
            if_pos (by simp [GoodTok_ne_bar hg0]), ih1]
          simp
        · intro q hq
          rw [List.nil_append] at hq
          rcases List.mem_cons.mp hq with rfl | hq
          · exact Or.inr hg0
          · exact ih2 q hq

theorem serializeLoop_head0 (by_time : ℚ → List NoteEvent) (bpb : Int)
    (t0 : ℚ) (rest : List ℚ) :
    serializeLoop by_time bpb (t0 :: rest) 0 =
      serializeGroup (by_time t0) :: serializeLoop by_time bpb rest 1 := by
  rw [serializeLoop_cons]
  rw [if_neg ?hno, if_neg ?hno2]
  case hno => rintro ⟨_, h, _⟩; omega
  case hno2 => rintro ⟨_, h, _⟩; omega
  rfl

theorem tokenize_z4 : tokenize_abc (str "z4 |") = [str "z4"] := by
  decide!

theorem parse_z4 : parse_abc_note (str "z4") = .ok (-1, 4) := by
  decide!

theorem buildTok_z4 (v : ℚ) :
    buildTok v ⟨[], 0, []⟩ (str "z4") =
      .ok ⟨[], 4, []⟩ := by
  unfold buildTok
  rw [if_neg (by decide)]
  rw [parse_z4]
  show Except.ok _ = _
  rw [if_neg (by decide)]
  norm_num

/-- C5 (amended): for a program whose notes split into contiguous uniform
groups from beat 0 — each group nonempty, sharing one start and one
representable duration, with pitches in MIDI range — serializing with
`program_to_abc` and re-parsing with `abc_to_program` succeeds with no
errors and reproduces every `(pitch, startBeat, lengthBeats)` triple
exactly. -/
theorem c5_contiguous_roundtrip (p : Program) (bpb : Int) (v : ℚ)
    (hwf : ProgramWF p) :
    ∃ p' : Program,
      abc_to_program (program_to_abc p bpb) bpb v = .ok (p', []) ∧
      p'.notes.map triple = p.notes.map triple := by
  obtain ⟨gs, hnotes, hcont⟩ := hwf
  by_cases hnil : p.notes = []
  · refine ⟨⟨quantizeBars 4 bpb, []⟩, ?_, by rw [hnil]⟩
    have hser : program_to_abc p bpb = str "z4 |" := by
      unfold program_to_abc
      rw [if_pos hnil]
    have hbuild : abcBuild [str "z4"] v = .ok ⟨[], 4, []⟩ := by
      unfold abcBuild
      simp only [List.foldlM_cons, List.foldlM_nil, buildTok_z4]
      rfl
    unfold abc_to_program
    rw [hser, tokenize_z4, hbuild]
    rfl
  · have hgs : gs ≠ [] := by
      rintro rfl
      exact hnil (by simpa using hnotes)
    have hzip : ∀ pr ∈ gs.zip (startTimes gs),
        p.notes.filter (fun n => n.startBeat = pr.2) = pr.1 := by
      intro pr hpr
      have := @filter_groups gs 0 hcont []
        (fun n hn => absurd hn (List.not_mem_nil n)) pr.1 pr.2
        (Prod.mk.eta ▸ hpr)
      rw [hnotes]
      simpa using this
    have hgood : ∀ t' ∈ startTimes gs,
        GoodTok (serializeGroup (p.notes.filter (fun n => n.startBeat = t'))) := by
      intro t' ht'
      obtain ⟨g', hg'mem⟩ := @mem_zip_right _ _ gs (startTimes gs) t'
        (by simp [startTimes]) ht'
      have hfg := hzip (g', t') hg'mem
      obtain ⟨t'', d, hne, hall, hrep⟩ :=
        contiguous_group_facts hcont g' (List.of_mem_zip hg'mem).1
      rw [show p.notes.filter (fun n => n.startBeat = t') = g' from hfg]
      exact serializeGroup_good hne hall hrep
    have hmap : (startTimes gs).map
        (fun t' => serializeGroup (p.notes.filter (fun n => n.startBeat = t'))) =
        gs.map serializeGroup :=
      map_eq_of_zip (by simp [startTimes])
        (fun pr hpr => congrArg serializeGroup (hzip pr hpr))
    obtain ⟨hfilter, hallparts⟩ :=
      @serializeLoop_parts (fun t' => p.notes.filter (fun n => n.startBeat = t'))
        bpb (startTimes gs) 0 hgood
    have hser : program_to_abc p bpb =
        List.intercalate (str " ")
          (serializeLoop (fun t' => p.notes.filter (fun n => n.startBeat = t'))
            bpb (startTimes gs) 0 ++ [str "|"]) := by
      simp only [program_to_abc]
      rw [if_neg hnil]
      rw [show sortQ ((p.notes.map (fun n => n.startBeat)).dedup) =
        startTimes gs from by rw [hnotes]; exact sortQ_dedup_eq hcont]
    obtain ⟨g₀, gs', rfl⟩ : ∃ g₀ gs', gs = g₀ :: gs' := by
      cases gs with
      | nil => exact absurd rfl hgs
      | cons a b => exact ⟨a, b, rfl⟩
    have hloop0 := serializeLoop_head0
      (fun t' => p.notes.filter (fun n => n.startBeat = t')) bpb
      (groupStart g₀) (startTimes gs')
    have htokeq : tokenize_abc (program_to_abc p bpb) =
        (g₀ :: gs').map serializeGroup := by
      rw [hser]
      rw [tokenize_abc_parts (by simp) ?hall ?hfirst ?hlast]
      case hall =>
        intro q hq
        rcases List.mem_append.mp hq with hq | hq
        · exact hallparts q hq
        · exact Or.inl (by simpa using hq)
      case hfirst =>
        intro w hw
        rw [head?_append_left' ?hne] at hw
        case hne =>
          rw [show startTimes (g₀ :: gs') = groupStart g₀ :: startTimes gs'
            from rfl, hloop0]
          simp
        rw [show startTimes (g₀ :: gs') = groupStart g₀ :: startTimes gs'
          from rfl, hloop0] at hw
        simp only [List.head?_cons, Option.some.injEq] at hw
        subst hw
        exact hgood (groupStart g₀) (by simp [startTimes])
      case hlast =>
        rw [getLast?_append_right' (by simp)]
        rfl
      rw [List.filter_append]
      rw [show List.filter (fun q => decide (q ≠ str "|")) [str "|"] = []
        from by decide]
      rw [List.append_nil, hfilter, hmap]
    obtain ⟨total, hbuild⟩ := abcBuild_groups (g₀ :: gs') 0 v [] hcont
    refine ⟨⟨quantizeBars total bpb,
      (g₀ :: gs').flatten.map (fun n =>
        ⟨n.pitch, n.startBeat, n.lengthBeats, v⟩)⟩, ?_, ?_⟩
    · unfold abc_to_program
      rw [htokeq]
      rw [show abcBuild ((g₀ :: gs').map serializeGroup) v =
        ((g₀ :: gs').map serializeGroup).foldlM (buildTok v) ⟨[], 0, []⟩
        from rfl]
      rw [hbuild]
      simp only [List.nil_append]
      rfl
    · rw [hnotes, List.map_map]
      exact List.map_congr_left (fun n _ => rfl)

theorem c5_contiguous_roundtrip_witness :
    ProgramWF ⟨1, [⟨60, 0, 1, 4/5⟩, ⟨64, 1, 1/2, 4/5⟩, ⟨67, 1, 1/2, 4/5⟩]⟩ ∧
    ∃ p' : Program,
      abc_to_program
        (program_to_abc ⟨1, [⟨60, 0, 1, 4/5⟩, ⟨64, 1, 1/2, 4/5⟩,
          ⟨67, 1, 1/2, 4/5⟩]⟩ 4) 4 (9/10) = .ok (p', []) ∧
      p'.notes.map triple =
        ([⟨60, 0, 1, 4/5⟩, ⟨64, 1, 1/2, 4/5⟩,
          ⟨67, 1, 1/2, 4/5⟩] : List NoteEvent).map triple := by
  have hwf : ProgramWF ⟨1, [⟨60, 0, 1, 4/5⟩, ⟨64, 1, 1/2, 4/5⟩,
      ⟨67, 1, 1/2, 4/5⟩]⟩ := by
    refine ⟨[[⟨60, 0, 1, 4/5⟩], [⟨64, 1, 1/2, 4/5⟩, ⟨67, 1, 1/2, 4/5⟩]],
      by simp, ?_⟩
    refine ⟨1, by simp, ?_, ?_, ?_⟩
    · intro n hn
      simp only [List.mem_singleton] at hn
      subst hn
      refine ⟨rfl, by norm_num, by norm_num, rfl⟩
    · exact ⟨4, by norm_num, by norm_num⟩
    · refine ⟨1/2, by simp, ?_, ?_, trivial⟩
      · intro n hn
        rcases List.mem_cons.mp hn with rfl | hn
        · exact ⟨by norm_num, by norm_num, by norm_num, rfl⟩
        · simp only [List.mem_singleton] at hn
          subst hn
          exact ⟨by norm_num, by norm_num, by norm_num, rfl⟩
      · exact Or.inr (Or.inl rfl)
  exact ⟨hwf, c5_contiguous_roundtrip _ 4 (9/10) hwf⟩

end ValidateProgram
